import Mathlib

/-!
# shelver: the filename classifier, the planner loop and the move executor

A shallow embedding of `internal/parser/parser.go`, of the planner loop of
`cmd/shelver/main.go`, of `internal/mover/mover.go`, and of the library calls they make
(`regexp`, `strings.TrimSuffix`, `path/filepath`).

Modelling conventions.
* A Go string is modelled by the list of its runes (`Str`); strings are assumed to be
  valid UTF-8, so rune offsets and byte offsets determine each other.  Where the source
  indexes bytes, the UTF-8 encoding (`bytes`) is used.  `ParseGroupBytes` takes the marker
  as a byte string, for markers that are not UTF-8.
* `regexp` is modelled by a backtracking matcher that enumerates the outcomes of a
  pattern in priority order; the first outcome at the leftmost start is the match, which
  is the leftmost-first semantics documented for Go's `regexp` package.
* A Go panic (failed `MustCompile`, index out of range) is the value `none`.
* Paths use the Unix separator `/`.
* The file system is an abstract state and the operating system calls are parameters.
-/

namespace Shelver

/-- A Go string, as its sequence of runes. -/
abbrev Str := List Char

/-! ## Rune classes -/

/-- Perl class `\d`: an ASCII decimal digit. -/
def isDigit (c : Char) : Bool := decide (48 ≤ c.toNat) && decide (c.toNat ≤ 57)

/-- Perl class `\s` of Go's regexp syntax: `[\t\n\f\r ]`. -/
def isSpace (c : Char) : Bool :=
  c == '\t' || c == '\n' || c == '\x0c' || c == '\r' || c == ' '

/-- Bracket class `[-_.\s]`. -/
def isSep (c : Char) : Bool := c == '-' || c == '_' || c == '.' || isSpace c

/-- The dot: any rune but line feed (the patterns set no `s` flag). -/
def isAny (c : Char) : Bool := c != '\n'

/-! ## Regular expressions and the backtracking matcher -/

/-- The fragment of the regexp syntax used by the package. -/
inductive Regex where
  | empty : Regex
  | chr (c : Char) : Regex
  | cls (p : Char → Bool) : Regex
  | cat (a b : Regex) : Regex
  | alt (a b : Regex) : Regex
  | star (greedy : Bool) (r : Regex) : Regex
  | cap (i : Nat) (r : Regex) : Regex
  | bot : Regex
  | eot : Regex

/-- One state of the matcher: runes consumed since the beginning of the text, the
unread text, and the capture groups closed so far (most recent first). -/
structure Thread where
  pos : Nat
  rest : Str
  caps : List (Nat × Str)
deriving DecidableEq

/-- Iteration of a pattern: a greedy star prefers one more iteration, a lazy star prefers
to stop.  Each iteration has to consume input, so the length of the unread text, which
`run` passes as fuel, bounds the number of iterations. -/
def starRun (step : Thread → List Thread) (greedy : Bool) : Nat → Thread → List Thread
  | 0, t => [t]
  | fuel + 1, t =>
    let more := ((step t).filter (fun u => decide (u.rest.length < t.rest.length))).flatMap
      (starRun step greedy fuel)
    if greedy then more ++ [t] else t :: more

/-- All outcomes of matching a pattern from a thread, in priority order. -/
def run : Regex → Thread → List Thread
  | .empty, t => [t]
  | .chr c, t =>
    match t.rest with
    | d :: ds => if d = c then [⟨t.pos + 1, ds, t.caps⟩] else []
    | [] => []
  | .cls p, t =>
    match t.rest with
    | d :: ds => if p d then [⟨t.pos + 1, ds, t.caps⟩] else []
    | [] => []
  | .cat a b, t => (run a t).flatMap (fun u => run b u)
  | .alt a b, t => run a t ++ run b t
  | .star g r, t => starRun (fun u => run r u) g t.rest.length t
  | .cap i r, t =>
    (run r t).map (fun u => ⟨u.pos, u.rest, (i, t.rest.take (u.pos - t.pos)) :: u.caps⟩)
  | .bot, t => if t.pos = 0 then [t] else []
  | .eot, t => if t.rest = [] then [t] else []

/-- Number of capture groups (`NumSubexp`). -/
def numSubexp : Regex → Nat
  | .cat a b => numSubexp a + numSubexp b
  | .alt a b => numSubexp a + numSubexp b
  | .star _ r => numSubexp r
  | .cap _ r => numSubexp r + 1
  | _ => 0

/-- Leftmost-first search from offset `pos`, the unread text being the second argument:
the start offset of the match and its final thread. -/
def doExecute (re : Regex) : Nat → Str → Option (Nat × Thread)
  | pos, [] => (run re ⟨pos, [], []⟩).head?.map (fun u => (pos, u))
  | pos, c :: cs =>
    match run re ⟨pos, c :: cs, []⟩ with
    | u :: _ => some (pos, u)
    | [] => doExecute re (pos + 1) cs

/-- Text of capture group `i` in a final thread; a group that took no part is empty. -/
def capture (u : Thread) (i : Nat) : Str :=
  match u.caps.find? (fun e => e.1 == i) with
  | some e => e.2
  | none => []

/-- Model of `(*Regexp).FindStringSubmatch`: the whole match followed by the capture groups, or
the nil slice (here the empty list) when there is no match. -/
def FindStringSubmatch (re : Regex) (s : Str) : List Str :=
  match doExecute re 0 s with
  | none => []
  | some (start, u) =>
    ((s.drop start).take (u.pos - start)) ::
      (List.range (numSubexp re)).map (fun i => capture u (i + 1))

/-- The loop of `(*Regexp).replaceAll`, with `lastMatchEnd`, `searchPos` and `buf` as in the
library.  `searchPos` grows in every round and the loop ends once it exceeds the length of
`src`, so `ReplaceAllString` passes that length plus two as fuel. -/
def replaceAllLoop (re : Regex) (src repl : Str) : Nat → Nat → Nat → Str → Str
  | 0, lastMatchEnd, _, buf => buf ++ src.drop lastMatchEnd
  | fuel + 1, lastMatchEnd, searchPos, buf =>
    if src.length < searchPos then buf ++ src.drop lastMatchEnd
    else
      match doExecute re searchPos (src.drop searchPos) with
      | none => buf ++ src.drop lastMatchEnd
      | some (a0, u) =>
        let a1 := u.pos
        let buf1 := buf ++ (src.drop lastMatchEnd).take (a0 - lastMatchEnd)
        let buf2 := if lastMatchEnd < a1 ∨ a0 = 0 then buf1 ++ repl else buf1
        let width := if searchPos < src.length then 1 else 0
        let searchPos1 :=
          if a1 < searchPos + width then searchPos + width
          else if a1 < searchPos + 1 then searchPos + 1
          else a1
        replaceAllLoop re src repl fuel a1 searchPos1 buf2

/-- Model of `(*Regexp).ReplaceAllString` for a replacement without `$` expansions. -/
def ReplaceAllString (re : Regex) (src repl : Str) : Str :=
  replaceAllLoop re src repl (src.length + 2) 0 0 []

/-- The pattern `x+?`. -/
def plusLazy (r : Regex) : Regex := .cat r (.star false r)

/-- The pattern `x+`. -/
def plusGreedy (r : Regex) : Regex := .cat r (.star true r)

/-- The pattern `x?`. -/
def opt (r : Regex) : Regex := .alt r .empty

/-- The pattern `x{2,}`. -/
def atLeastTwo (r : Regex) : Regex := .cat r (.cat r (.star true r))

/-- Metacharacters escaped by `regexp.QuoteMeta`: the runes of `\.+*?()|[]{}^$`. -/
def special (c : Char) : Bool :=
  ['\\', '.', '+', '*', '?', '(', ')', '|', '[', ']', '\x7b', '\x7d', '^', '$'].contains c

/-- Model of `regexp.QuoteMeta`: a backslash before every metacharacter. -/
def QuoteMeta (s : Str) : Str :=
  s.flatMap (fun c => if special c then ['\\', c] else [c])

/-- Parser for the part of a pattern string made of literal runes: a rune that is not
a metacharacter stands for itself and so does a metacharacter after a backslash.
Anything else is outside the modelled fragment and is reported as a compile error. -/
def parseLiteral : Str → Option Regex
  | [] => some .empty
  | c :: cs =>
    if c = '\\' then
      match cs with
      | d :: ds =>
        if special d then
          match parseLiteral ds with
          | some r => some (.cat (.chr d) r)
          | none => none
        else none
      | [] => none
    else if special c then none
    else
      match parseLiteral cs with
      | some r => some (.cat (.chr c) r)
      | none => none

/-! ## UTF-8 bytes, paths and suffixes -/

/-- UTF-8 encoding of one rune. -/
def encodeRune (c : Char) : List Nat :=
  let v := c.toNat
  if v < 128 then [v]
  else if v < 2048 then [192 + v / 64, 128 + v % 64]
  else if v < 65536 then [224 + v / 4096, 128 + v / 64 % 64, 128 + v % 64]
  else [240 + v / 262144, 128 + v / 4096 % 64, 128 + v / 64 % 64, 128 + v % 64]

/-- Bytes of a string. -/
def bytes (s : Str) : List Nat := s.flatMap encodeRune

/-- Model of `os.IsPathSeparator` on Unix. -/
def IsPathSeparator (c : Char) : Bool := c == '/'

/-- The loop of `filepath.Ext`: `i + 1` is the number of runes still to scan from the right. -/
def extLoop (path : Str) : Nat → Str
  | 0 => []
  | i + 1 =>
    match path.get? i with
    | none => []
    | some c =>
      if IsPathSeparator c then []
      else if c = '.' then path.drop i
      else extLoop path i

/-- Model of `filepath.Ext`: the suffix beginning at the final dot of the final path element. -/
def Ext (path : Str) : Str := extLoop path path.length

/-- Model of `strings.TrimSuffix`. -/
def TrimSuffix (s suffix : Str) : Str :=
  if suffix.isSuffixOf s then s.take (s.length - suffix.length) else s

/-! ## internal/parser/parser.go -/

/-- The compiled `^(.+?)[-_.\s]*(\d{2,})$`. -/
def numericPattern : Regex :=
  .cat .bot
    (.cat (.cap 1 (plusLazy (.cls isAny)))
      (.cat (.star true (.cls isSep))
        (.cat (.cap 2 (atLeastTwo (.cls isDigit))) .eot)))

/-- The compiled `[-_.\s]+$`. -/
def separatorPattern : Regex :=
  .cat (plusGreedy (.cls isSep)) .eot

/-- Model of `regexp.MustCompile` applied to the string
`^(.+?)([-_.\s]?)` followed by `escapedPrefix` followed by `(\d{2,})`; `none` is the panic. -/
def compilePrefixPattern (escapedPrefix : Str) : Option Regex :=
  match parseLiteral escapedPrefix with
  | none => none
  | some lit =>
    some (.cat .bot
      (.cat (.cap 1 (plusLazy (.cls isAny)))
        (.cat (.cap 2 (opt (.cls isSep)))
          (.cat lit (.cap 3 (atLeastTwo (.cls isDigit)))))))

/-- Go function `tryNumericForm`. -/
def tryNumericForm (stem : Str) : Option (Str × Bool) :=
  let submatches := FindStringSubmatch numericPattern stem
  if submatches.length ≠ 3 then some ([], false)
  else
    match submatches.get? 1 with
    | none => none
    | some group0 =>
      let group := ReplaceAllString separatorPattern group0 []
      if group = [] then some ([], false)
      else some (group, true)

/-- The tail of `tryPrefixForm`, after the boundary check. -/
def stripGroup (groupPart : Str) : Option (Str × Bool) :=
  let group := ReplaceAllString separatorPattern groupPart []
  if group = [] then some ([], false)
  else some (group, true)

/-- Go function `tryPrefixForm`. -/
def tryPrefixForm (stem pfx : Str) : Option (Str × Bool) :=
  let escapedPrefix := QuoteMeta pfx
  match compilePrefixPattern escapedPrefix with
  | none => none
  | some pattern =>
    let submatches := FindStringSubmatch pattern stem
    if submatches.length ≠ 4 then some ([], false)
    else
      match submatches.get? 1, submatches.get? 2 with
      | some groupPart, some separator =>
        if separator = [] then
          if (bytes groupPart).length = 0 then some ([], false)
          else
            match (bytes groupPart).get? ((bytes groupPart).length - 1) with
            | none => none
            | some lastChar =>
              if lastChar ≠ 45 ∧ lastChar ≠ 95 ∧ lastChar ≠ 46 ∧ lastChar ≠ 32 then
                some ([], false)
              else stripGroup groupPart
        else stripGroup groupPart
      | _, _ => none

/-- Go function `ParseGroup`.  The parameter `prefix` of the source is written `pfx`. -/
def ParseGroup (filename pfx : Str) : Option (Str × Bool) :=
  let stem := TrimSuffix filename (Ext filename)
  if pfx ≠ [] then
    match tryPrefixForm stem pfx with
    | none => none
    | some (group, true) => some (group, true)
    | some (_, false) => tryNumericForm stem
  else tryNumericForm stem

/-! ## Auxiliary definitions for the proofs -/

/-- The thread that has read the first `j` runes of `s` as capture group 1. -/
def headThread (s : Str) (j : Nat) : Thread := ⟨j, s.drop j, [(1, s.take j)]⟩

/-- A pattern of the shape `^(.+?)` followed by `R`. -/
def anchored (R : Regex) : Regex :=
  .cat .bot (.cat (.cap 1 (plusLazy (.cls isAny))) R)

/-- The rest of `numericPattern` after the head: `[-_.\s]*(\d{2,})$`. -/
def numTailRe : Regex :=
  .cat (.star true (.cls isSep)) (.cat (.cap 2 (atLeastTwo (.cls isDigit))) .eot)

/-- The rest of the marker pattern after the head: `([-_.\s]?)`, the literal, `(\d{2,})`. -/
def pfxTailRe (lit : Regex) : Regex :=
  .cat (.cap 2 (opt (.cls isSep))) (.cat lit (.cap 3 (atLeastTwo (.cls isDigit))))

/-- The pattern matching exactly the runes of `m`. -/
def litRe : Str → Regex
  | [] => .empty
  | c :: cs => .cat (.chr c) (litRe cs)

/-- The text begins with two decimal digits. -/
def twoDigits : Str → Bool
  | a :: b :: _ => isDigit a && isDigit b
  | _ => false

/-- The text is a run of separators followed by at least two digits and nothing else. -/
def numericTail (r : Str) : Bool :=
  decide (2 ≤ (r.dropWhile isSep).length) && (r.dropWhile isSep).all isDigit

/-- The text begins with the marker followed by two digits. -/
def markerAt (m r : Str) : Bool := m.isPrefixOf r && twoDigits (r.drop m.length)

/-- What `([-_.\s]?)` captures when the rest of the marker pattern is matched at `r`:
a separator is taken when the marker follows it, otherwise nothing. -/
def pfxSep (m : Str) : Str → Option Str
  | [] => none
  | c :: cs =>
    if isSep c && markerAt m cs then some [c]
    else if markerAt m (c :: cs) then some []
    else none

/-- The text without its trailing run of separator runes. -/
def stripSeps (s : Str) : Str := s.rdropWhile isSep

/-- Length of the shortest non-empty head without a line feed whose remainder satisfies `ok`. -/
def firstHead (ok : Str → Bool) (s : Str) : Option Nat :=
  match (List.range (s.takeWhile isAny).length).find? (fun j => ok (s.drop (j + 1))) with
  | some j => some (j + 1)
  | none => none

/-- Closed form of `tryNumericForm`. -/
def numericForm (s : Str) : Str × Bool :=
  match firstHead numericTail s with
  | none => ([], false)
  | some k => if stripSeps (s.take k) = [] then ([], false) else (stripSeps (s.take k), true)

/-- The boundary test of `tryPrefixForm` on a rune: one of `-`, `_`, `.`, space. -/
def isBoundary (c : Char) : Bool := c == '-' || c == '_' || c == '.' || c == ' '

/-- The last byte of the UTF-8 encoding of a rune. -/
def lastByte (c : Char) : Nat := if c.toNat < 128 then c.toNat else 128 + c.toNat % 64

/-- Closed form of `tryPrefixForm`. -/
def prefixForm (s m : Str) : Str × Bool :=
  match firstHead (fun r => (pfxSep m r).isSome) s with
  | none => ([], false)
  | some k =>
    if pfxSep m (s.drop k) = some [] ∧ (s.take k).getLast?.map isBoundary ≠ some true then
      ([], false)
    else if stripSeps (s.take k) = [] then ([], false)
    else (stripSeps (s.take k), true)

/-- The stem of a filename, as computed in the first line of `ParseGroup`. -/
def stemOf (filename : Str) : Str := TrimSuffix filename (Ext filename)

/-- Two adjacent decimal digits occur in the text. -/
def adjacentDigits : Str → Bool
  | a :: b :: r => (isDigit a && isDigit b) || adjacentDigits (b :: r)
  | _ => false

/-! ## The minimal-head reference of numeric mode

The reference follows the wording of the specification: all splits of the stem into a
head, a run of separators and a run of at least two digits reaching the end are
considered, and the one with the shortest head is taken.  `sep` is the set of separator
characters and `headOk` says which leading texts count as a head. -/

/-- Whitespace in the ordinary sense: the runes with the Unicode property `White_Space`,
which are those of Go's `unicode.IsSpace`. -/
def isWhitespace (c : Char) : Bool :=
  decide (9 ≤ c.toNat ∧ c.toNat ≤ 13) || c.toNat == 32 || c.toNat == 133 || c.toNat == 160 ||
    c.toNat == 5760 || decide (8192 ≤ c.toNat ∧ c.toNat ≤ 8202) || c.toNat == 8232 ||
    c.toNat == 8233 || c.toNat == 8239 || c.toNat == 8287 || c.toNat == 12288

/-- The separator set in the words of the specification: `-`, `_`, `.` and whitespace. -/
def isSpecSep (c : Char) : Bool := c == '-' || c == '_' || c == '.' || isWhitespace c

/-- The stem splits at offsets `i ≤ j` into a non-empty head, separators and digits. -/
def isSplit (sep : Char → Bool) (headOk : Str → Bool) (s : Str) (i j : Nat) : Bool :=
  decide (1 ≤ i) && decide (i ≤ j) && decide (j ≤ s.length) && headOk (s.take i) &&
    ((s.drop i).take (j - i)).all sep && (s.drop j).all isDigit &&
    decide (2 ≤ (s.drop j).length)

/-- Some split of the stem has the head of length `i`. -/
def hasSplit (sep : Char → Bool) (headOk : Str → Bool) (s : Str) (i : Nat) : Bool :=
  (List.range (s.length + 1)).any (isSplit sep headOk s i)

/-- The shortest head of a split of the stem, if the stem has a split. -/
def shortestHead (sep : Char → Bool) (headOk : Str → Bool) (s : Str) : Option Str :=
  match (List.range (s.length + 1)).find? (hasSplit sep headOk s) with
  | none => none
  | some i => some (s.take i)

/-- The minimal-head reference: the shortest head of a split, stripped of its trailing
separators; no match without a split or when nothing is left of the head. -/
def minimalHeadRef (sep : Char → Bool) (headOk : Str → Bool) (s : Str) : Str × Bool :=
  match shortestHead sep headOk s with
  | none => ([], false)
  | some h => if h.rdropWhile sep = [] then ([], false) else (h.rdropWhile sep, true)

/-! ## Variants of marker mode

The variants follow the wording of the claim on the optional separator: one rejects every
match whose optional separator is absent, the other replaces the test on the last byte of
the head by an arbitrary one. -/

/-- The variant of `tryPrefixForm` that rejects every match without a captured separator. -/
def tryPrefixFormStrict (stem pfx : Str) : Option (Str × Bool) :=
  let escapedPrefix := QuoteMeta pfx
  match compilePrefixPattern escapedPrefix with
  | none => none
  | some pattern =>
    let submatches := FindStringSubmatch pattern stem
    if submatches.length ≠ 4 then some ([], false)
    else
      match submatches.get? 1, submatches.get? 2 with
      | some groupPart, some separator =>
        if separator = [] then some ([], false)
        else stripGroup groupPart
      | _, _ => none

/-- The variant of `tryPrefixForm` whose boundary check accepts the last byte of the head
when `accept` holds of it. -/
def tryPrefixFormWith (accept : Nat → Bool) (stem pfx : Str) : Option (Str × Bool) :=
  let escapedPrefix := QuoteMeta pfx
  match compilePrefixPattern escapedPrefix with
  | none => none
  | some pattern =>
    let submatches := FindStringSubmatch pattern stem
    if submatches.length ≠ 4 then some ([], false)
    else
      match submatches.get? 1, submatches.get? 2 with
      | some groupPart, some separator =>
        if separator = [] then
          if (bytes groupPart).length = 0 then some ([], false)
          else
            match (bytes groupPart).get? ((bytes groupPart).length - 1) with
            | none => none
            | some lastChar =>
              if accept lastChar = false then some ([], false)
              else stripGroup groupPart
        else stripGroup groupPart
      | _, _ => none

/-- The bytes of the class `[-_.\s]`: the four of the boundary check and tab, line feed,
form feed, carriage return. -/
def separatorByte (b : Nat) : Bool :=
  b == 45 || b == 95 || b == 46 || b == 32 || b == 9 || b == 10 || b == 12 || b == 13

/-- Closed form of `tryPrefixFormStrict`. -/
def prefixFormStrict (s m : Str) : Str × Bool :=
  match firstHead (fun r => (pfxSep m r).isSome) s with
  | none => ([], false)
  | some k =>
    if pfxSep m (s.drop k) = some [] then ([], false)
    else if stripSeps (s.take k) = [] then ([], false)
    else (stripSeps (s.take k), true)

/-- The bytes accepted by the boundary check of `tryPrefixForm`: `-`, `_`, `.`, space. -/
def boundaryByte (b : Nat) : Bool := b == 45 || b == 95 || b == 46 || b == 32

/-! ## path/filepath on Unix -/

/-- The elements of a path: the texts between its path separators. -/
def splitPath : Str → List Str
  | [] => [[]]
  | c :: cs =>
    if IsPathSeparator c then [] :: splitPath cs
    else
      match splitPath cs with
      | e :: es => (c :: e) :: es
      | [] => [[c]]

/-- One round of the loop of `filepath.Clean` on the next element of the path.  The state is
the list of elements written so far and the number of leading `..` elements among them,
which cannot be removed. -/
def cleanStep (rooted : Bool) (acc : List Str × Nat) (e : Str) : List Str × Nat :=
  if e = [] then acc
  else if e = ['.'] then acc
  else if e = ['.', '.'] then
    if acc.2 < acc.1.length then (acc.1.dropLast, acc.2)
    else if rooted then acc
    else (acc.1 ++ [e], acc.1.length + 1)
  else (acc.1 ++ [e], acc.2)

/-- Model of `filepath.Clean`: empty and `.` elements are dropped, a `..` element removes the
element before it (at the root it is dropped, at the beginning of a relative path it
stays), the separators are single, and the empty result is `.`. -/
def Clean (path : Str) : Str :=
  match path with
  | [] => ['.']
  | c :: _ =>
    let rooted := IsPathSeparator c
    let out := ((splitPath path).foldl (cleanStep rooted) ([], 0)).1
    let body := (if rooted then ['/'] else []) ++ List.intercalate ['/'] out
    if body = [] then ['.'] else body

/-- Model of `filepath.Join`: the elements from the first non-empty one on, joined by the
separator and cleaned. -/
def Join (elem : List Str) : Str :=
  match elem.dropWhile (fun e => decide (e = [])) with
  | [] => []
  | es => Clean (List.intercalate ['/'] es)

/-- Model of `filepath.Base`: the last element of the path, trailing separators apart. -/
def Base (path : Str) : Str :=
  if path = [] then ['.']
  else
    let last := (path.rdropWhile IsPathSeparator).rtakeWhile (fun c => !IsPathSeparator c)
    if last = [] then ['/'] else last

/-- Model of `filepath.Dir`: the path up to its last separator, cleaned. -/
def Dir (path : Str) : Str :=
  Clean (path.rdropWhile (fun c => !IsPathSeparator c))

/-! ## The planner loop of cmd/shelver/main.go -/

/-- Go type `mover.Move`. -/
structure Move where
  Source : Str
  Dest : Str
deriving DecidableEq

/-- The loop of `main` over the expanded file list, with the slice `moves` and the
counter `skipped` as state.  `usable file` says that `os.Stat(file)` gives no error and no
directory; `none` is a panic of the classifier. -/
def planLoop (usable : Str → Bool) (pfx : Str) :
    List Str → List Move × Nat → Option (List Move × Nat)
  | [], acc => some acc
  | file :: rest, acc =>
    if usable file = false then planLoop usable pfx rest acc
    else
      let filename := Base file
      match ParseGroup filename pfx with
      | none => none
      | some (group, ok) =>
        if ok = false then planLoop usable pfx rest (acc.1, acc.2 + 1)
        else
          let destPath := Join [group, filename]
          planLoop usable pfx rest (acc.1 ++ [⟨file, destPath⟩], acc.2)

/-- The planner: the loop from the empty slice and the counter zero. -/
def planMoves (usable : Str → Bool) (pfx : Str) (files : List Str) :
    Option (List Move × Nat) :=
  planLoop usable pfx files ([], 0)

/-- The move the planner emits for a file, if the file is classified. -/
def plannedMove (pfx : Str) (file : Str) : Option Move :=
  match ParseGroup (Base file) pfx with
  | some (group, true) => some ⟨file, Join [group, Base file]⟩
  | _ => none

/-- The file is not classified. -/
def noMatch (pfx : Str) (file : Str) : Bool :=
  match ParseGroup (Base file) pfx with
  | some (_, false) => true
  | _ => false

/-! ## internal/mover/mover.go

The file system is an abstract state `FS`; the calls to the operating system are the
fields of `OS`.  An error is `some` message, the nil error is `none`. -/

/-- Go type `mover.Result`. -/
structure Result where
  Moved : Nat
  Skipped : Nat
  Failed : Nat
  Planned : Nat
deriving DecidableEq

/-- The calls `os.Stat`, `os.SameFile`, `os.MkdirAll` and `os.Rename`.  `Stat` only reads the
state; `MkdirAll` and `Rename` return the new state, also when they fail. -/
structure OS (FS Info : Type) where
  Stat : FS → Str → Option Info
  SameFile : Info → Info → Bool
  MkdirAll : FS → Str → FS × Option Str
  Rename : FS → Str → Str → FS × Option Str

/-- What a run acts on: the file system, the lines printed, and the moves handed to
`executeMove` so far, a record kept for the statements on the order of the attempts. -/
structure World (FS : Type) where
  fs : FS
  stdout : List Str
  attempted : List Move

/-- Go function `isSameFile`: `none` is an error of one of the two `Stat` calls. -/
def isSameFile {FS Info : Type} (os : OS FS Info) (fs : FS) (src dest : Str) : Option Bool :=
  match os.Stat fs src with
  | none => none
  | some srcInfo =>
    match os.Stat fs dest with
    | none => none
    | some destInfo => some (os.SameFile srcInfo destInfo)

/-- Go function `executeMove`: the status string, the error, and the world afterwards. -/
def executeMove {FS Info : Type} (os : OS FS Info) (w : World FS) (move : Move)
    (destRoot : Str) : (Str × Option Str) × World FS :=
  let w0 : World FS := ⟨w.fs, w.stdout, w.attempted ++ [move]⟩
  let srcPath := move.Source
  let destPath := Join [destRoot, move.Dest]
  if isSameFile os w0.fs srcPath destPath = some true then
    (("skipped".toList, none),
      ⟨w0.fs, w0.stdout ++
        ["SKIP: ".toList ++ srcPath ++ " (source and destination are the same)\n".toList],
        w0.attempted⟩)
  else
    let destDir := Dir destPath
    match os.MkdirAll w0.fs destDir with
    | (fs1, some err) =>
      (([], some ("failed to create directory ".toList ++ destDir ++ ": ".toList ++ err)),
        ⟨fs1, w0.stdout, w0.attempted⟩)
    | (fs1, none) =>
      match os.Rename fs1 srcPath destPath with
      | (fs2, some err) =>
        (([], some ("failed to rename ".toList ++ srcPath ++ " to ".toList ++ destPath ++
            ": ".toList ++ err)),
          ⟨fs2, w0.stdout, w0.attempted⟩)
      | (fs2, none) => (("moved".toList, none), ⟨fs2, w0.stdout, w0.attempted⟩)

/-- The loop of `ExecuteMoves` over the moves, with `result` and the world as state. -/
def executeLoop {FS Info : Type} (os : OS FS Info) (dryRun : Bool) (destRoot : Str) :
    List Move → Result × World FS → Result × World FS
  | [], acc => acc
  | move :: rest, (result, w) =>
    if dryRun then
      executeLoop os dryRun destRoot rest
        (result, ⟨w.fs, w.stdout ++
          ["[DRYRUN] ".toList ++ move.Source ++ " -> ".toList ++
            Join [destRoot, move.Dest] ++ "\n".toList], w.attempted⟩)
    else
      match executeMove os w move destRoot with
      | ((_, some err), w1) =>
        executeLoop os dryRun destRoot rest
          (⟨result.Moved, result.Skipped, result.Failed + 1, result.Planned⟩,
            ⟨w1.fs, w1.stdout ++
              ["ERROR: Failed to move ".toList ++ move.Source ++ ": ".toList ++ err ++
                "\n".toList], w1.attempted⟩)
      | ((status, none), w1) =>
        if status = "skipped".toList then
          executeLoop os dryRun destRoot rest
            (⟨result.Moved, result.Skipped + 1, result.Failed, result.Planned⟩, w1)
        else
          executeLoop os dryRun destRoot rest
            (⟨result.Moved + 1, result.Skipped, result.Failed, result.Planned⟩, w1)

/-- Go function `ExecuteMoves`. -/
def ExecuteMoves {FS Info : Type} (os : OS FS Info) (w : World FS) (moves : List Move)
    (dryRun : Bool) (destRoot : Str) : Result × World FS :=
  executeLoop os dryRun destRoot moves (⟨0, 0, 0, moves.length⟩, w)

/-- The line a dry run prints for a move. -/
def dryRunLine (destRoot : Str) (move : Move) : Str :=
  "[DRYRUN] ".toList ++ move.Source ++ " -> ".toList ++ Join [destRoot, move.Dest] ++
    "\n".toList

/-! ### The outcomes of a live run, as the specification words them

The reference below does not go through the status strings and the error values of
`executeMove`: it names the outcome of each attempt from the answers of the operating
system, and threads the file system through the attempts in list order. -/

/-- The outcome of one attempted move. -/
inductive Outcome where
  | moved
  | skipped
  | failed
deriving DecidableEq

/-- Source and destination denote the same file: `os.Stat` answers for both paths and
`os.SameFile` holds of the two answers. -/
def sameEntry {FS Info : Type} (os : OS FS Info) (fs : FS) (src dest : Str) : Bool :=
  match os.Stat fs src, os.Stat fs dest with
  | some srcInfo, some destInfo => os.SameFile srcInfo destInfo
  | _, _ => false

/-- The outcome of the attempt on one move and the file system after it: skipped, with the
file system as it was and no call of `os.MkdirAll` or `os.Rename`, when the source and the
resolved destination are the same file; failed when the creation of the directory or the
rename reports an error; moved when both succeed. -/
def attemptOutcome {FS Info : Type} (os : OS FS Info) (fs : FS) (move : Move)
    (destRoot : Str) : Outcome × FS :=
  if sameEntry os fs move.Source (Join [destRoot, move.Dest]) = true then (Outcome.skipped, fs)
  else
    match os.MkdirAll fs (Dir (Join [destRoot, move.Dest])) with
    | (fs1, some _) => (Outcome.failed, fs1)
    | (fs1, none) =>
      match os.Rename fs1 move.Source (Join [destRoot, move.Dest]) with
      | (fs2, some _) => (Outcome.failed, fs2)
      | (fs2, none) => (Outcome.moved, fs2)

/-- The outcomes of the attempts on all moves, in list order, each attempt on the file
system the one before it left, and the file system after the last attempt. -/
def runOutcomes {FS Info : Type} (os : OS FS Info) (destRoot : Str) :
    List Move → FS → List Outcome × FS
  | [], fs => ([], fs)
  | move :: rest, fs =>
    ((attemptOutcome os fs move destRoot).1 ::
        (runOutcomes os destRoot rest (attemptOutcome os fs move destRoot).2).1,
      (runOutcomes os destRoot rest (attemptOutcome os fs move destRoot).2).2)

/-- A small operating system for the examples: the state is the list of the existing files
by their clean paths, directories always can be created, and a rename fails when the
source does not exist. -/
def exampleOS : OS (List Str) Str where
  Stat := fun fs p => if Clean p ∈ fs then some (Clean p) else none
  SameFile := fun a b => decide (a = b)
  MkdirAll := fun fs _ => (fs, none)
  Rename := fun fs a b =>
    if Clean a ∈ fs then (((fs.erase (Clean a)).erase (Clean b)) ++ [Clean b], none)
    else (fs, some "no such file or directory".toList)

/-! ## Markers as byte strings

A Go string is a sequence of bytes.  The marker reaches `regexp.MustCompile` inside the
pattern string, which the pattern parser reads rune by rune with `utf8.DecodeRuneInString`;
a byte sequence that is not UTF-8 is a parse error, on which `MustCompile` panics. -/

/-- A continuation byte, `0x80` to `0xBF`. -/
def isCont (b : Nat) : Bool := decide (128 ≤ b) && decide (b ≤ 191)

/-- The second byte accepted after the first byte `b0` of a sequence of three or four bytes. -/
def secondByteOk (b0 b1 : Nat) : Bool :=
  if b0 = 224 then decide (160 ≤ b1) && decide (b1 ≤ 191)
  else if b0 = 237 then decide (128 ≤ b1) && decide (b1 ≤ 159)
  else if b0 = 240 then decide (144 ≤ b1) && decide (b1 ≤ 191)
  else if b0 = 244 then decide (128 ≤ b1) && decide (b1 ≤ 143)
  else isCont b1

/-- Model of `utf8.DecodeRuneInString`: the first rune and the bytes after it, or `none`
where the library reports `RuneError` of width one (or the input is empty). -/
def decodeRune : List Nat → Option (Char × List Nat)
  | [] => none
  | b0 :: rest =>
    if b0 < 128 then some (Char.ofNat b0, rest)
    else if 194 ≤ b0 ∧ b0 ≤ 223 then
      match rest with
      | b1 :: r1 =>
        if isCont b1 then some (Char.ofNat ((b0 - 192) * 64 + (b1 - 128)), r1) else none
      | _ => none
    else if 224 ≤ b0 ∧ b0 ≤ 239 then
      match rest with
      | b1 :: b2 :: r2 =>
        if secondByteOk b0 b1 && isCont b2 then
          some (Char.ofNat ((b0 - 224) * 4096 + (b1 - 128) * 64 + (b2 - 128)), r2)
        else none
      | _ => none
    else if 240 ≤ b0 ∧ b0 ≤ 244 then
      match rest with
      | b1 :: b2 :: b3 :: r3 =>
        if secondByteOk b0 b1 && isCont b2 && isCont b3 then
          some (Char.ofNat ((b0 - 240) * 262144 + (b1 - 128) * 4096 + (b2 - 128) * 64 +
            (b3 - 128)), r3)
        else none
      | _ => none
    else none

/-- The runes of a byte string, `none` when it is not UTF-8.  Every rune takes at least one
byte, so the number of bytes is enough fuel. -/
def decodeString : Nat → List Nat → Option Str
  | _, [] => some []
  | 0, _ :: _ => none
  | fuel + 1, b :: bs =>
    match decodeRune (b :: bs) with
    | none => none
    | some (c, rest) =>
      match decodeString fuel rest with
      | none => none
      | some cs => some (c :: cs)

/-- `ParseGroup` with the marker given by its bytes: the empty marker skips marker mode, a
marker that is not UTF-8 makes `regexp.MustCompile` panic, and any other marker is its
sequence of runes. -/
def ParseGroupBytes (filename : Str) (pfxBytes : List Nat) : Option (Str × Bool) :=
  if pfxBytes = [] then ParseGroup filename []
  else
    match decodeString pfxBytes.length pfxBytes with
    | none => none
    | some pfx => ParseGroup filename pfx

/-! ## The matcher on the building blocks of the patterns -/

theorem run_cls_cons (p : Char → Bool) (pos : Nat) (c : Char) (cs : Str) (caps : List (Nat × Str)) :
    run (.cls p) ⟨pos, c :: cs, caps⟩ = if p c then [⟨pos + 1, cs, caps⟩] else [] := by
  simp [run]

theorem run_cls_nil (p : Char → Bool) (pos : Nat) (caps : List (Nat × Str)) :
    run (.cls p) ⟨pos, [], caps⟩ = [] := by
  simp [run]

/-- A lazy star over a class offers the threads after `0, 1, ..., n` runes, `n` the length of
the longest run of the class. -/
theorem starRun_lazy_cls (p : Char → Bool) (caps : List (Nat × Str)) :
    ∀ (fuel : Nat) (pos : Nat) (s : Str), s.length ≤ fuel →
      starRun (fun u => run (.cls p) u) false fuel ⟨pos, s, caps⟩ =
        (List.range ((s.takeWhile p).length + 1)).map (fun j => ⟨pos + j, s.drop j, caps⟩) := by
  intro fuel
  induction fuel with
  | zero =>
    intro pos s hs
    have : s = [] := List.length_eq_zero.mp (Nat.le_zero.mp hs)
    subst this
    simp [starRun, List.range_succ]
  | succ fuel ih =>
    intro pos s hs
    cases s with
    | nil => simp [starRun, run, List.range_succ]
    | cons c cs =>
      by_cases hp : p c = true
      · have hlen : cs.length ≤ fuel := by simpa using hs
        simp only [starRun, run_cls_cons, hp, if_true, List.filter_cons, List.length_cons,
          Nat.lt_succ_self, decide_True, List.filter_nil, List.flatMap_cons, List.flatMap_nil,
          List.append_nil, ih (pos + 1) cs hlen, List.takeWhile_cons, Bool.false_eq_true, if_false]
        rw [List.range_succ_eq_map ((List.takeWhile p cs).length + 1)]
        simp [List.map_map, Function.comp_def, Nat.succ_eq_add_one, Nat.add_assoc, Nat.add_comm 1]
      · simp [starRun, run_cls_cons, hp, List.takeWhile_cons, List.range_succ]

/-- A greedy star over a class followed by a pattern that rejects every text beginning in
the class behaves as the pattern after the longest run of the class. -/
theorem run_greedy_cls_cat (p : Char → Bool) (X : Regex)
    (hX : ∀ pos c cs caps, p c = true → run X ⟨pos, c :: cs, caps⟩ = []) (caps : List (Nat × Str)) :
    ∀ (s : Str) (pos : Nat),
      run (.cat (.star true (.cls p)) X) ⟨pos, s, caps⟩ =
        run X ⟨pos + (s.takeWhile p).length, s.dropWhile p, caps⟩ := by
  have key : ∀ (fuel : Nat) (s : Str) (pos : Nat), s.length ≤ fuel →
      (starRun (fun u => run (.cls p) u) true fuel ⟨pos, s, caps⟩).flatMap (fun u => run X u) =
        run X ⟨pos + (s.takeWhile p).length, s.dropWhile p, caps⟩ := by
    intro fuel
    induction fuel with
    | zero =>
      intro s pos hs
      have : s = [] := List.length_eq_zero.mp (Nat.le_zero.mp hs)
      subst this
      simp [starRun]
    | succ fuel ih =>
      intro s pos hs
      cases s with
      | nil => simp [starRun, run]
      | cons c cs =>
        by_cases hp : p c = true
        · have hlen : cs.length ≤ fuel := by simpa using hs
          simp only [starRun, run_cls_cons, hp, if_true, List.filter_cons, List.length_cons,
            Nat.lt_succ_self, decide_True, List.filter_nil, List.flatMap_cons, List.flatMap_nil,
            List.append_nil, List.flatMap_append, ih cs (pos + 1) hlen, hX pos c cs caps hp,
            List.takeWhile_cons, List.dropWhile_cons]
          simp [Nat.add_assoc, Nat.add_comm 1]
        · simp [starRun, run_cls_cons, hp, List.takeWhile_cons, List.dropWhile_cons]
  intro s pos
  simp only [run]
  exact key s.length s pos (Nat.le_refl _)

/-- The first outcome of a greedy star over a class takes the longest run of the class, and
there always is an outcome. -/
theorem run_greedy_cls_head (p : Char → Bool) (caps : List (Nat × Str)) :
    ∀ (s : Str) (pos : Nat), ∃ rest,
      run (.star true (.cls p)) ⟨pos, s, caps⟩ =
        ⟨pos + (s.takeWhile p).length, s.dropWhile p, caps⟩ :: rest := by
  have key : ∀ (fuel : Nat) (s : Str) (pos : Nat), s.length ≤ fuel → ∃ rest,
      starRun (fun u => run (.cls p) u) true fuel ⟨pos, s, caps⟩ =
        ⟨pos + (s.takeWhile p).length, s.dropWhile p, caps⟩ :: rest := by
    intro fuel
    induction fuel with
    | zero =>
      intro s pos hs
      have : s = [] := List.length_eq_zero.mp (Nat.le_zero.mp hs)
      subst this
      exact ⟨[], by simp [starRun]⟩
    | succ fuel ih =>
      intro s pos hs
      cases s with
      | nil => exact ⟨[], by simp [starRun, run]⟩
      | cons c cs =>
        by_cases hp : p c = true
        · have hlen : cs.length ≤ fuel := by simpa using hs
          obtain ⟨rest, hrest⟩ := ih cs (pos + 1) hlen
          refine ⟨rest ++ [⟨pos, c :: cs, caps⟩], ?_⟩
          simp only [starRun, run_cls_cons, hp, if_true, List.filter_cons, List.length_cons,
            Nat.lt_succ_self, decide_True, List.filter_nil, List.flatMap_cons, List.flatMap_nil,
            List.append_nil, hrest, List.takeWhile_cons, List.dropWhile_cons]
          simp [Nat.add_assoc, Nat.add_comm 1]
        · exact ⟨[], by simp [starRun, run_cls_cons, hp, List.takeWhile_cons, List.dropWhile_cons]⟩
  intro s pos
  simp only [run]
  exact key s.length s pos (Nat.le_refl _)

/-! ## The lazy head `^(.+?)` -/

theorem flatMap_range_nil {α : Type} (f : Nat → List α) (n : Nat) (h : ∀ j, j < n → f j = []) :
    (List.range n).flatMap f = [] := by
  rw [List.flatMap_eq_nil_iff]
  intro x hx
  exact h x (List.mem_range.mp hx)

theorem flatMap_range_head {α : Type} (f : Nat → List α) (k : Nat) (u : α) (us : List α)
    (h0 : ∀ j, j < k → f j = []) (hk : f k = u :: us) :
    ∀ n, k < n → ((List.range n).flatMap f).head? = some u := by
  intro n
  induction n with
  | zero => intro h; exact absurd h (Nat.not_lt_zero _)
  | succ n ih =>
    intro h
    rw [List.range_succ, List.flatMap_append, List.flatMap_singleton]
    by_cases hkn : k < n
    · rw [List.head?_append, ih hkn]; rfl
    · have hkeq : k = n := by omega
      subst hkeq
      rw [flatMap_range_nil f k h0, hk]; rfl

theorem run_head (s : Str) :
    run (.cap 1 (plusLazy (.cls isAny))) ⟨0, s, []⟩ =
      (List.range (s.takeWhile isAny).length).map (fun j => headThread s (j + 1)) := by
  cases s with
  | nil => simp [run, plusLazy]
  | cons c cs =>
    by_cases hc : isAny c = true
    · simp only [run, plusLazy, hc, if_true, List.flatMap_cons, List.flatMap_nil,
        List.append_nil, List.takeWhile_cons, List.length_cons]
      have hs := starRun_lazy_cls isAny [] cs.length (0 + 1) cs (Nat.le_refl _)
      simp only [run] at hs
      rw [hs]
      simp [List.map_map, Function.comp_def, headThread, Nat.add_comm]
    · simp [run, plusLazy, hc, List.takeWhile_cons]

theorem run_anchored (R : Regex) (s : Str) :
    run (anchored R) ⟨0, s, []⟩ =
      (List.range (s.takeWhile isAny).length).flatMap (fun j => run R (headThread s (j + 1))) := by
  have h := run_head s
  simp only [anchored, run, if_true, List.flatMap_cons, List.flatMap_nil, List.append_nil] at h ⊢
  rw [h, List.flatMap_map]

theorem doExecute_bot_succ (X : Regex) :
    ∀ (s : Str) (pos : Nat), doExecute (.cat .bot X) (pos + 1) s = none := by
  intro s
  induction s with
  | nil => intro pos; simp [doExecute, run]
  | cons c cs ih => intro pos; simp [doExecute, run, ih]

theorem doExecute_bot_zero (X : Regex) (s : Str) :
    doExecute (.cat .bot X) 0 s =
      (run (.cat .bot X) ⟨0, s, []⟩).head?.map (fun u => (0, u)) := by
  cases s with
  | nil => simp [doExecute]
  | cons c cs =>
    simp only [doExecute]
    cases h : run (.cat .bot X) ⟨0, c :: cs, []⟩ with
    | nil => simp [doExecute_bot_succ]
    | cons u us => simp

/-- The match is found at the first head length whose remainder the rest of the pattern accepts. -/
theorem headSearch_found (R : Regex) (s : Str) (k : Nat) (u : Thread) (us : List Thread)
    (h1 : 1 ≤ k) (hk : k ≤ (s.takeWhile isAny).length)
    (hlt : ∀ j, 1 ≤ j → j < k → run R (headThread s j) = [])
    (hrun : run R (headThread s k) = u :: us) :
    doExecute (anchored R) 0 s = some (0, u) := by
  have h := doExecute_bot_zero (.cat (.cap 1 (plusLazy (.cls isAny))) R) s
  have e : Regex.cat .bot (.cat (.cap 1 (plusLazy (.cls isAny))) R) = anchored R := rfl
  rw [e] at h
  rw [h, run_anchored]
  obtain ⟨k, rfl⟩ : ∃ k0, k = k0 + 1 := ⟨k - 1, by omega⟩
  rw [flatMap_range_head (fun j => run R (headThread s (j + 1))) k u us
    (fun j hj => hlt (j + 1) (by omega) (by omega)) hrun _ (by omega)]
  rfl

/-- No match when the rest of the pattern rejects the remainder after every head. -/
theorem headSearch_none (R : Regex) (s : Str)
    (hall : ∀ j, 1 ≤ j → j ≤ (s.takeWhile isAny).length → run R (headThread s j) = []) :
    doExecute (anchored R) 0 s = none := by
  have h := doExecute_bot_zero (.cat (.cap 1 (plusLazy (.cls isAny))) R) s
  have e : Regex.cat .bot (.cat (.cap 1 (plusLazy (.cls isAny))) R) = anchored R := rfl
  rw [e] at h
  rw [h, run_anchored, flatMap_range_nil _ _ (fun j hj => hall (j + 1) (by omega) (by omega))]
  rfl

/-! ## The tails of the patterns -/

theorem isSep_not_isDigit (c : Char) (h : isSep c = true) : isDigit c = false := by
  simp only [isSep, isSpace, Bool.or_eq_true, beq_iff_eq] at h
  rcases h with ((h | h) | h) | ((((h | h) | h) | h) | h) <;> subst h <;> decide

theorem isDigit_not_isSep (c : Char) (h : isDigit c = true) : isSep c = false := by
  cases hs : isSep c with
  | false => rfl
  | true => rw [isSep_not_isDigit c hs] at h; exact absurd h (by decide)

/-- A greedy star over a class, continued by anything that rejects a text beginning in the class. -/
theorem greedy_flatMap (p : Char → Bool) (K : Thread → List Thread) (caps : List (Nat × Str))
    (hK : ∀ pos c cs, p c = true → K ⟨pos, c :: cs, caps⟩ = []) :
    ∀ (s : Str) (pos : Nat),
      (run (.star true (.cls p)) ⟨pos, s, caps⟩).flatMap K =
        K ⟨pos + (s.takeWhile p).length, s.dropWhile p, caps⟩ := by
  have key : ∀ (fuel : Nat) (s : Str) (pos : Nat), s.length ≤ fuel →
      (starRun (fun u => run (.cls p) u) true fuel ⟨pos, s, caps⟩).flatMap K =
        K ⟨pos + (s.takeWhile p).length, s.dropWhile p, caps⟩ := by
    intro fuel
    induction fuel with
    | zero =>
      intro s pos hs
      have : s = [] := List.length_eq_zero.mp (Nat.le_zero.mp hs)
      subst this
      simp [starRun]
    | succ fuel ih =>
      intro s pos hs
      cases s with
      | nil => simp [starRun, run]
      | cons c cs =>
        by_cases hp : p c = true
        · have hlen : cs.length ≤ fuel := by simpa using hs
          simp only [starRun, run_cls_cons, hp, if_true, List.filter_cons, List.length_cons,
            Nat.lt_succ_self, decide_True, List.filter_nil, List.flatMap_cons, List.flatMap_nil,
            List.append_nil, List.flatMap_append, ih cs (pos + 1) hlen, hK pos c cs hp,
            List.takeWhile_cons, List.dropWhile_cons]
          simp [Nat.add_assoc, Nat.add_comm 1]
        · simp [starRun, run_cls_cons, hp, List.takeWhile_cons, List.dropWhile_cons]
  intro s pos
  simp only [run]
  exact key s.length s pos (Nat.le_refl _)

theorem takeWhile_length_of_dropWhile_nil {p : Char → Bool} {s : Str}
    (h : s.dropWhile p = []) : (s.takeWhile p).length = s.length := by
  have := List.takeWhile_append_dropWhile p s
  rw [h, List.append_nil] at this
  rw [this]

theorem dropWhile_nil_iff_all (p : Char → Bool) (s : Str) :
    s.dropWhile p = [] ↔ s.all p = true := by
  induction s with
  | nil => simp
  | cons c cs ih =>
    by_cases hp : p c = true
    · simp [List.dropWhile_cons, hp, ih]
    · simp [List.dropWhile_cons, hp]

/-- The outcomes of `(\d{2,})$`. -/
theorem run_digits_eot (pos : Nat) (r : Str) (caps : List (Nat × Str)) :
    run (.cat (.cap 2 (atLeastTwo (.cls isDigit))) .eot) ⟨pos, r, caps⟩ =
      if 2 ≤ r.length ∧ r.all isDigit = true then [⟨pos + r.length, [], (2, r) :: caps⟩]
      else [] := by
  have hgen : ∀ (pos2 : Nat) (r2 : Str),
      (run (.star true (.cls isDigit)) ⟨pos2, r2, caps⟩).flatMap
        (fun u => run .eot ⟨u.pos, u.rest, (2, r.take (u.pos - pos)) :: u.caps⟩) =
      run .eot ⟨pos2 + (r2.takeWhile isDigit).length, r2.dropWhile isDigit,
        (2, r.take (pos2 + (r2.takeWhile isDigit).length - pos)) :: caps⟩ := by
    intro pos2 r2
    exact greedy_flatMap isDigit
      (fun u => run .eot ⟨u.pos, u.rest, (2, r.take (u.pos - pos)) :: u.caps⟩) caps
      (fun pos c cs _ => by simp [run]) r2 pos2
  match r with
  | [] => simp [run, atLeastTwo]
  | [a] =>
    by_cases ha : isDigit a = true <;> simp [run, atLeastTwo, ha]
  | a :: b :: r2 =>
    by_cases ha : isDigit a = true
    · by_cases hb : isDigit b = true
      · have h := hgen (pos + 1 + 1) r2
        simp only [run, atLeastTwo, ha, hb, if_true, List.flatMap_cons, List.flatMap_nil,
          List.append_nil, List.flatMap_map, List.all_cons, Bool.true_and] at h ⊢
        rw [h]
        by_cases hall : r2.all isDigit = true
        · have hd : r2.dropWhile isDigit = [] := (dropWhile_nil_iff_all _ _).mpr hall
          have hl := takeWhile_length_of_dropWhile_nil hd
          simp only [hd, hl, hall, if_true]
          have e1 : pos + 1 + 1 + r2.length - pos = r2.length + 2 := by omega
          simp [e1, Nat.add_assoc, Nat.add_comm 1]
          omega
        · have hd : r2.dropWhile isDigit ≠ [] := fun hd => hall ((dropWhile_nil_iff_all _ _).mp hd)
          simp [hd, hall]
      · simp [run, atLeastTwo, ha, hb]
    · simp [run, atLeastTwo, ha]

/-- The outcomes of `[-_.\s]*(\d{2,})$`. -/
theorem run_numTailRe (pos : Nat) (r : Str) (caps : List (Nat × Str)) :
    run numTailRe ⟨pos, r, caps⟩ =
      if numericTail r = true then [⟨pos + r.length, [], (2, r.dropWhile isSep) :: caps⟩]
      else [] := by
  have h := run_greedy_cls_cat isSep (.cat (.cap 2 (atLeastTwo (.cls isDigit))) .eot)
    (fun pos c cs caps hc => by
      rw [run_digits_eot]
      have := isSep_not_isDigit c hc
      simp [this]) caps r pos
  rw [numTailRe, h, run_digits_eot]
  have hlen : r.length = (r.takeWhile isSep).length + (r.dropWhile isSep).length := by
    have := congrArg List.length (List.takeWhile_append_dropWhile isSep r)
    rw [List.length_append] at this
    exact this.symm
  by_cases hn : numericTail r = true
  · have hn2 := hn
    simp only [numericTail, Bool.and_eq_true, decide_eq_true_eq] at hn2
    simp [hn, hn2.1, hn2.2, hlen, Nat.add_assoc]
  · have hn2 := hn
    simp only [numericTail, Bool.and_eq_true, decide_eq_true_eq] at hn2
    rw [if_neg hn, if_neg hn2]

/-! ## Stripping trailing separators: `separatorPattern.ReplaceAllString(_, "")` -/

theorem rdropWhile_cons (p : Char → Bool) (c : Char) (cs : Str) :
    (c :: cs).rdropWhile p = if (c :: cs).all p = true then [] else c :: cs.rdropWhile p := by
  induction cs using List.reverseRecOn with
  | nil =>
    have h := List.rdropWhile_concat p [] c
    simp only [List.nil_append, List.rdropWhile_nil] at h
    by_cases hc : p c = true <;> simp [h, hc]
  | append_singleton l x ih =>
    have h1 := List.rdropWhile_concat p (c :: l) x
    have h2 := List.rdropWhile_concat p l x
    rw [List.cons_append] at h1
    rw [h1, h2, ih]
    by_cases hx : p x = true
    · by_cases hall : (c :: l).all p = true
      · have : (c :: (l ++ [x])).all p = true := by
          simp only [List.all_cons, List.all_append, Bool.and_eq_true] at hall ⊢
          simp [hall.1, hall.2, hx]
        simp [hx, hall, this]
      · have : ¬ (c :: (l ++ [x])).all p = true := by
          intro h
          apply hall
          simp only [List.all_cons, List.all_append, Bool.and_eq_true] at h ⊢
          exact ⟨h.1, h.2.1⟩
        simp only [hx, if_true, if_neg hall, if_neg this]
    · have : ¬ (c :: (l ++ [x])).all p = true := by
        intro h
        apply hx
        simp only [List.all_cons, List.all_append, Bool.and_eq_true, List.all_nil] at h
        exact h.2.2.1
      simp only [hx, if_neg this]
      simp

theorem stripSeps_length_le (s : Str) : (stripSeps s).length ≤ s.length :=
  (List.rdropWhile_prefix isSep s).length_le

theorem stripSeps_take (s : Str) : s.take (stripSeps s).length = stripSeps s := by
  obtain ⟨t, ht⟩ := List.rdropWhile_prefix isSep s
  have h : s.take (stripSeps s).length = (stripSeps s ++ t).take (stripSeps s).length :=
    congrArg (List.take (stripSeps s).length) ht.symm
  rw [h]
  exact List.take_left _ _

/-- The outcomes of `[-_.\s]+$`. -/
theorem run_separatorPattern (pos : Nat) (r : Str) (caps : List (Nat × Str)) :
    run separatorPattern ⟨pos, r, caps⟩ =
      if r ≠ [] ∧ r.all isSep = true then [⟨pos + r.length, [], caps⟩] else [] := by
  cases r with
  | nil => simp [separatorPattern, plusGreedy, run]
  | cons c cs =>
    by_cases hc : isSep c = true
    · have h := greedy_flatMap isSep (fun u => run .eot u) caps
        (fun pos c cs _ => by simp [run]) cs (pos + 1)
      simp only [separatorPattern, plusGreedy, run, hc, if_true, List.flatMap_cons,
        List.flatMap_nil, List.append_nil] at h ⊢
      rw [h]
      by_cases hall : cs.all isSep = true
      · have hd : cs.dropWhile isSep = [] := (dropWhile_nil_iff_all _ _).mpr hall
        have hl := takeWhile_length_of_dropWhile_nil hd
        simp [hd, hl, hall, hc, Nat.add_assoc, Nat.add_comm 1]
      · have hd : cs.dropWhile isSep ≠ [] := fun hd => hall ((dropWhile_nil_iff_all _ _).mp hd)
        simp [hd, hall]
    · simp [separatorPattern, plusGreedy, run, hc]

/-- The leftmost match of `[-_.\s]+$` is the whole trailing run of separators. -/
theorem doExecute_separatorPattern :
    ∀ (r : Str) (pos : Nat),
      doExecute separatorPattern pos r =
        if (stripSeps r).length < r.length then
          some (pos + (stripSeps r).length, ⟨pos + r.length, [], []⟩)
        else none := by
  intro r
  induction r with
  | nil => intro pos; simp [doExecute, run_separatorPattern, stripSeps]
  | cons c cs ih =>
    intro pos
    simp only [doExecute, run_separatorPattern, stripSeps, rdropWhile_cons]
    by_cases hall : (c :: cs).all isSep = true
    · simp [hall]
    · have hle := stripSeps_length_le cs
      simp only [stripSeps] at hle ih
      simp only [hall, and_false, if_false, ih, List.length_cons, Nat.add_lt_add_iff_right]
      by_cases hlt : (List.rdropWhile isSep cs).length < cs.length
      · simp [hlt, Nat.add_assoc, Nat.add_comm 1]
      · simp [hlt]

theorem ReplaceAllString_separatorPattern (src : Str) :
    ReplaceAllString separatorPattern src [] = stripSeps src := by
  have hle := stripSeps_length_le src
  simp only [ReplaceAllString, replaceAllLoop, Nat.not_lt_zero, if_false, List.drop_zero,
    doExecute_separatorPattern, Nat.zero_add, List.nil_append, Nat.sub_zero]
  by_cases hlt : (stripSeps src).length < src.length
  · have hpos : 0 < src.length := by omega
    have h1 : ¬ src.length < 0 + 1 := by omega
    simp only [hlt, if_true, hpos, true_or, List.append_nil, h1, if_false, Nat.lt_irrefl,
      List.drop_length, doExecute_separatorPattern, stripSeps_take]
    simp [stripSeps]
  · simp only [hlt, if_false]
    have heq : (stripSeps src).length = src.length := by omega
    have := stripSeps_take src
    rw [heq, List.take_length] at this
    exact this

/-! ## Closed form of numeric mode -/

theorem find?_range_some (p : Nat → Bool) :
    ∀ (n j : Nat), (List.range n).find? p = some j →
      p j = true ∧ j < n ∧ ∀ i, i < j → p i = false := by
  intro n
  induction n with
  | zero => intro j h; simp at h
  | succ n ih =>
    intro j h
    rw [List.range_succ, List.find?_append] at h
    cases hf : (List.range n).find? p with
    | some j0 =>
      rw [hf] at h
      simp only [Option.or_some] at h
      have hj : j0 = j := Option.some.inj h
      subst hj
      obtain ⟨h1, h2, h3⟩ := ih j0 hf
      exact ⟨h1, Nat.lt_succ_of_lt h2, h3⟩
    | none =>
      rw [hf] at h
      simp only [Option.none_or, List.find?_cons, List.find?_nil] at h
      by_cases hp : p n = true
      · rw [hp] at h
        have hj : n = j := Option.some.inj h
        subst hj
        refine ⟨hp, Nat.lt_succ_self _, ?_⟩
        intro i hi
        have := List.find?_eq_none.mp hf i (List.mem_range.mpr hi)
        simpa using this
      · simp [hp] at h

theorem find?_range_none (p : Nat → Bool) (n : Nat) (h : (List.range n).find? p = none) :
    ∀ i, i < n → p i = false := by
  intro i hi
  have := List.find?_eq_none.mp h i (List.mem_range.mpr hi)
  simpa using this

theorem firstHead_some (ok : Str → Bool) (s : Str) (k : Nat) (h : firstHead ok s = some k) :
    1 ≤ k ∧ k ≤ (s.takeWhile isAny).length ∧ ok (s.drop k) = true ∧
      ∀ j, 1 ≤ j → j < k → ok (s.drop j) = false := by
  unfold firstHead at h
  cases hf : (List.range (s.takeWhile isAny).length).find? (fun j => ok (s.drop (j + 1))) with
  | none => rw [hf] at h; cases h
  | some j =>
    rw [hf] at h
    cases h
    obtain ⟨h1, h2, h3⟩ := find?_range_some _ _ _ hf
    refine ⟨by omega, by omega, h1, ?_⟩
    intro i hi1 hi2
    obtain ⟨i, rfl⟩ : ∃ i0, i = i0 + 1 := ⟨i - 1, by omega⟩
    exact h3 i (by omega)

theorem firstHead_none (ok : Str → Bool) (s : Str) (h : firstHead ok s = none) :
    ∀ j, 1 ≤ j → j ≤ (s.takeWhile isAny).length → ok (s.drop j) = false := by
  unfold firstHead at h
  cases hf : (List.range (s.takeWhile isAny).length).find? (fun j => ok (s.drop (j + 1))) with
  | some j => rw [hf] at h; cases h
  | none =>
    intro i hi1 hi2
    obtain ⟨i, rfl⟩ : ∃ i0, i = i0 + 1 := ⟨i - 1, by omega⟩
    exact find?_range_none _ _ hf i (by omega)

/-- The shortest head is determined by its characteristic property. -/
theorem firstHead_eq_some (ok : Str → Bool) (s : Str) (k : Nat)
    (h1 : 1 ≤ k) (hk : k ≤ (s.takeWhile isAny).length) (hok : ok (s.drop k) = true)
    (hlt : ∀ j, 1 ≤ j → j < k → ok (s.drop j) = false) :
    firstHead ok s = some k := by
  cases hf : firstHead ok s with
  | none =>
    have := firstHead_none ok s hf k h1 hk
    rw [hok] at this
    cases this
  | some k0 =>
    obtain ⟨a1, a2, a3, a4⟩ := firstHead_some ok s k0 hf
    have : k0 = k := by
      rcases Nat.lt_trichotomy k0 k with h | h | h
      · have := hlt k0 a1 h
        rw [a3] at this
        cases this
      · exact h
      · have := a4 k h1 h
        rw [hok] at this
        cases this
    rw [this]

theorem firstHead_eq_none (ok : Str → Bool) (s : Str)
    (hall : ∀ j, 1 ≤ j → j ≤ (s.takeWhile isAny).length → ok (s.drop j) = false) :
    firstHead ok s = none := by
  cases hf : firstHead ok s with
  | none => rfl
  | some k0 =>
    obtain ⟨a1, a2, a3, _⟩ := firstHead_some ok s k0 hf
    have := hall k0 a1 a2
    rw [a3] at this
    cases this

/-- The submatches of `numericPattern`. -/
theorem FindStringSubmatch_numericPattern (s : Str) :
    FindStringSubmatch numericPattern s =
      match firstHead numericTail s with
      | none => []
      | some k => [s, s.take k, (s.drop k).dropWhile isSep] := by
  have e : numericPattern = anchored numTailRe := rfl
  cases hf : firstHead numericTail s with
  | none =>
    have hall := firstHead_none _ _ hf
    have hd : doExecute numericPattern 0 s = none := by
      rw [e]
      apply headSearch_none
      intro j h1 h2
      rw [headThread, run_numTailRe, hall j h1 h2]
      simp
    simp [FindStringSubmatch, hd]
  | some k =>
    obtain ⟨h1, h2, h3, h4⟩ := firstHead_some _ _ _ hf
    have hd : doExecute numericPattern 0 s =
        some (0, ⟨k + (s.drop k).length, [], [(2, (s.drop k).dropWhile isSep), (1, s.take k)]⟩) := by
      rw [e]
      apply headSearch_found numTailRe s k _ [] h1 h2
      · intro j hj1 hj2
        rw [headThread, run_numTailRe, h4 j hj1 hj2]
        simp
      · rw [headThread, run_numTailRe, h3]
        simp
    have hk : k ≤ s.length := Nat.le_trans h2 (List.takeWhile_prefix isAny).length_le
    have hn : numSubexp numericPattern = 2 := rfl
    have hlen : k + (s.length - k) = s.length := by omega
    simp [FindStringSubmatch, hd, hn, List.range_succ, capture, hlen]

/-- Numeric mode in closed form: the shortest head, stripped of its trailing separators. -/
theorem tryNumericForm_eq (s : Str) : tryNumericForm s = some (numericForm s) := by
  unfold tryNumericForm numericForm
  rw [FindStringSubmatch_numericPattern]
  cases hf : firstHead numericTail s with
  | none => simp
  | some k =>
    simp only [List.length_cons, List.length_nil, ne_eq, not_true_eq_false, if_false,
      ReplaceAllString_separatorPattern]
    by_cases hg : stripSeps (s.take k) = [] <;> simp [hg, ReplaceAllString_separatorPattern]

/-! ## The marker pattern -/

theorem parseLiteral_QuoteMeta (m : Str) : parseLiteral (QuoteMeta m) = some (litRe m) := by
  induction m with
  | nil => simp [QuoteMeta, parseLiteral, litRe]
  | cons c cs ih =>
    have hq : QuoteMeta (c :: cs) = (if special c then ['\\', c] else [c]) ++ QuoteMeta cs := by
      simp [QuoteMeta]
    rw [hq]
    by_cases hs : special c = true
    · simp only [hs, if_true, List.cons_append, List.nil_append, parseLiteral, ih, litRe]
    · have hne : c ≠ '\\' := by
        intro h
        apply hs
        rw [h]
        decide
      simp only [hs, List.cons_append, List.nil_append, if_false, Bool.false_eq_true]
      rw [parseLiteral.eq_def]
      simp [hne, hs, ih, litRe]

theorem numSubexp_litRe (m : Str) : numSubexp (litRe m) = 0 := by
  induction m with
  | nil => rfl
  | cons c cs ih => simp [litRe, numSubexp, ih]

/-- The literal matches exactly the text that begins with the marker. -/
theorem run_litRe (m : Str) (caps : List (Nat × Str)) :
    ∀ (r : Str) (pos : Nat),
      run (litRe m) ⟨pos, r, caps⟩ =
        if m.isPrefixOf r = true then [⟨pos + m.length, r.drop m.length, caps⟩] else [] := by
  induction m with
  | nil => intro r pos; simp [litRe, run]
  | cons c cs ih =>
    intro r pos
    cases r with
    | nil => simp [litRe, run]
    | cons d ds =>
      by_cases hd : d = c
      · subst hd
        simp only [litRe, run, if_true, List.flatMap_cons, List.flatMap_nil, List.append_nil, ih]
        simp [Nat.add_assoc, Nat.add_comm 1]
      · have hd2 : ¬ c = d := fun h => hd h.symm
        simp [litRe, run, hd, hd2]

theorem take_takeWhile_length (p : Char → Bool) (s : Str) :
    s.take (s.takeWhile p).length = s.takeWhile p := by
  have h : s.take (s.takeWhile p).length =
      (s.takeWhile p ++ s.dropWhile p).take (s.takeWhile p).length :=
    congrArg (List.take (s.takeWhile p).length) (List.takeWhile_append_dropWhile p s).symm
  rw [h]
  exact List.take_left _ _

/-- The outcomes of `(\d{2,})` not followed by anything. -/
theorem run_digits3 (pos : Nat) (r : Str) (caps : List (Nat × Str)) :
    (twoDigits r = false → run (.cap 3 (atLeastTwo (.cls isDigit))) ⟨pos, r, caps⟩ = []) ∧
    (twoDigits r = true → ∃ p2 r2 x us,
      run (.cap 3 (atLeastTwo (.cls isDigit))) ⟨pos, r, caps⟩ = ⟨p2, r2, (3, x) :: caps⟩ :: us) := by
  match r with
  | [] => simp [run, atLeastTwo, twoDigits]
  | [a] => by_cases ha : isDigit a = true <;> simp [run, atLeastTwo, twoDigits, ha]
  | a :: b :: r2 =>
    by_cases ha : isDigit a = true
    · by_cases hb : isDigit b = true
      · obtain ⟨rest, hrest⟩ := run_greedy_cls_head isDigit caps r2 (pos + 1 + 1)
        constructor
        · intro h; simp [twoDigits, ha, hb] at h
        · intro _
          simp only [run] at hrest
          simp only [run, atLeastTwo, ha, hb, if_true, List.flatMap_cons, List.flatMap_nil,
            List.append_nil, hrest, List.map_cons]
          exact ⟨_, _, _, _, rfl⟩
      · simp [run, atLeastTwo, twoDigits, ha, hb]
    · simp [run, atLeastTwo, twoDigits, ha]

/-- The literal marker followed by `(\d{2,})`. -/
theorem run_marker (m : Str) (pos : Nat) (r : Str) (caps : List (Nat × Str)) :
    (markerAt m r = false →
      run (.cat (litRe m) (.cap 3 (atLeastTwo (.cls isDigit)))) ⟨pos, r, caps⟩ = []) ∧
    (markerAt m r = true → ∃ p2 r2 x us,
      run (.cat (litRe m) (.cap 3 (atLeastTwo (.cls isDigit)))) ⟨pos, r, caps⟩ =
        ⟨p2, r2, (3, x) :: caps⟩ :: us) := by
  have hrun : run (.cat (litRe m) (.cap 3 (atLeastTwo (.cls isDigit)))) ⟨pos, r, caps⟩ =
      (run (litRe m) ⟨pos, r, caps⟩).flatMap
        (fun u => run (.cap 3 (atLeastTwo (.cls isDigit))) u) := by
    simp only [run]
  rw [hrun, run_litRe]
  by_cases hp : m.isPrefixOf r = true
  · obtain ⟨h1, h2⟩ := run_digits3 (pos + m.length) (r.drop m.length) caps
    simp only [hp, if_true, List.flatMap_cons, List.flatMap_nil, List.append_nil, markerAt,
      Bool.true_and]
    exact ⟨h1, h2⟩
  · simp [hp, markerAt]

/-- The rest of the marker pattern after the head. -/
theorem run_pfxTailRe (m : Str) (pos : Nat) (r : Str) (caps : List (Nat × Str)) :
    (pfxSep m r = none → run (pfxTailRe (litRe m)) ⟨pos, r, caps⟩ = []) ∧
    (∀ sp, pfxSep m r = some sp → ∃ p2 r2 x us,
      run (pfxTailRe (litRe m)) ⟨pos, r, caps⟩ = ⟨p2, r2, (3, x) :: (2, sp) :: caps⟩ :: us) := by
  have hrun : ∀ t, run (pfxTailRe (litRe m)) t =
      ((run (.cls isSep) t ++ [t]).map
        (fun u => (⟨u.pos, u.rest, (2, t.rest.take (u.pos - t.pos)) :: u.caps⟩ : Thread))).flatMap
        (fun u => run (.cat (litRe m) (.cap 3 (atLeastTwo (.cls isDigit)))) u) := by
    intro t
    simp only [pfxTailRe, opt, run]
  rw [hrun]
  cases r with
  | nil =>
    obtain ⟨h1, _⟩ := run_marker m pos [] ((2, []) :: caps)
    have hm : markerAt m [] = false := by
      cases m <;> simp [markerAt, twoDigits]
    simp [run_cls_nil, pfxSep, h1 hm]
  | cons c cs =>
    by_cases hc : isSep c = true
    · obtain ⟨a1, a2⟩ := run_marker m (pos + 1) cs ((2, [c]) :: caps)
      obtain ⟨b1, b2⟩ := run_marker m pos (c :: cs) ((2, []) :: caps)
      simp only [run_cls_cons, hc, if_true, List.cons_append, List.nil_append, List.map_cons,
        List.map_nil, List.flatMap_cons, List.flatMap_nil, List.append_nil,
        Nat.add_sub_cancel_left, Nat.sub_self, List.take_zero, pfxSep, Bool.true_and]
      have e1 : List.take 1 (c :: cs) = [c] := rfl
      rw [e1]
      by_cases hm1 : markerAt m cs = true
      · obtain ⟨p2, r2, x, us, hx⟩ := a2 hm1
        simp only [hm1, if_true, hx]
        refine ⟨fun h => (by cases h), ?_⟩
        intro sp hsp
        cases hsp
        exact ⟨_, _, _, _, rfl⟩
      · have hm1f : markerAt m cs = false := by simpa using hm1
        rw [a1 hm1f]
        simp only [hm1f, Bool.false_eq_true, if_false, List.nil_append]
        by_cases hm2 : markerAt m (c :: cs) = true
        · obtain ⟨p2, r2, x, us, hx⟩ := b2 hm2
          simp only [hm2, if_true, hx]
          refine ⟨fun h => (by cases h), ?_⟩
          intro sp hsp
          cases hsp
          exact ⟨_, _, _, _, rfl⟩
        · have hm2f : markerAt m (c :: cs) = false := by simpa using hm2
          rw [b1 hm2f]
          simp [hm2f]
    · obtain ⟨b1, b2⟩ := run_marker m pos (c :: cs) ((2, []) :: caps)
      simp only [run_cls_cons, hc, if_false, List.nil_append, List.map_cons,
        List.map_nil, List.flatMap_cons, List.flatMap_nil, List.append_nil,
        Nat.sub_self, List.take_zero, pfxSep, Bool.false_and, Bool.false_eq_true]
      by_cases hm2 : markerAt m (c :: cs) = true
      · obtain ⟨p2, r2, x, us, hx⟩ := b2 hm2
        simp only [hm2, if_true, hx]
        refine ⟨fun h => (by cases h), ?_⟩
        intro sp hsp
        cases hsp
        exact ⟨_, _, _, _, rfl⟩
      · have hm2f : markerAt m (c :: cs) = false := by simpa using hm2
        rw [b1 hm2f]
        simp [hm2f]

/-! ## Closed form of marker mode -/

theorem compilePrefixPattern_QuoteMeta (m : Str) :
    compilePrefixPattern (QuoteMeta m) = some (anchored (pfxTailRe (litRe m))) := by
  simp [compilePrefixPattern, parseLiteral_QuoteMeta, anchored, pfxTailRe]

theorem numSubexp_prefixPattern (m : Str) : numSubexp (anchored (pfxTailRe (litRe m))) = 3 := by
  simp [anchored, pfxTailRe, numSubexp, numSubexp_litRe, plusLazy, opt, atLeastTwo]

/-- The submatches of the marker pattern. -/
theorem FindStringSubmatch_prefixPattern (m s : Str) :
    (firstHead (fun r => (pfxSep m r).isSome) s = none →
      FindStringSubmatch (anchored (pfxTailRe (litRe m))) s = []) ∧
    (∀ k, firstHead (fun r => (pfxSep m r).isSome) s = some k → ∃ sp w x,
      pfxSep m (s.drop k) = some sp ∧
      FindStringSubmatch (anchored (pfxTailRe (litRe m))) s = [w, s.take k, sp, x]) := by
  constructor
  · intro hf
    have hall := firstHead_none _ _ hf
    have hd : doExecute (anchored (pfxTailRe (litRe m))) 0 s = none := by
      apply headSearch_none
      intro j h1 h2
      have := hall j h1 h2
      rw [headThread]
      apply (run_pfxTailRe m j (s.drop j) _).1
      cases hp : pfxSep m (s.drop j) with
      | none => rfl
      | some sp => simp [hp] at this
    simp [FindStringSubmatch, hd]
  · intro k hf
    obtain ⟨h1, h2, h3, h4⟩ := firstHead_some _ _ _ hf
    cases hp : pfxSep m (s.drop k) with
    | none => simp [hp] at h3
    | some sp =>
      obtain ⟨p2, r2, x, us, hx⟩ := (run_pfxTailRe m k (s.drop k) [(1, s.take k)]).2 sp hp
      have hd : doExecute (anchored (pfxTailRe (litRe m))) 0 s =
          some (0, ⟨p2, r2, [(3, x), (2, sp), (1, s.take k)]⟩) := by
        apply headSearch_found (pfxTailRe (litRe m)) s k _ us h1 h2
        · intro j hj1 hj2
          have := h4 j hj1 hj2
          rw [headThread]
          apply (run_pfxTailRe m j (s.drop j) _).1
          cases hp2 : pfxSep m (s.drop j) with
          | none => rfl
          | some sp2 => simp [hp2] at this
        · rw [headThread]
          exact hx
      refine ⟨sp, s.take p2, x, rfl, ?_⟩
      simp [FindStringSubmatch, hd, numSubexp_prefixPattern, List.range_succ, capture]

theorem char_eq_of_toNat {c d : Char} (h : c.toNat = d.toNat) : c = d := by
  apply Char.ext
  cases hc : c.val with
  | mk v =>
  cases hd : d.val with
  | mk w =>
  simp only [Char.toNat, UInt32.toNat, hc, hd] at h
  congr 1
  exact BitVec.eq_of_toNat_eq h

theorem lastByte_eq_iff (c d : Char) (hd : d.toNat < 128) : lastByte c = d.toNat ↔ c = d := by
  constructor
  · intro h
    unfold lastByte at h
    by_cases hc : c.toNat < 128
    · rw [if_pos hc] at h
      exact char_eq_of_toNat h
    · rw [if_neg hc] at h
      omega
  · intro h
    subst h
    unfold lastByte
    rw [if_pos hd]

theorem lastByte_boundary (c : Char) :
    (lastByte c ≠ 45 ∧ lastByte c ≠ 95 ∧ lastByte c ≠ 46 ∧ lastByte c ≠ 32) ↔
      isBoundary c = false := by
  have h1 := lastByte_eq_iff c '-' (by decide)
  have h2 := lastByte_eq_iff c '_' (by decide)
  have h3 := lastByte_eq_iff c '.' (by decide)
  have h4 := lastByte_eq_iff c ' ' (by decide)
  have e1 : ('-').toNat = 45 := rfl
  have e2 : ('_').toNat = 95 := rfl
  have e3 : ('.').toNat = 46 := rfl
  have e4 : (' ').toNat = 32 := rfl
  rw [e1] at h1
  rw [e2] at h2
  rw [e3] at h3
  rw [e4] at h4
  simp only [isBoundary, ne_eq, h1, h2, h3, h4, Bool.or_eq_false_iff, beq_eq_false_iff_ne]
  tauto

theorem encodeRune_last (c : Char) : ∃ front, encodeRune c = front ++ [lastByte c] := by
  unfold encodeRune lastByte
  by_cases h1 : c.toNat < 128
  · exact ⟨[], by simp [h1]⟩
  · by_cases h2 : c.toNat < 2048
    · exact ⟨[192 + c.toNat / 64], by simp [h1, h2]⟩
    · by_cases h3 : c.toNat < 65536
      · exact ⟨[224 + c.toNat / 4096, 128 + c.toNat / 64 % 64], by simp [h1, h2, h3]⟩
      · exact ⟨[240 + c.toNat / 262144, 128 + c.toNat / 4096 % 64, 128 + c.toNat / 64 % 64],
          by simp [h1, h2, h3]⟩

/-- The last byte of a non-empty string is the last byte of its last rune. -/
theorem bytes_last (l : Str) (c : Char) :
    (bytes (l ++ [c])).length ≠ 0 ∧
      (bytes (l ++ [c])).get? ((bytes (l ++ [c])).length - 1) = some (lastByte c) := by
  obtain ⟨front, hfront⟩ := encodeRune_last c
  have hb : bytes (l ++ [c]) = (bytes l ++ front) ++ [lastByte c] := by
    simp [bytes, hfront]
  rw [hb]
  constructor
  · simp
  · rw [List.get?_eq_getElem?, ← List.getLast?_eq_getElem?, List.getLast?_concat]

theorem stripGroup_eq (g : Str) :
    stripGroup g = some (if stripSeps g = [] then ([], false) else (stripSeps g, true)) := by
  unfold stripGroup
  simp only [ReplaceAllString_separatorPattern]
  by_cases h : stripSeps g = [] <;> simp [h]

theorem takeWhile_length_le (p : Char → Bool) (s : Str) : (s.takeWhile p).length ≤ s.length :=
  (List.takeWhile_prefix p).length_le

/-- Marker mode in closed form. -/
theorem tryPrefixForm_eq (s m : Str) : tryPrefixForm s m = some (prefixForm s m) := by
  unfold tryPrefixForm prefixForm
  simp only [compilePrefixPattern_QuoteMeta]
  obtain ⟨hnone, hsome⟩ := FindStringSubmatch_prefixPattern m s
  cases hf : firstHead (fun r => (pfxSep m r).isSome) s with
  | none => simp [hnone hf]
  | some k =>
    obtain ⟨sp, w, x, hsp, hfs⟩ := hsome k hf
    obtain ⟨h1, h2, _, _⟩ := firstHead_some _ _ _ hf
    have hk : k ≤ s.length := Nat.le_trans h2 (takeWhile_length_le _ _)
    have hne : s.take k ≠ [] := by
      intro h
      have := congrArg List.length h
      rw [List.length_take, List.length_nil] at this
      omega
    obtain ⟨l, c, hlc⟩ : ∃ l c, s.take k = l ++ [c] := by
      rcases List.eq_nil_or_concat (s.take k) with h | ⟨l, c, h⟩
      · exact absurd h hne
      · exact ⟨l, c, by simpa using h⟩
    obtain ⟨hb1, hb2⟩ := bytes_last l c
    have hlast : (l ++ [c]).getLast? = some c := List.getLast?_concat l
    simp only [hfs, hsp, hlc, List.length_cons, List.length_nil, ne_eq, not_true_eq_false,
      if_false, List.get?_cons_succ, List.get?_cons_zero, hb1, hb2, stripGroup_eq, hlast,
      Option.map_some', Option.some.injEq]
    by_cases hsp0 : sp = []
    · subst hsp0
      by_cases hbd : isBoundary c = true
      · have hnb : ¬ (lastByte c ≠ 45 ∧ lastByte c ≠ 95 ∧ lastByte c ≠ 46 ∧ lastByte c ≠ 32) := by
          rw [lastByte_boundary, hbd]
          simp
        simp [hnb, hbd]
      · have hbf : isBoundary c = false := by simpa using hbd
        have hnb : lastByte c ≠ 45 ∧ lastByte c ≠ 95 ∧ lastByte c ≠ 46 ∧ lastByte c ≠ 32 :=
          (lastByte_boundary c).mpr hbf
        simp [hnb, hbf]
    · simp [hsp0]

/-! ## `ParseGroup` in closed form -/

theorem ParseGroup_unfold (f m : Str) :
    ParseGroup f m =
      if m ≠ [] then
        match tryPrefixForm (stemOf f) m with
        | none => none
        | some (group, true) => some (group, true)
        | some (_, false) => tryNumericForm (stemOf f)
      else tryNumericForm (stemOf f) := rfl

theorem ParseGroup_nil (f : Str) : ParseGroup f [] = tryNumericForm (stemOf f) := by
  simp [ParseGroup_unfold]

theorem ParseGroup_eq (f m : Str) :
    ParseGroup f m =
      some (if m ≠ [] ∧ (prefixForm (stemOf f) m).2 = true then prefixForm (stemOf f) m
        else numericForm (stemOf f)) := by
  rw [ParseGroup_unfold]
  simp only [tryPrefixForm_eq, tryNumericForm_eq]
  by_cases hm : m = []
  · simp [hm]
  · rcases hp : prefixForm (stemOf f) m with ⟨g, ok⟩
    cases ok <;> simp [hm, hp]

/-- C1. `ParseGroup` tries marker mode first and numeric mode second: with a non-empty
marker a success of `tryPrefixForm` on the stem is the result, and otherwise (empty marker,
or `tryPrefixForm` not succeeding) the result is that of numeric mode, which is
`ParseGroup` with the empty marker.  On `test-p01-02.txt` with marker `p` marker mode
gives `test` although numeric mode alone gives `test-p01`. -/
theorem parseGroup_mode_order (f m : Str) :
    (∀ g, m ≠ [] → tryPrefixForm (stemOf f) m = some (g, true) →
      ParseGroup f m = some (g, true)) ∧
    ((m = [] ∨ ∀ g, tryPrefixForm (stemOf f) m ≠ some (g, true)) →
      ParseGroup f m = ParseGroup f []) ∧
    ParseGroup f [] = tryNumericForm (stemOf f) ∧
    ParseGroup "test-p01-02.txt".toList "p".toList = some ("test".toList, true) ∧
    ParseGroup "test-p01-02.txt".toList [] = some ("test-p01".toList, true) := by
  refine ⟨?_, ?_, ParseGroup_nil f, by decide, by decide⟩
  · intro g hm hp
    rw [ParseGroup_unfold]
    simp [hm, hp]
  · intro h
    rw [ParseGroup_nil]
    rcases h with h | h
    · subst h
      exact ParseGroup_nil f
    · by_cases hm : m = []
      · subst hm
        exact ParseGroup_nil f
      · rw [ParseGroup_unfold]
        have hp := tryPrefixForm_eq (stemOf f) m
        rcases hq : prefixForm (stemOf f) m with ⟨g, ok⟩
        rw [hq] at hp
        cases ok
        · simp [hm, hp]
        · exact absurd hp (h g)

/-! ## Shape of the results -/

theorem stripSeps_last (s : Str) (z : Char) (h : (stripSeps s).getLast? = some z) :
    isSep z = false := by
  have hne : stripSeps s ≠ [] := by
    intro h0
    rw [h0] at h
    cases h
  have hnot := List.rdropWhile_last_not isSep s hne
  rw [List.getLast?_eq_getLast _ hne] at h
  have hz : (stripSeps s).getLast hne = z := Option.some.inj h
  have hz2 : (List.rdropWhile isSep s).getLast hne = z := hz
  rw [hz2] at hnot
  simpa using hnot

theorem stripSeps_prefix (s : Str) : ∃ t, s = stripSeps s ++ t := by
  obtain ⟨t, ht⟩ := List.rdropWhile_prefix isSep s
  exact ⟨t, ht.symm⟩

theorem numericForm_shape (s : Str) :
    numericForm s = ([], false) ∨
      ∃ k, 1 ≤ k ∧ k ≤ s.length ∧ stripSeps (s.take k) ≠ [] ∧
        numericForm s = (stripSeps (s.take k), true) := by
  unfold numericForm
  cases hf : firstHead numericTail s with
  | none => exact Or.inl rfl
  | some k =>
    obtain ⟨h1, h2, _, _⟩ := firstHead_some _ _ _ hf
    have hk : k ≤ s.length := Nat.le_trans h2 (takeWhile_length_le _ _)
    by_cases hg : stripSeps (s.take k) = []
    · simp [hg]
    · exact Or.inr ⟨k, h1, hk, hg, by simp [hg]⟩

theorem prefixForm_shape (s m : Str) :
    prefixForm s m = ([], false) ∨
      ∃ k, 1 ≤ k ∧ k ≤ s.length ∧ stripSeps (s.take k) ≠ [] ∧
        prefixForm s m = (stripSeps (s.take k), true) := by
  unfold prefixForm
  cases hf : firstHead (fun r => (pfxSep m r).isSome) s with
  | none => exact Or.inl rfl
  | some k =>
    obtain ⟨h1, h2, _, _⟩ := firstHead_some _ _ _ hf
    have hk : k ≤ s.length := Nat.le_trans h2 (takeWhile_length_le _ _)
    by_cases hb : pfxSep m (s.drop k) = some [] ∧
        (s.take k).getLast?.map isBoundary ≠ some true
    · exact Or.inl (if_pos hb)
    · by_cases hg : stripSeps (s.take k) = []
      · simp [hb, hg]
      · refine Or.inr ⟨k, h1, hk, hg, ?_⟩
        simp only [hb, if_false, hg]

theorem ParseGroup_shape (f m : Str) :
    ParseGroup f m = some ([], false) ∨
      ∃ k, 1 ≤ k ∧ k ≤ (stemOf f).length ∧ stripSeps ((stemOf f).take k) ≠ [] ∧
        ParseGroup f m = some (stripSeps ((stemOf f).take k), true) := by
  rw [ParseGroup_eq]
  by_cases hc : m ≠ [] ∧ (prefixForm (stemOf f) m).2 = true
  · rw [if_pos hc]
    rcases prefixForm_shape (stemOf f) m with h | ⟨k, h1, h2, h3, h4⟩
    · exact Or.inl (by rw [h])
    · exact Or.inr ⟨k, h1, h2, h3, by rw [h4]⟩
  · rw [if_neg hc]
    rcases numericForm_shape (stemOf f) with h | ⟨k, h1, h2, h3, h4⟩
    · exact Or.inl (by rw [h])
    · exact Or.inr ⟨k, h1, h2, h3, by rw [h4]⟩

/-- C7. A group is never empty: when `ParseGroup` reports success the group is non-empty, and
when it reports failure the returned string is empty. -/
theorem group_nonempty (f m g : Str) (ok : Bool) (h : ParseGroup f m = some (g, ok)) :
    (ok = true → g ≠ []) ∧ (ok = false → g = []) := by
  rcases ParseGroup_shape f m with h0 | ⟨k, _, _, h3, h4⟩
  · rw [h0] at h
    cases h
    exact ⟨fun h => (by cases h), fun _ => rfl⟩
  · rw [h4] at h
    cases h
    exact ⟨fun _ => h3, fun h => (by cases h)⟩

/-- Instance of C7 on `album-001.wav`: the hypothesis holds with the non-empty group `album`. -/
theorem group_nonempty_witness :
    ParseGroup "album-001.wav".toList [] = some ("album".toList, true) ∧
      ((true = true → "album".toList ≠ []) ∧ (true = false → "album".toList = [])) :=
  ⟨by decide, group_nonempty "album-001.wav".toList [] "album".toList true (by decide)⟩

/-- C9, as amended. Every group is trimmed of the class `[-_.\s]`: when `ParseGroup` succeeds
with group `g`, the last rune of `g` is none of `-`, `_`, `.`, tab, line feed, form feed,
carriage return and space; `g` is an initial part of the stem, so separators inside it are
kept.  Whitespace outside the class, such as the vertical tab, is not a separator. -/
theorem group_separator_trimmed (f m g : Str) (h : ParseGroup f m = some (g, true)) :
    (∀ z, g.getLast? = some z → isSep z = false) ∧ ∃ t, stemOf f = g ++ t := by
  rcases ParseGroup_shape f m with h0 | ⟨k, _, _, _, h4⟩
  · rw [h0] at h
    cases h
  · rw [h4] at h
    cases h
    refine ⟨fun z hz => stripSeps_last _ z hz, ?_⟩
    obtain ⟨t, ht⟩ := stripSeps_prefix ((stemOf f).take k)
    refine ⟨t ++ (stemOf f).drop k, ?_⟩
    rw [← List.append_assoc, ← ht, List.take_append_drop]

/-- Instance of C9 on `my-album_mix.004.wav`: the inner separators stay, the trailing dot goes. -/
theorem group_separator_trimmed_witness :
    ParseGroup "my-album_mix.004.wav".toList [] = some ("my-album_mix".toList, true) ∧
      ((∀ z, "my-album_mix".toList.getLast? = some z → isSep z = false) ∧
        ∃ t, stemOf "my-album_mix.004.wav".toList = "my-album_mix".toList ++ t) :=
  ⟨by decide,
    group_separator_trimmed "my-album_mix.004.wav".toList [] "my-album_mix".toList (by decide)⟩

/-- C9 as stated fails on whitespace outside the class `[-_.\s]`: the names `a`, vertical
tab, `01.txt` and `a`, no-break space, `01.txt` are classified to groups that end in the
vertical tab and in the no-break space, which are whitespace characters. -/
theorem group_separator_trimmed_counterexample :
    ParseGroup ['a', '\x0b', '0', '1', '.', 't', 'x', 't'] [] = some (['a', '\x0b'], true) ∧
      ['a', '\x0b'].getLast? = some '\x0b' ∧ isWhitespace '\x0b' = true ∧
      ParseGroup ['a', '\xa0', '0', '1', '.', 't', 'x', 't'] [] = some (['a', '\xa0'], true) ∧
      ['a', '\xa0'].getLast? = some '\xa0' ∧ isWhitespace '\xa0' = true := by
  decide

/-! ## Digit runs -/

theorem dropWhile_isSep_of_digits (r : Str) (h : r.all isDigit = true) :
    r.dropWhile isSep = r := by
  cases r with
  | nil => rfl
  | cons a r =>
    have ha : isDigit a = true := by
      simp only [List.all_cons, Bool.and_eq_true] at h
      exact h.1
    simp [List.dropWhile_cons, isDigit_not_isSep a ha]

theorem numericTail_of_digits (r : Str) (h : r.all isDigit = true) :
    numericTail r = decide (2 ≤ r.length) := by
  simp [numericTail, dropWhile_isSep_of_digits r h, h]

theorem isDigit_isAny (c : Char) (h : isDigit c = true) : isAny c = true := by
  cases hn : isAny c with
  | true => rfl
  | false =>
    have hc : c = '\n' := by simpa [isAny] using hn
    rw [hc] at h
    exact absurd h (by decide)

theorem adjacentDigits_cons (c : Char) (r : Str) (h : adjacentDigits r = true) :
    adjacentDigits (c :: r) = true := by
  cases r with
  | nil => simp [adjacentDigits] at h
  | cons b r => simp [adjacentDigits, h]

theorem adjacentDigits_append (a r : Str) (h : adjacentDigits r = true) :
    adjacentDigits (a ++ r) = true := by
  induction a with
  | nil => exact h
  | cons c a ih => exact adjacentDigits_cons c _ ih

theorem adjacentDigits_of_drop (s : Str) (j : Nat) (h : adjacentDigits (s.drop j) = true) :
    adjacentDigits s = true := by
  have := adjacentDigits_append (s.take j) (s.drop j) h
  rwa [List.take_append_drop] at this

theorem adjacentDigits_of_twoDigits (r : Str) (h : twoDigits r = true) :
    adjacentDigits r = true := by
  match r with
  | [] => simp [twoDigits] at h
  | [a] => simp [twoDigits] at h
  | a :: b :: r =>
    simp only [twoDigits] at h
    simp [adjacentDigits, h]

/-- The executable test agrees with the statement that two adjacent digits occur. -/
theorem adjacentDigits_iff (s : Str) :
    adjacentDigits s = true ↔
      ∃ pre a b post, s = pre ++ a :: b :: post ∧ isDigit a = true ∧ isDigit b = true := by
  constructor
  · intro h
    induction s with
    | nil => simp [adjacentDigits] at h
    | cons a s ih =>
      cases s with
      | nil => simp [adjacentDigits] at h
      | cons b s =>
        simp only [adjacentDigits, Bool.or_eq_true, Bool.and_eq_true] at h
        rcases h with h | h
        · exact ⟨[], a, b, s, rfl, h.1, h.2⟩
        · obtain ⟨pre, x, y, post, he, hx, hy⟩ := ih h
          exact ⟨a :: pre, x, y, post, by rw [he]; rfl, hx, hy⟩
  · rintro ⟨pre, a, b, post, rfl, ha, hb⟩
    apply adjacentDigits_append
    simp [adjacentDigits, ha, hb]

theorem twoDigits_of_digits (r : Str) (h : r.all isDigit = true) (hl : 2 ≤ r.length) :
    twoDigits r = true := by
  match r with
  | [] => simp at hl
  | [a] => simp at hl
  | a :: b :: r =>
    simp only [List.all_cons, Bool.and_eq_true] at h
    simp [twoDigits, h.1, h.2.1]

theorem adjacentDigits_of_numericTail (r : Str) (h : numericTail r = true) :
    adjacentDigits r = true := by
  simp only [numericTail, Bool.and_eq_true, decide_eq_true_eq] at h
  have h2 := adjacentDigits_of_twoDigits _ (twoDigits_of_digits _ h.2 h.1)
  have := adjacentDigits_append (r.takeWhile isSep) _ h2
  rwa [List.takeWhile_append_dropWhile] at this

theorem adjacentDigits_of_markerAt (m r : Str) (h : markerAt m r = true) :
    adjacentDigits r = true := by
  simp only [markerAt, Bool.and_eq_true] at h
  exact adjacentDigits_of_drop r m.length (adjacentDigits_of_twoDigits _ h.2)

theorem adjacentDigits_of_pfxSep (m r : Str) (h : (pfxSep m r).isSome = true) :
    adjacentDigits r = true := by
  cases r with
  | nil => simp [pfxSep] at h
  | cons c cs =>
    unfold pfxSep at h
    by_cases h1 : (isSep c && markerAt m cs) = true
    · simp only [Bool.and_eq_true] at h1
      exact adjacentDigits_cons c cs (adjacentDigits_of_markerAt m cs h1.2)
    · by_cases h2 : markerAt m (c :: cs) = true
      · exact adjacentDigits_of_markerAt m _ h2
      · simp [h1, h2] at h

/-- C6. A single digit never triggers a match: when the stem has no two adjacent decimal
digits, `ParseGroup` reports no match for every marker; so it does for `album-1.wav`
without a marker and for `album p1.wav` with marker `p`. -/
theorem single_digit_no_match (f m : Str) (h : adjacentDigits (stemOf f) = false) :
    ParseGroup f m = some ([], false) ∧
    ParseGroup "album-1.wav".toList [] = some ([], false) ∧
    ParseGroup "album p1.wav".toList "p".toList = some ([], false) := by
  refine ⟨?_, by decide, by decide⟩
  have hn : numericForm (stemOf f) = ([], false) := by
    unfold numericForm
    rw [firstHead_eq_none]
    intro j _ _
    cases ht : numericTail ((stemOf f).drop j) with
    | false => rfl
    | true =>
      have := adjacentDigits_of_drop _ j (adjacentDigits_of_numericTail _ ht)
      rw [h] at this
      cases this
  have hp : prefixForm (stemOf f) m = ([], false) := by
    unfold prefixForm
    rw [firstHead_eq_none]
    intro j _ _
    cases ht : (pfxSep m ((stemOf f).drop j)).isSome with
    | false => rfl
    | true =>
      have := adjacentDigits_of_drop _ j (adjacentDigits_of_pfxSep m _ ht)
      rw [h] at this
      cases this
  rw [ParseGroup_eq, hn, hp]
  simp

/-- Instance of C6 on `album-1.wav` with marker `p`: the stem `album-1` has no two adjacent digits. -/
theorem single_digit_no_match_witness :
    adjacentDigits (stemOf "album-1.wav".toList) = false ∧
      ParseGroup "album-1.wav".toList "p".toList = some ([], false) :=
  ⟨by decide, (single_digit_no_match "album-1.wav".toList "p".toList (by decide)).1⟩

/-- C10. A stem made of decimal digits only matches in numeric mode exactly when it has at
least three digits; the group is then its first digit and the other digits are the numeric
tail (second capture group).  With two digits or fewer there is no match. -/
theorem all_digit_stem (f : Str) (h : (stemOf f).all isDigit = true) :
    ParseGroup f [] =
      (if 3 ≤ (stemOf f).length then some ((stemOf f).take 1, true) else some ([], false)) ∧
    (3 ≤ (stemOf f).length →
      FindStringSubmatch numericPattern (stemOf f) =
        [stemOf f, (stemOf f).take 1, (stemOf f).drop 1]) := by
  have hall : ∀ j, ((stemOf f).drop j).all isDigit = true := by
    intro j
    rw [List.all_eq_true] at h ⊢
    exact fun x hx => h x (List.mem_of_mem_drop hx)
  by_cases hl : 3 ≤ (stemOf f).length
  · have hany : (stemOf f).takeWhile isAny = stemOf f := by
      rw [List.takeWhile_eq_self_iff]
      rw [List.all_eq_true] at h
      exact fun x hx => isDigit_isAny x (h x hx)
    have hf : firstHead numericTail (stemOf f) = some 1 := by
      apply firstHead_eq_some
      · exact Nat.le_refl 1
      · rw [hany]; omega
      · rw [numericTail_of_digits _ (hall 1)]
        simp only [List.length_drop, decide_eq_true_eq]
        omega
      · intro j h1 h2
        omega
    obtain ⟨a, r, hs⟩ : ∃ a r, stemOf f = a :: r := by
      cases hs : stemOf f with
      | nil => rw [hs] at hl; simp at hl
      | cons a r => exact ⟨a, r, rfl⟩
    have ha : isDigit a = true := by
      rw [hs] at h
      simp only [List.all_cons, Bool.and_eq_true] at h
      exact h.1
    have hstrip : stripSeps ((stemOf f).take 1) = (stemOf f).take 1 := by
      rw [hs]
      simp [stripSeps, rdropWhile_cons, isDigit_not_isSep a ha]
    constructor
    · rw [ParseGroup_nil, tryNumericForm_eq, numericForm, hf]
      simp only [hstrip, if_pos hl]
      rw [hs]
      simp
    · intro _
      rw [FindStringSubmatch_numericPattern, hf]
      simp only [dropWhile_isSep_of_digits _ (hall 1)]
  · have hf : firstHead numericTail (stemOf f) = none := by
      apply firstHead_eq_none
      intro j h1 _
      rw [numericTail_of_digits _ (hall j)]
      simp only [List.length_drop, decide_eq_false_iff_not]
      omega
    constructor
    · rw [ParseGroup_nil, tryNumericForm_eq, numericForm, hf, if_neg hl]
    · intro h3
      exact absurd h3 hl

/-- Instance of C10 on `123.txt`: the group is `1`, the numeric tail `23`. -/
theorem all_digit_stem_witness :
    (stemOf "123.txt".toList).all isDigit = true ∧
      ParseGroup "123.txt".toList [] = some ("1".toList, true) ∧
      ParseGroup "12.txt".toList [] = some ([], false) :=
  ⟨by decide, (all_digit_stem "123.txt".toList (by decide)).1,
    (all_digit_stem "12.txt".toList (by decide)).1⟩

/-! ## Numeric mode against the minimal-head reference -/

theorem find?_range_eq_some (p : Nat → Bool) (n k : Nat) (hk : k < n) (hp : p k = true)
    (hlt : ∀ i, i < k → p i = false) : (List.range n).find? p = some k := by
  cases hf : (List.range n).find? p with
  | none =>
    have := find?_range_none p n hf k hk
    rw [hp] at this
    cases this
  | some k0 =>
    obtain ⟨a1, _, a3⟩ := find?_range_some p n k0 hf
    have : k0 = k := by
      rcases Nat.lt_trichotomy k0 k with h | h | h
      · have := hlt k0 h
        rw [a1] at this
        cases this
      · exact h
      · have := a3 k h
        rw [hp] at this
        cases this
    rw [this]

theorem find?_range_eq_none (p : Nat → Bool) (n : Nat) (h : ∀ i, i < n → p i = false) :
    (List.range n).find? p = none := by
  rw [List.find?_eq_none]
  intro x hx
  rw [h x (List.mem_range.mp hx)]
  simp

/-- A head of `i` runes without a line feed is a head the lazy `(.+?)` can take. -/
theorem le_takeWhile_isAny_iff (s : Str) (i : Nat) :
    i ≤ (s.takeWhile isAny).length ↔ i ≤ s.length ∧ (s.take i).all isAny = true := by
  constructor
  · intro h
    refine ⟨Nat.le_trans h (takeWhile_length_le _ _), ?_⟩
    have e : s.take i = (s.takeWhile isAny).take i := by
      conv_lhs => rw [← List.takeWhile_append_dropWhile isAny s]
      exact List.take_append_of_le_length h
    rw [e, List.all_eq_true]
    intro x hx
    exact (List.mem_takeWhile_imp (List.mem_of_mem_take hx))
  · rintro ⟨h1, h2⟩
    have e : s.takeWhile isAny = s.take i ++ (s.drop i).takeWhile isAny := by
      conv_lhs => rw [← List.take_append_drop i s]
      exact List.takeWhile_append_of_pos (List.all_eq_true.mp h2)
    rw [e, List.length_append, List.length_take]
    omega

/-- The tail test of numeric mode says that the text splits into separators and digits. -/
theorem numericTail_iff_split (r : Str) :
    numericTail r = true ↔
      ∃ n, n ≤ r.length ∧ (r.take n).all isSep = true ∧ (r.drop n).all isDigit = true ∧
        2 ≤ (r.drop n).length := by
  constructor
  · intro h
    simp only [numericTail, Bool.and_eq_true, decide_eq_true_eq] at h
    have e1 : r.take (r.takeWhile isSep).length = r.takeWhile isSep := take_takeWhile_length _ _
    have e2 : r.drop (r.takeWhile isSep).length = r.dropWhile isSep := by
      have h0 : r.drop (r.takeWhile isSep).length =
          (r.takeWhile isSep ++ r.dropWhile isSep).drop (r.takeWhile isSep).length :=
        congrArg (List.drop (r.takeWhile isSep).length)
          (List.takeWhile_append_dropWhile isSep r).symm
      rw [h0]
      exact List.drop_left _ _
    refine ⟨(r.takeWhile isSep).length, takeWhile_length_le _ _, ?_, ?_, ?_⟩
    · rw [e1, List.all_eq_true]
      exact fun x hx => List.mem_takeWhile_imp hx
    · rw [e2]; exact h.2
    · rw [e2]; exact h.1
  · rintro ⟨n, _, h2, h3, h4⟩
    have e : r.dropWhile isSep = r.drop n := by
      conv_lhs => rw [← List.take_append_drop n r]
      rw [List.dropWhile_append_of_pos (List.all_eq_true.mp h2)]
      exact dropWhile_isSep_of_digits _ h3
    simp only [numericTail, e, h3, Bool.and_true, decide_eq_true_eq]
    exact h4

theorem hasSplit_iff (headOk : Str → Bool) (s : Str) (i : Nat) :
    hasSplit isSep headOk s i = true ↔
      1 ≤ i ∧ i ≤ s.length ∧ headOk (s.take i) = true ∧ numericTail (s.drop i) = true := by
  rw [numericTail_iff_split]
  simp only [hasSplit, List.any_eq_true, List.mem_range, isSplit, Bool.and_eq_true,
    decide_eq_true_eq]
  constructor
  · rintro ⟨j, _, ⟨⟨⟨⟨⟨⟨h1, h2⟩, h3⟩, h4⟩, h5⟩, h6⟩, h7⟩⟩
    have e : (s.drop i).drop (j - i) = s.drop j := by
      rw [List.drop_drop]
      congr 1
      omega
    refine ⟨h1, by omega, h4, j - i, ?_, h5, ?_, ?_⟩
    · rw [List.length_drop]; omega
    · rw [e]; exact h6
    · rw [e]; exact h7
  · rintro ⟨h1, h2, h3, n, h4, h5, h6, h7⟩
    rw [List.length_drop] at h4
    have e : (s.drop i).drop n = s.drop (i + n) := List.drop_drop _ _ _
    rw [e] at h6 h7
    refine ⟨i + n, by omega, ⟨⟨⟨⟨⟨⟨h1, by omega⟩, by omega⟩, h3⟩, ?_⟩, h6⟩, h7⟩⟩
    rw [Nat.add_sub_cancel_left]
    exact h5

/-- The shortest head without a line feed is the head the lazy `(.+?)` stops at. -/
theorem find?_hasSplit_isAny (s : Str) :
    (List.range (s.length + 1)).find? (hasSplit isSep (fun h => h.all isAny) s) =
      firstHead numericTail s := by
  have hiff : ∀ i, hasSplit isSep (fun h => h.all isAny) s i = true ↔
      1 ≤ i ∧ i ≤ (s.takeWhile isAny).length ∧ numericTail (s.drop i) = true := by
    intro i
    rw [hasSplit_iff, le_takeWhile_isAny_iff]
    tauto
  cases hf : firstHead numericTail s with
  | none =>
    have hall := firstHead_none _ _ hf
    rw [find?_range_eq_none]
    intro i _
    cases hh : hasSplit isSep (fun h => h.all isAny) s i with
    | false => rfl
    | true =>
      obtain ⟨a1, a2, a3⟩ := (hiff i).mp hh
      rw [hall i a1 a2] at a3
      cases a3
  | some k =>
    obtain ⟨h1, h2, h3, h4⟩ := firstHead_some _ _ _ hf
    have hk : k ≤ s.length := Nat.le_trans h2 (takeWhile_length_le _ _)
    rw [find?_range_eq_some _ _ k (by omega) ((hiff k).mpr ⟨h1, h2, h3⟩)]
    intro i hi
    cases hh : hasSplit isSep (fun h => h.all isAny) s i with
    | false => rfl
    | true =>
      obtain ⟨a1, _, a3⟩ := (hiff i).mp hh
      rw [h4 i a1 hi] at a3
      cases a3

/-- For every stem numeric mode is the minimal-head reference over the heads without a line
feed and the separator class of the source. -/
theorem numericForm_eq_minimalHeadRef (s : Str) :
    numericForm s = minimalHeadRef isSep (fun h => h.all isAny) s := by
  unfold numericForm minimalHeadRef shortestHead
  rw [find?_hasSplit_isAny]
  cases firstHead numericTail s with
  | none => rfl
  | some k => rfl

/-- When the shortest head over arbitrary heads has no line feed, it is the shortest head
among the heads without a line feed. -/
theorem find?_hasSplit_any (s : Str)
    (hnl : ∀ h ∈ shortestHead isSep (fun _ => true) s, h.all isAny = true) :
    (List.range (s.length + 1)).find? (hasSplit isSep (fun _ => true) s) =
      (List.range (s.length + 1)).find? (hasSplit isSep (fun h => h.all isAny) s) := by
  have hweak : ∀ i, hasSplit isSep (fun h => h.all isAny) s i = true →
      hasSplit isSep (fun _ => true) s i = true := by
    intro i hi
    obtain ⟨a1, a2, _, a4⟩ := (hasSplit_iff _ s i).mp hi
    exact (hasSplit_iff _ s i).mpr ⟨a1, a2, rfl, a4⟩
  cases hu : (List.range (s.length + 1)).find? (hasSplit isSep (fun _ => true) s) with
  | none =>
    have hall := find?_range_none _ _ hu
    symm
    apply find?_range_eq_none
    intro i hi
    cases hh : hasSplit isSep (fun h => h.all isAny) s i with
    | false => rfl
    | true =>
      have := hall i hi
      rw [hweak i hh] at this
      cases this
  | some i =>
    obtain ⟨h1, h2, h3⟩ := find?_range_some _ _ _ hu
    have hhead : (s.take i).all isAny = true := by
      apply hnl
      simp [shortestHead, hu]
    obtain ⟨a1, a2, _, a4⟩ := (hasSplit_iff _ s i).mp h1
    symm
    apply find?_range_eq_some _ _ i h2 ((hasSplit_iff _ s i).mpr ⟨a1, a2, hhead, a4⟩)
    intro j hj
    cases hh : hasSplit isSep (fun h => h.all isAny) s j with
    | false => rfl
    | true =>
      have := h3 j hj
      rw [hweak j hh] at this
      cases this

/-- C3, as amended. For every stem whose shortest head (when the stem has a split) has no
line feed, `tryNumericForm` equals the minimal-head reference over the class `[-_.\s]`:
among the splits of the stem into a non-empty head, a run of runes of the class (`-`, `_`,
`.`, tab, line feed, form feed, carriage return, space) and a run of at least two digits
reaching the end, the one with the shortest head is taken and stripped of its trailing
runes of the class; no match when there is no split or when nothing is left of the head. -/
theorem numeric_minimal_head (s : Str)
    (hnl : ∀ h ∈ shortestHead isSep (fun _ => true) s, h.all isAny = true) :
    tryNumericForm s = some (minimalHeadRef isSep (fun _ => true) s) := by
  rw [tryNumericForm_eq, numericForm_eq_minimalHeadRef]
  unfold minimalHeadRef shortestHead
  rw [find?_hasSplit_any s hnl]

/-- Instance of C3 (amended) on the stem `a1-22`: the shortest head is `a1`. -/
theorem numeric_minimal_head_witness :
    shortestHead isSep (fun _ => true) "a1-22".toList = some "a1".toList ∧
      tryNumericForm "a1-22".toList = some ("a1".toList, true) :=
  ⟨by decide,
    (numeric_minimal_head "a1-22".toList (by decide)).trans (by decide)⟩

/-- C3 as stated fails on two stems.  On the line feed followed by `x01` the reference over
the separators of the specification takes the head of two runes and `tryNumericForm`
reports no match.  On `a`, vertical tab, `01` the vertical tab is whitespace, so the
reference takes the head `a`, while `tryNumericForm` returns the head with the vertical
tab. -/
theorem numeric_minimal_head_counterexample :
    minimalHeadRef isSpecSep (fun _ => true) ['\n', 'x', '0', '1'] = (['\n', 'x'], true) ∧
      tryNumericForm ['\n', 'x', '0', '1'] = some ([], false) ∧
      minimalHeadRef isSpecSep (fun _ => true) ['a', '\x0b', '0', '1'] = (['a'], true) ∧
      tryNumericForm ['a', '\x0b', '0', '1'] = some (['a', '\x0b'], true) := by
  decide

/-! ## Numeric mode on a stem ending in a digit run -/

theorem stripSeps_decomp (s : Str) : ∃ t, s = stripSeps s ++ t ∧ t.all isSep = true := by
  induction s using List.reverseRecOn with
  | nil => exact ⟨[], rfl, rfl⟩
  | append_singleton l x ih =>
    obtain ⟨t, ht, hall⟩ := ih
    have h := List.rdropWhile_concat isSep l x
    by_cases hx : isSep x = true
    · refine ⟨t ++ [x], ?_, ?_⟩
      · rw [stripSeps, h, if_pos hx, ← List.append_assoc]
        exact congrArg (· ++ [x]) ht
      · simp [List.all_append, hall, hx]
    · refine ⟨[], ?_, rfl⟩
      rw [stripSeps, h, if_neg hx, List.append_nil]

theorem stripSeps_eq_self (g : Str) (h : ∀ z, g.getLast? = some z → isSep z = false) :
    stripSeps g = g := by
  unfold stripSeps
  rw [List.rdropWhile_eq_self_iff]
  intro hl
  have := h _ (List.getLast?_eq_getLast g hl)
  simp [this]

/-- After a rune that is no separator, a numeric tail can only have digits. -/
theorem dropWhile_isSep_suffix (u : Str) (z : Char) (v : Str) (hz : isSep z = false) :
    ∃ w, (u ++ z :: v).dropWhile isSep = w ++ z :: v := by
  induction u with
  | nil => exact ⟨[], by simp [List.dropWhile_cons, hz]⟩
  | cons a u ih =>
    by_cases ha : isSep a = true
    · obtain ⟨w, hw⟩ := ih
      exact ⟨w, by simp [List.dropWhile_cons, ha, hw]⟩
    · exact ⟨a :: u, by simp [List.dropWhile_cons, ha]⟩

theorem numericTail_after_nonsep (u : Str) (z : Char) (v : Str) (hz : isSep z = false)
    (h : numericTail (u ++ z :: v) = true) : (z :: v).all isDigit = true := by
  simp only [numericTail, Bool.and_eq_true, decide_eq_true_eq] at h
  obtain ⟨w, hw⟩ := dropWhile_isSep_suffix u z v hz
  have h2 := h.2
  rw [hw, List.all_append, Bool.and_eq_true] at h2
  exact h2.2

theorem prefix_le_takeWhile (p : Char → Bool) (g r : Str) (h : g.all p = true) :
    g.length ≤ ((g ++ r).takeWhile p).length := by
  rw [List.takeWhile_append_of_pos (List.all_eq_true.mp h), List.length_append]
  exact Nat.le_add_right _ _

/-- Numeric mode on a stem `g ++ t ++ D`: a non-empty head `g` without a line feed that does
not end in a separator, separators `t`, and a digit run `D` of at least two digits that
some non-digit rune `c` precedes. -/
theorem numericForm_split (g t D : Str) (c : Char) (hg : g ≠ [])
    (hany : g.all isAny = true) (hlast : ∀ z, g.getLast? = some z → isSep z = false)
    (ht : t.all isSep = true) (hD : D.all isDigit = true) (hlen : 2 ≤ D.length)
    (hc : isDigit c = false) (hcl : (g ++ t).getLast? = some c) :
    numericForm (g ++ t ++ D) = (g, true) := by
  have hdrop : ∀ j, j ≤ g.length → (g ++ t ++ D).drop j = g.drop j ++ (t ++ D) := by
    intro j hj
    rw [List.append_assoc, List.drop_append_of_le_length hj]
  have hf : firstHead numericTail (g ++ t ++ D) = some g.length := by
    apply firstHead_eq_some
    · cases g with
      | nil => exact absurd rfl hg
      | cons a g => simp
    · rw [List.append_assoc]
      exact prefix_le_takeWhile isAny g _ hany
    · rw [hdrop _ (Nat.le_refl _), List.drop_length, List.nil_append, numericTail,
        List.dropWhile_append_of_pos (List.all_eq_true.mp ht), dropWhile_isSep_of_digits _ hD]
      simp [hD, hlen]
    · intro j _ hj2
      cases hnt : numericTail ((g ++ t ++ D).drop j) with
      | false => rfl
      | true =>
        exfalso
        rw [hdrop j (Nat.le_of_lt hj2)] at hnt
        have hne : g.drop j ≠ [] := by
          intro h0
          have := congrArg List.length h0
          rw [List.length_drop, List.length_nil] at this
          omega
        obtain ⟨u, z, hu⟩ : ∃ u z, g.drop j = u ++ [z] := by
          rcases List.eq_nil_or_concat (g.drop j) with h | ⟨u, z, h⟩
          · exact absurd h hne
          · exact ⟨u, z, by simpa using h⟩
        have hgz : g.getLast? = some z := by
          have e : g = g.take j ++ (u ++ [z]) := by rw [← hu, List.take_append_drop]
          rw [e, ← List.append_assoc]
          exact List.getLast?_concat _
        have hz := hlast z hgz
        rw [hu, List.append_assoc, List.singleton_append] at hnt
        have hdig := numericTail_after_nonsep u z (t ++ D) hz hnt
        simp only [List.all_cons, List.all_append, Bool.and_eq_true] at hdig
        have hcd : isDigit c = true := by
          rcases List.eq_nil_or_concat t with h | ⟨t0, y, h⟩
          · rw [h, List.append_nil, hgz] at hcl
            cases hcl
            exact hdig.1
          · have h2 : t = t0 ++ [y] := by simpa using h
            rw [h2, ← List.append_assoc, List.getLast?_concat] at hcl
            cases hcl
            have := hdig.2.1
            rw [h2, List.all_append, Bool.and_eq_true] at this
            simpa using this.2
        rw [hc] at hcd
        cases hcd
  unfold numericForm
  rw [hf]
  have htake : (g ++ t ++ D).take g.length = g := by
    rw [List.append_assoc]
    exact List.take_left _ _
  simp only [htake, stripSeps_eq_self g hlast, if_neg hg]

/-- C2, as amended. Let the stem of a filename end in a run `D` of at least two decimal
digits preceded by a non-digit rune `c`, and let the group candidate be the rest of the stem
(everything before `D`) with its trailing separators stripped.  When that candidate is
non-empty and has no line feed, numeric mode succeeds and returns it. -/
theorem numeric_suffix_group (f x D : Str) (c : Char)
    (hstem : stemOf f = x ++ c :: D) (hc : isDigit c = false)
    (hD : D.all isDigit = true) (hlen : 2 ≤ D.length)
    (hne : stripSeps (x ++ [c]) ≠ [])
    (hnl : (stripSeps (x ++ [c])).all isAny = true) :
    ParseGroup f [] = some (stripSeps (x ++ [c]), true) := by
  obtain ⟨t, ht, hall⟩ := stripSeps_decomp (x ++ [c])
  have hs : stemOf f = stripSeps (x ++ [c]) ++ t ++ D := by
    rw [← ht, hstem]
    simp
  have hcl : (stripSeps (x ++ [c]) ++ t).getLast? = some c := by
    rw [← ht]
    exact List.getLast?_concat _
  rw [ParseGroup_nil, tryNumericForm_eq, hs,
    numericForm_split _ t D c hne hnl (fun z hz => stripSeps_last _ z hz) hall hD hlen hc hcl]

/-- Instance of C2 (amended) on `album-001.wav`: the stem is `album` `-` `001`. -/
theorem numeric_suffix_group_witness :
    ParseGroup "album-001.wav".toList [] = some (stripSeps ("album".toList ++ ['-']), true) ∧
      stripSeps ("album".toList ++ ['-']) = "album".toList :=
  ⟨numeric_suffix_group "album-001.wav".toList "album".toList "001".toList '-'
    (by decide) (by decide) (by decide) (by decide) (by decide) (by decide), by decide⟩

/-- C2 as stated fails on `-01.txt`: the stem `-01` ends in the digit run `01` preceded by the
non-digit `-`, the stem without the separator-and-digit suffix is empty, and numeric mode
reports no match.  It also fails when the text before the digit run has a line feed, as in
the name made of a line feed and `x01.txt`. -/
theorem numeric_suffix_group_counterexample :
    stemOf "-01.txt".toList = [] ++ '-' :: "01".toList ∧ isDigit '-' = false ∧
      "01".toList.all isDigit = true ∧ 2 ≤ "01".toList.length ∧
      ParseGroup "-01.txt".toList [] = some ([], false) ∧
      stemOf ('\n' :: "x01.txt".toList) = ['\n'] ++ 'x' :: "01".toList ∧ isDigit 'x' = false ∧
      ParseGroup ('\n' :: "x01.txt".toList) [] = some ([], false) := by
  decide

/-! ## The stem of a filename with an extension -/

theorem extLoop_dot (s e : Str) (he : ∀ x ∈ e, x ≠ '.' ∧ x ≠ '/') :
    ∀ k, k ≤ e.length → extLoop (s ++ '.' :: e) (s.length + 1 + k) = '.' :: e := by
  intro k
  induction k with
  | zero =>
    intro _
    have hget : (s ++ '.' :: e).get? s.length = some '.' := by
      rw [List.get?_eq_getElem?, List.getElem?_append_right (Nat.le_refl _)]
      simp
    have hsep : IsPathSeparator '.' = false := by decide
    simp only [Nat.add_zero, extLoop, hget, hsep, Bool.false_eq_true, if_false, if_true,
      List.drop_left]
  | succ k ih =>
    intro hk
    have hlt : k < e.length := hk
    have hget : (s ++ '.' :: e).get? (s.length + 1 + k) = some (e.get ⟨k, hlt⟩) := by
      rw [List.get?_eq_getElem?, List.getElem?_append_right (by omega)]
      have e1 : s.length + 1 + k - s.length = k + 1 := by omega
      rw [e1, List.getElem?_cons_succ, List.getElem?_eq_getElem hlt]
      rfl
    have hx := he _ (List.get_mem e k hlt)
    have hsep : IsPathSeparator (e.get ⟨k, hlt⟩) = false := by
      unfold IsPathSeparator
      exact beq_false_of_ne hx.2
    have e2 : s.length + 1 + (k + 1) = (s.length + 1 + k) + 1 := by omega
    rw [e2, extLoop, hget]
    simp only [hsep, Bool.false_eq_true, if_false, hx.1]
    exact ih (Nat.le_of_lt hlt)

/-- The extension of a name is what follows its last dot. -/
theorem Ext_append_dot (s e : Str) (he : ∀ x ∈ e, x ≠ '.' ∧ x ≠ '/') :
    Ext (s ++ '.' :: e) = '.' :: e := by
  have h := extLoop_dot s e he e.length (Nat.le_refl _)
  unfold Ext
  have hl : (s ++ '.' :: e).length = s.length + 1 + e.length := by
    simp [Nat.add_assoc, Nat.add_comm 1]
  rw [hl]
  exact h

theorem TrimSuffix_append (s t : Str) : TrimSuffix (s ++ t) t = s := by
  unfold TrimSuffix
  have h : t.isSuffixOf (s ++ t) = true :=
    List.isSuffixOf_iff_suffix.mpr (List.suffix_append s t)
  rw [if_pos h]
  have hl : (s ++ t).length - t.length = s.length := by
    rw [List.length_append]
    omega
  rw [hl]
  exact List.take_left _ _

theorem stemOf_append_dot (s e : Str) (he : ∀ x ∈ e, x ≠ '.' ∧ x ≠ '/') :
    stemOf (s ++ '.' :: e) = s := by
  rw [stemOf, Ext_append_dot s e he, TrimSuffix_append]

/-! ## Where the marker can be found -/

theorem twoDigits_of_drop_nondigit (a b : Str) (q : Nat) (ha : ∀ x ∈ a, isDigit x = false)
    (hq : q < a.length) : twoDigits ((a ++ b).drop q) = false := by
  have hx := ha _ (List.getElem_mem hq)
  have e : (a ++ b).drop q = a[q] :: (List.drop (q + 1) a ++ b) := by
    rw [List.drop_append_of_le_length (Nat.le_of_lt hq), List.drop_eq_getElem_cons hq,
      List.cons_append]
  rw [e]
  cases List.drop (q + 1) a ++ b with
  | nil => rfl
  | cons y ys => simp only [twoDigits, hx, Bool.false_and]

/-- The marker followed by two digits cannot begin where the two digits would fall into a
text without digits. -/
theorem markerAt_drop_nondigit (m a b : Str) (p : Nat) (ha : ∀ x ∈ a, isDigit x = false)
    (hp : p + m.length < a.length) : markerAt m ((a ++ b).drop p) = false := by
  have h := twoDigits_of_drop_nondigit a b (p + m.length) ha hp
  simp only [markerAt]
  rw [List.drop_drop, h, Bool.and_false]

theorem markerAt_self (m r : Str) (h : twoDigits r = true) : markerAt m (m ++ r) = true := by
  have hp : m.isPrefixOf (m ++ r) = true :=
    List.isPrefixOf_iff_prefix.mpr (List.prefix_append m r)
  simp [markerAt, hp, h]

/-- The marker does not begin one rune after its own beginning when a digit follows it and
it has no digit. -/
theorem not_isPrefixOf_shift (d : Char) (rest : Str) :
    ∀ (m : Str) (a : Char), (a :: m).isPrefixOf (m ++ d :: rest) = true → d ∈ a :: m := by
  intro m
  induction m with
  | nil =>
    intro a h
    simp only [List.nil_append, List.isPrefixOf_cons₂, List.isPrefixOf_nil_left,
      Bool.and_true, beq_iff_eq] at h
    simp [h]
  | cons b m ih =>
    intro a h
    simp only [List.cons_append, List.isPrefixOf_cons₂, Bool.and_eq_true, beq_iff_eq] at h
    have h2 : (b :: m).isPrefixOf (m ++ d :: rest) = true := by
      have := ih b
      exact h.2
    exact List.mem_cons_of_mem a (ih b h2)

theorem isBoundary_isSep (c : Char) (h : isBoundary c = true) : isSep c = true := by
  simp only [isBoundary, Bool.or_eq_true, beq_iff_eq] at h
  rcases h with ((h | h) | h) | h <;> subst h <;> decide

theorem all_isAny_of_no_newline (h : Str) (hn : ∀ x ∈ h, x ≠ '\n') : h.all isAny = true := by
  rw [List.all_eq_true]
  intro x hx
  simp [isAny, hn x hx]

/-! ## Marker mode with the marker after a separator -/

theorem pfxSep_none_of (m : Str) (x : Char) (cs : Str) (h1 : markerAt m cs = false)
    (h2 : markerAt m (x :: cs) = false) : pfxSep m (x :: cs) = none := by
  simp [pfxSep, h1, h2]

/-- Before the end of a text without digits the rest of the marker pattern does not match,
as long as the marker would end inside that text. -/
theorem pfxSep_drop_nondigit (m a b : Str) (j : Nat) (ha : ∀ x ∈ a, isDigit x = false)
    (hj : j + 1 + m.length < a.length) : pfxSep m ((a ++ b).drop j) = none := by
  have hlt : j < (a ++ b).length := by
    rw [List.length_append]
    omega
  have h1 := markerAt_drop_nondigit m a b (j + 1) ha hj
  have h2 := markerAt_drop_nondigit m a b j ha (by omega)
  rw [List.drop_eq_getElem_cons hlt] at h2 ⊢
  exact pfxSep_none_of m _ _ h1 h2

theorem twoDigits_append (D t : Str) (hD : 2 ≤ D.length) (hDd : ∀ x ∈ D, isDigit x = true) :
    twoDigits (D ++ t) = true := by
  match D with
  | [] => simp at hD
  | [a] => simp at hD
  | a :: b :: D =>
    have ha := hDd a (by simp)
    have hb := hDd b (by simp)
    simp [twoDigits, ha, hb]

theorem prefixForm_marker_sep (m h D t : Str) (c : Char)
    (hmd : ∀ x ∈ m, isDigit x = false)
    (hh : h ≠ []) (hhd : ∀ x ∈ h, isDigit x = false) (hhn : ∀ x ∈ h, x ≠ '\n')
    (hlast : ∀ z, h.getLast? = some z → isSep z = false)
    (hc : isSep c = true)
    (hD : 2 ≤ D.length) (hDd : ∀ x ∈ D, isDigit x = true) :
    prefixForm (h ++ c :: (m ++ (D ++ t))) m = (h, true) := by
  have hs : h ++ c :: (m ++ (D ++ t)) = (h ++ c :: m) ++ (D ++ t) := by simp
  have hA : ∀ x ∈ h ++ c :: m, isDigit x = false := by
    intro x hx
    rcases List.mem_append.mp hx with hx | hx
    · exact hhd x hx
    · rcases List.mem_cons.mp hx with hx | hx
      · rw [hx]; exact isSep_not_isDigit c hc
      · exact hmd x hx
  have hdropk : (h ++ c :: (m ++ (D ++ t))).drop h.length = c :: (m ++ (D ++ t)) :=
    List.drop_left _ _
  have hmk : markerAt m (m ++ (D ++ t)) = true := markerAt_self m _ (twoDigits_append D t hD hDd)
  have hsepk : pfxSep m (c :: (m ++ (D ++ t))) = some [c] := by
    simp [pfxSep, hc, hmk]
  have hf : firstHead (fun r => (pfxSep m r).isSome) (h ++ c :: (m ++ (D ++ t))) =
      some h.length := by
    apply firstHead_eq_some
    · cases h with
      | nil => exact absurd rfl hh
      | cons a h => simp
    · exact prefix_le_takeWhile isAny h _ (all_isAny_of_no_newline h hhn)
    · rw [hdropk, hsepk]; rfl
    · intro j _ hj2
      rw [hs, pfxSep_drop_nondigit m _ _ j hA (by simp; omega)]
      rfl
  unfold prefixForm
  rw [hf]
  have htake : (h ++ c :: (m ++ (D ++ t))).take h.length = h := List.take_left _ _
  simp only [hdropk, hsepk, htake, stripSeps_eq_self h hlast]
  simp [hh]

/-- C4. The marker is matched as a literal string: for a non-empty marker `m` without a
decimal digit (whatever metacharacters it has), a non-empty `h` without digit or line feed
that does not end in a separator, a separator `c` among `-`, `_`, `.`, space, a run `D` of
at least two digits, any `t` and an extension `e` without `.` or `/`, the filename
`h c m D t . e` is classified to the group `h`. -/
theorem marker_literal (m h D t e : Str) (c : Char)
    (hm : m ≠ []) (hmd : ∀ x ∈ m, isDigit x = false)
    (hh : h ≠ []) (hhd : ∀ x ∈ h, isDigit x = false) (hhn : ∀ x ∈ h, x ≠ '\n')
    (hlast : ∀ z, h.getLast? = some z → isSep z = false)
    (hc : c = '-' ∨ c = '_' ∨ c = '.' ∨ c = ' ')
    (hD : 2 ≤ D.length) (hDd : ∀ x ∈ D, isDigit x = true)
    (he : ∀ x ∈ e, x ≠ '.' ∧ x ≠ '/') :
    ParseGroup (h ++ [c] ++ m ++ D ++ t ++ '.' :: e) m = some (h, true) := by
  have hsep : isSep c = true := by
    rcases hc with h | h | h | h <;> subst h <;> decide
  have hstem : stemOf (h ++ [c] ++ m ++ D ++ t ++ '.' :: e) = h ++ c :: (m ++ (D ++ t)) := by
    rw [stemOf_append_dot _ e he]
    simp
  rw [ParseGroup_eq, hstem,
    prefixForm_marker_sep m h D t c hmd hh hhd hhn hlast hsep hD hDd]
  simp [hm]

/-- Instance of C4 with the marker `.*+`, whose runes are all metacharacters:
`test-.*+99.txt` is classified to `test`. -/
theorem marker_literal_witness :
    ParseGroup "test-.*+99.txt".toList ".*+".toList = some ("test".toList, true) :=
  marker_literal ".*+".toList "test".toList "99".toList [] "txt".toList '-'
    (by decide) (by decide) (by decide) (by decide) (by decide) (by decide)
    (by decide) (by decide) (by decide) (by decide)

/-! ## Marker mode with the marker inside a word -/

theorem prefixForm_marker_no_boundary (m h D t : Str)
    (hm : m ≠ []) (hmd : ∀ x ∈ m, isDigit x = false)
    (hh : h ≠ []) (hhd : ∀ x ∈ h, isDigit x = false) (hhn : ∀ x ∈ h, x ≠ '\n')
    (hlast : ∀ z, h.getLast? = some z → isSep z = false)
    (hD : 2 ≤ D.length) (hDd : ∀ x ∈ D, isDigit x = true) :
    prefixForm (h ++ m ++ D ++ t) m = ([], false) := by
  have hs : h ++ m ++ D ++ t = (h ++ m) ++ (D ++ t) := by simp
  have hs2 : h ++ m ++ D ++ t = h ++ (m ++ (D ++ t)) := by simp
  have hA : ∀ x ∈ h ++ m, isDigit x = false := by
    intro x hx
    rcases List.mem_append.mp hx with hx | hx
    · exact hhd x hx
    · exact hmd x hx
  obtain ⟨l, z, hlz⟩ : ∃ l z, h = l ++ [z] := by
    rcases List.eq_nil_or_concat h with h0 | ⟨l, z, h0⟩
    · exact absurd h0 hh
    · exact ⟨l, z, by simpa using h0⟩
  have hzl : h.getLast? = some z := by rw [hlz]; exact List.getLast?_concat l
  have hz : isSep z = false := hlast z hzl
  obtain ⟨a, m0, hm0⟩ : ∃ a m0, m = a :: m0 := by
    cases m with
    | nil => exact absurd rfl hm
    | cons a m0 => exact ⟨a, m0, rfl⟩
  obtain ⟨d, D0, hD0⟩ : ∃ d D0, D = d :: D0 := by
    cases D with
    | nil => simp at hD
    | cons d D0 => exact ⟨d, D0, rfl⟩
  have hdropk : (h ++ m ++ D ++ t).drop h.length = m ++ (D ++ t) := by
    rw [hs2]
    exact List.drop_left _ _
  have hmk : markerAt m (m ++ (D ++ t)) = true := markerAt_self m _ (twoDigits_append D t hD hDd)
  have hshift : markerAt m (m0 ++ (D ++ t)) = false := by
    cases hp : m.isPrefixOf (m0 ++ (D ++ t)) with
    | false => simp [markerAt, hp]
    | true =>
      exfalso
      rw [hm0, hD0, List.cons_append] at hp
      have hmem := not_isPrefixOf_shift d (D0 ++ t) m0 a hp
      rw [← hm0] at hmem
      have h1 := hmd d hmem
      have h2 := hDd d (by rw [hD0]; simp)
      rw [h1] at h2
      cases h2
  have hsepk : pfxSep m (m ++ (D ++ t)) = some [] := by
    have e : m ++ (D ++ t) = a :: (m0 ++ (D ++ t)) := by rw [hm0]; rfl
    have hmk2 := hmk
    rw [e] at hmk2 ⊢
    simp [pfxSep, hshift, hmk2]
  have hf : firstHead (fun r => (pfxSep m r).isSome) (h ++ m ++ D ++ t) = some h.length := by
    apply firstHead_eq_some
    · rw [hlz]; simp
    · rw [hs2]
      exact prefix_le_takeWhile isAny h _ (all_isAny_of_no_newline h hhn)
    · rw [hdropk, hsepk]; rfl
    · intro j _ hj2
      by_cases hj : j + 1 < h.length
      · rw [hs, pfxSep_drop_nondigit m _ _ j hA (by simp; omega)]
        rfl
      · have hjl : j = l.length := by
          rw [hlz, List.length_append, List.length_singleton] at hj hj2
          omega
        have hd : (h ++ m ++ D ++ t).drop j = z :: (m ++ (D ++ t)) := by
          rw [hs2, hlz, hjl, List.append_assoc]
          exact List.drop_left _ _
        have h2 : markerAt m ((h ++ m ++ D ++ t).drop j) = false := by
          rw [hs]
          exact markerAt_drop_nondigit m _ _ j hA (by simp; omega)
        rw [hd] at h2 ⊢
        simp [pfxSep, hz, h2]
  unfold prefixForm
  rw [hf]
  have htake : (h ++ m ++ D ++ t).take h.length = h := by
    rw [hs2]
    exact List.take_left _ _
  have hbd : isBoundary z = false := by
    cases hb : isBoundary z with
    | false => rfl
    | true =>
      rw [isBoundary_isSep z hb] at hz
      cases hz
  simp only [hdropk, hsepk, htake, hzl, Option.map_some', hbd]
  simp

/-- C5. A marker that is not at a separator boundary makes marker mode fail: for a non-empty
marker `m` without a decimal digit, a non-empty `h` without digit or line feed whose last
rune is no separator, a run `D` of at least two digits and any `t`, `tryPrefixForm` fails
on `h m D t` (no other split is tried, whatever `t` holds), and a filename with that stem
gets the numeric-mode result.  `sp02.jpg` and `albump99.wav` with marker `p` give `sp` and
`albump`. -/
theorem marker_without_boundary (m h D t : Str)
    (hm : m ≠ []) (hmd : ∀ x ∈ m, isDigit x = false)
    (hh : h ≠ []) (hhd : ∀ x ∈ h, isDigit x = false) (hhn : ∀ x ∈ h, x ≠ '\n')
    (hlast : ∀ z, h.getLast? = some z → isSep z = false)
    (hD : 2 ≤ D.length) (hDd : ∀ x ∈ D, isDigit x = true) :
    tryPrefixForm (h ++ m ++ D ++ t) m = some ([], false) ∧
    (∀ f, stemOf f = h ++ m ++ D ++ t → ParseGroup f m = ParseGroup f []) ∧
    ParseGroup "sp02.jpg".toList "p".toList = some ("sp".toList, true) ∧
    ParseGroup "albump99.wav".toList "p".toList = some ("albump".toList, true) := by
  have hp := prefixForm_marker_no_boundary m h D t hm hmd hh hhd hhn hlast hD hDd
  refine ⟨?_, ?_, by decide, by decide⟩
  · rw [tryPrefixForm_eq, hp]
  · intro f hf
    rw [ParseGroup_eq, ParseGroup_eq, hf, hp]
    simp

/-- Instance of C5 on the stem `ab` `p` `01` `-p02`: the later occurrence of the marker after
a separator is not used, marker mode fails. -/
theorem marker_without_boundary_witness :
    tryPrefixForm "abp01-p02".toList "p".toList = some ([], false) ∧
      ParseGroup "abp01-p02.txt".toList "p".toList = ParseGroup "abp01-p02.txt".toList [] :=
  ⟨(marker_without_boundary "p".toList "ab".toList "01".toList "-p02".toList
      (by decide) (by decide) (by decide) (by decide) (by decide) (by decide)
      (by decide) (by decide)).1,
    (marker_without_boundary "p".toList "ab".toList "01".toList "-p02".toList
      (by decide) (by decide) (by decide) (by decide) (by decide) (by decide)
      (by decide) (by decide)).2.1 "abp01-p02.txt".toList (by decide)⟩

/-! ## An empty group in marker mode -/

/-- C8, as amended. When the marker pattern matches the stem but the captured leading text is
empty once its trailing separators are stripped, marker mode fails and `ParseGroup` returns
the numeric-mode outcome, which is that of `ParseGroup` with the empty marker. -/
theorem empty_marker_group_falls_through (f m w groupPart separator x : Str)
    (_hm : m ≠ [])
    (hmatch : (compilePrefixPattern (QuoteMeta m)).map
      (fun P => FindStringSubmatch P (stemOf f)) = some [w, groupPart, separator, x])
    (hempty : ReplaceAllString separatorPattern groupPart [] = []) :
    tryPrefixForm (stemOf f) m = some ([], false) ∧ ParseGroup f m = ParseGroup f [] := by
  rw [compilePrefixPattern_QuoteMeta, Option.map_some'] at hmatch
  have hfs : FindStringSubmatch (anchored (pfxTailRe (litRe m))) (stemOf f) =
      [w, groupPart, separator, x] := Option.some.inj hmatch
  rw [ReplaceAllString_separatorPattern] at hempty
  obtain ⟨hnone, hsome⟩ := FindStringSubmatch_prefixPattern m (stemOf f)
  have hp : prefixForm (stemOf f) m = ([], false) := by
    unfold prefixForm
    cases hf : firstHead (fun r => (pfxSep m r).isSome) (stemOf f) with
    | none => rfl
    | some k =>
      obtain ⟨sp, w2, x2, _, hfs2⟩ := hsome k hf
      rw [hfs] at hfs2
      have hg : groupPart = (stemOf f).take k := by
        have := congrArg (fun l => l.get? 1) hfs2
        simpa using this
      rw [hg] at hempty
      by_cases hb : pfxSep m ((stemOf f).drop k) = some [] ∧
          ((stemOf f).take k).getLast?.map isBoundary ≠ some true
      · exact if_pos hb
      · simp only [hb, if_false, hempty, if_true]
  refine ⟨by rw [tryPrefixForm_eq, hp], ?_⟩
  rw [ParseGroup_eq, ParseGroup_eq, hp]
  simp

/-- Instance of C8 (amended) on `-p01.txt` with marker `p`: the head `-` strips to nothing. -/
theorem empty_marker_group_falls_through_witness :
    tryPrefixForm (stemOf "-p01.txt".toList) "p".toList = some ([], false) ∧
      ParseGroup "-p01.txt".toList "p".toList = ParseGroup "-p01.txt".toList [] :=
  empty_marker_group_falls_through "-p01.txt".toList "p".toList "-p01".toList "-".toList []
    "01".toList (by decide) (by decide) (by decide)

/-- C8 as stated fails on `-p01.txt` with marker `p`: the marker pattern matches the stem
`-p01` with the head `-`, which strips to the empty string, and yet `ParseGroup` returns
the group `-p` found by numeric mode. -/
theorem empty_marker_group_counterexample :
    (compilePrefixPattern (QuoteMeta "p".toList)).map
        (fun P => FindStringSubmatch P (stemOf "-p01.txt".toList)) =
      some ["-p01".toList, "-".toList, [], "01".toList] ∧
    ReplaceAllString separatorPattern "-".toList [] = [] ∧
    ParseGroup "-p01.txt".toList "p".toList = some ("-p".toList, true) := by
  decide

/-! ## Stems without a head, and the part of the name a group takes -/

theorem numericTail_seps_digits (t D : Str) (ht : t.all isSep = true)
    (hD : D.all isDigit = true) (hlen : 2 ≤ D.length) : numericTail (t ++ D) = true := by
  rw [numericTail, List.dropWhile_append_of_pos (List.all_eq_true.mp ht),
    dropWhile_isSep_of_digits _ hD]
  simp [hD, hlen]

theorem numericTail_two (r : Str) (h : numericTail r = true) : 2 ≤ r.length := by
  simp only [numericTail, Bool.and_eq_true, decide_eq_true_eq] at h
  have h2 : (r.dropWhile isSep).length ≤ r.length := (List.dropWhile_suffix isSep).length_le
  omega

theorem twoDigits_two (r : Str) (h : twoDigits r = true) : 2 ≤ r.length := by
  match r with
  | [] => simp [twoDigits] at h
  | [a] => simp [twoDigits] at h
  | a :: b :: r => simp

theorem markerAt_two (m r : Str) (h : markerAt m r = true) : 2 ≤ r.length := by
  simp only [markerAt, Bool.and_eq_true] at h
  have := twoDigits_two _ h.2
  rw [List.length_drop] at this
  omega

theorem pfxSep_two (m r : Str) (h : (pfxSep m r).isSome = true) : 2 ≤ r.length := by
  cases r with
  | nil => simp [pfxSep] at h
  | cons c cs =>
    unfold pfxSep at h
    by_cases h1 : (isSep c && markerAt m cs) = true
    · simp only [Bool.and_eq_true] at h1
      have := markerAt_two m cs h1.2
      simp only [List.length_cons]
      omega
    · by_cases h2 : markerAt m (c :: cs) = true
      · exact markerAt_two m _ h2
      · simp [h1, h2] at h

/-- C17, as amended. A head that is empty after stripping makes numeric mode fail: when the
stem is a non-empty run of runes of the class `[-_.\s]` (`-`, `_`, `.`, tab, line feed, form
feed, carriage return, space) followed by a run of at least two decimal digits, `ParseGroup`
without a marker reports no match. -/
theorem separators_only_head (f S D : Str) (hstem : stemOf f = S ++ D) (hS : S ≠ [])
    (hSs : S.all isSep = true) (hD : D.all isDigit = true) (hlen : 2 ≤ D.length) :
    ParseGroup f [] = some ([], false) := by
  rw [ParseGroup_nil, tryNumericForm_eq, hstem]
  obtain ⟨c, S0, rfl⟩ : ∃ c S0, S = c :: S0 := by
    cases S with
    | nil => exact absurd rfl hS
    | cons c S0 => exact ⟨c, S0, rfl⟩
  simp only [List.all_cons, Bool.and_eq_true] at hSs
  unfold numericForm
  cases hf : firstHead numericTail (c :: S0 ++ D) with
  | none => rfl
  | some k =>
    obtain ⟨h1, _, _, h4⟩ := firstHead_some _ _ _ hf
    have hk : k = 1 := by
      rcases Nat.lt_or_ge 1 k with hlt | hge
      · have := h4 1 (Nat.le_refl 1) hlt
        have e : (c :: S0 ++ D).drop 1 = S0 ++ D := rfl
        rw [e, numericTail_seps_digits S0 D hSs.2 hD hlen] at this
        cases this
      · omega
    subst hk
    have e : (c :: S0 ++ D).take 1 = [c] := rfl
    simp [e, stripSeps, rdropWhile_cons, hSs.1]

/-- Instances of C17 on `-01.txt` and `__123.txt`. -/
theorem separators_only_head_witness :
    ParseGroup "-01.txt".toList [] = some ([], false) ∧
      ParseGroup "__123.txt".toList [] = some ([], false) :=
  ⟨separators_only_head "-01.txt".toList "-".toList "01".toList
      (by decide) (by decide) (by decide) (by decide) (by decide),
    separators_only_head "__123.txt".toList "__".toList "123".toList
      (by decide) (by decide) (by decide) (by decide) (by decide)⟩

/-- C17 as stated fails on a separator that is whitespace outside the class `[-_.\s]`: the
stems of vertical tab, `01.txt` and of ideographic space, `01.txt` are one whitespace
character followed by two digits, and the names are classified to the group of that one
character. -/
theorem separators_only_head_counterexample :
    stemOf ['\x0b', '0', '1', '.', 't', 'x', 't'] = ['\x0b'] ++ ['0', '1'] ∧
      ['\x0b'].all isSpecSep = true ∧
      ParseGroup ['\x0b', '0', '1', '.', 't', 'x', 't'] [] = some (['\x0b'], true) ∧
      stemOf ['\u3000', '0', '1', '.', 't', 'x', 't'] = ['\u3000'] ++ ['0', '1'] ∧
      ['\u3000'].all isSpecSep = true ∧
      ParseGroup ['\u3000', '0', '1', '.', 't', 'x', 't'] [] = some (['\u3000'], true) := by
  decide

theorem stemOf_prefix (f : Str) : ∃ t, f = stemOf f ++ t := by
  unfold stemOf TrimSuffix
  by_cases h : (Ext f).isSuffixOf f = true
  · rw [if_pos h]
    exact ⟨f.drop (f.length - (Ext f).length), (List.take_append_drop _ _).symm⟩
  · rw [if_neg h]
    exact ⟨[], (List.append_nil _).symm⟩

/-- A successful classification takes the group from a head that leaves at least two runes
of the stem. -/
theorem ParseGroup_shape_two (f m g : Str) (h : ParseGroup f m = some (g, true)) :
    ∃ k, 1 ≤ k ∧ k + 2 ≤ (stemOf f).length ∧ g = stripSeps ((stemOf f).take k) := by
  rw [ParseGroup_eq] at h
  have hcase : prefixForm (stemOf f) m = (g, true) ∨ numericForm (stemOf f) = (g, true) := by
    by_cases hc : m ≠ [] ∧ (prefixForm (stemOf f) m).2 = true
    · rw [if_pos hc] at h
      exact Or.inl (Option.some.inj h)
    · rw [if_neg hc] at h
      exact Or.inr (Option.some.inj h)
  rcases hcase with hp | hn
  · unfold prefixForm at hp
    cases hf : firstHead (fun r => (pfxSep m r).isSome) (stemOf f) with
    | none => rw [hf] at hp; cases hp
    | some k =>
      rw [hf] at hp
      obtain ⟨h1, _, h3, _⟩ := firstHead_some _ _ _ hf
      have h2 := pfxSep_two m _ h3
      rw [List.length_drop] at h2
      refine ⟨k, h1, by omega, ?_⟩
      simp only at hp
      split_ifs at hp with ha hb
      · cases hp
      · cases hp
      · cases hp
        rfl
  · unfold numericForm at hn
    cases hf : firstHead numericTail (stemOf f) with
    | none => rw [hf] at hn; cases hn
    | some k =>
      rw [hf] at hn
      obtain ⟨h1, _, h3, _⟩ := firstHead_some _ _ _ hf
      have h2 := numericTail_two _ h3
      rw [List.length_drop] at h2
      refine ⟨k, h1, by omega, ?_⟩
      simp only at hn
      split_ifs at hn with ha
      · cases hn
      · cases hn
        rfl

/-- C20. A group is a proper initial part of the stem, hence of the filename, and at least
two runes of the stem remain after it; so a group has a path separator only if the
filename has one. -/
theorem group_proper_prefix (f m g : Str) (h : ParseGroup f m = some (g, true)) :
    (∃ r, stemOf f = g ++ r ∧ 2 ≤ r.length) ∧ (∃ r, f = g ++ r ∧ 2 ≤ r.length) ∧
      ('/' ∈ g → '/' ∈ f) := by
  obtain ⟨k, _, h2, hg⟩ := ParseGroup_shape_two f m g h
  obtain ⟨t, ht⟩ := stripSeps_prefix ((stemOf f).take k)
  have hstem : stemOf f = g ++ (t ++ (stemOf f).drop k) := by
    rw [← List.append_assoc, hg, ← ht, List.take_append_drop]
  have hlen : 2 ≤ (t ++ (stemOf f).drop k).length := by
    rw [List.length_append, List.length_drop]
    omega
  obtain ⟨u, hu⟩ := stemOf_prefix f
  have hf : f = g ++ ((t ++ (stemOf f).drop k) ++ u) := by
    rw [← List.append_assoc, ← hstem]
    exact hu
  refine ⟨⟨_, hstem, hlen⟩, ⟨_, hf, ?_⟩, ?_⟩
  · rw [List.length_append]
    omega
  · intro hmem
    rw [hf]
    exact List.mem_append_left _ hmem

/-- Instance of C20 on `kyoto-trip p04.jpg` with marker `p`. -/
theorem group_proper_prefix_witness :
    ParseGroup "kyoto-trip p04.jpg".toList "p".toList = some ("kyoto-trip".toList, true) ∧
      ((∃ r, stemOf "kyoto-trip p04.jpg".toList = "kyoto-trip".toList ++ r ∧ 2 ≤ r.length) ∧
        (∃ r, "kyoto-trip p04.jpg".toList = "kyoto-trip".toList ++ r ∧ 2 ≤ r.length) ∧
        ('/' ∈ "kyoto-trip".toList → '/' ∈ "kyoto-trip p04.jpg".toList)) :=
  ⟨by decide,
    group_proper_prefix "kyoto-trip p04.jpg".toList "p".toList "kyoto-trip".toList (by decide)⟩

/-! ## Names without a stem, and the role of the extension -/

theorem ParseGroup_congr (f1 f2 m : Str) (h : stemOf f1 = stemOf f2) :
    ParseGroup f1 m = ParseGroup f2 m := by
  rw [ParseGroup_eq, ParseGroup_eq, h]

theorem firstHead_nil (ok : Str → Bool) : firstHead ok [] = none := by
  apply firstHead_eq_none
  intro j h1 h2
  simp at h2
  omega

theorem ParseGroup_empty_stem (f m : Str) (h : stemOf f = []) :
    ParseGroup f m = some ([], false) := by
  rw [ParseGroup_eq, h]
  simp [prefixForm, numericForm, firstHead_nil]

theorem stemOf_nil : stemOf [] = [] := by decide

theorem extLoop_no_dot (s : Str) (hs : ∀ x ∈ s, x ≠ '.') :
    ∀ k, k ≤ s.length → extLoop s k = [] := by
  intro k
  induction k with
  | zero => intro _; rfl
  | succ k ih =>
    intro hk
    have hlt : k < s.length := hk
    have hget : s.get? k = some (s.get ⟨k, hlt⟩) := List.get?_eq_get hlt
    have hx := hs _ (List.get_mem s k hlt)
    rw [extLoop, hget]
    by_cases hsep : IsPathSeparator (s.get ⟨k, hlt⟩) = true
    · simp only [hsep, if_true]
    · simp only [hsep, if_false, hx, Bool.false_eq_true]
      exact ih (Nat.le_of_lt hlt)

/-- A name without a dot is its own stem. -/
theorem stemOf_no_dot (s : Str) (hs : ∀ x ∈ s, x ≠ '.') : stemOf s = s := by
  have he : Ext s = [] := extLoop_no_dot s hs s.length (Nat.le_refl _)
  have h := TrimSuffix_append s []
  rw [List.append_nil] at h
  rw [stemOf, he, h]

/-- The base name of a path is `/` or has no path separator. -/
theorem Base_no_sep (p : Str) : Base p = ['/'] ∨ ∀ x ∈ Base p, x ≠ '/' := by
  unfold Base
  by_cases hp : p = []
  · rw [if_pos hp]
    right
    intro x hx
    rw [List.mem_singleton] at hx
    rw [hx]
    decide
  · rw [if_neg hp]
    simp only
    by_cases hl : (p.rdropWhile IsPathSeparator).rtakeWhile (fun c => !IsPathSeparator c) = []
    · rw [if_pos hl]
      exact Or.inl rfl
    · rw [if_neg hl]
      right
      intro x hx hx0
      rw [List.rtakeWhile, List.mem_reverse] at hx
      have := List.mem_takeWhile_imp hx
      rw [hx0] at this
      revert this
      decide

/-- C11. A filename, that is a name without path separator, that is empty or consists
solely of an extension (it starts with a dot and has no other dot) is not classified,
whatever the marker. -/
theorem extension_only_no_match (f m : Str) (hbase : ∀ x ∈ f, x ≠ '/')
    (h : f = [] ∨ ∃ e, f = '.' :: e ∧ ∀ x ∈ e, x ≠ '.') :
    ParseGroup f m = some ([], false) := by
  apply ParseGroup_empty_stem
  rcases h with h | ⟨e, h, he⟩
  · rw [h]
    exact stemOf_nil
  · rw [h]
    rw [h] at hbase
    exact stemOf_append_dot [] e
      (fun x hx => ⟨he x hx, hbase x (List.mem_cons_of_mem _ hx)⟩)

/-- Instances of C11 on the empty name and on `.txt`, with and without a marker. -/
theorem extension_only_no_match_witness :
    ParseGroup [] "p".toList = some ([], false) ∧
      ParseGroup ".txt".toList [] = some ([], false) :=
  ⟨extension_only_no_match [] "p".toList (by decide) (Or.inl rfl),
    extension_only_no_match ".txt".toList [] (by decide)
      (Or.inr ⟨"txt".toList, rfl, by decide⟩)⟩

/-- The same on the names the planner hands to the classifier: the base name of a path
that starts with a dot and has no other dot is not classified. -/
theorem extension_only_base (p m e : Str) (h : Base p = '.' :: e) (he : ∀ x ∈ e, x ≠ '.') :
    ParseGroup (Base p) m = some ([], false) := by
  apply ParseGroup_empty_stem
  rcases Base_no_sep p with hb | hb
  · rw [hb] at h
    cases h
  · rw [h] at hb ⊢
    exact stemOf_append_dot [] e
      (fun x hx => ⟨he x hx, hb x (List.mem_cons_of_mem _ hx)⟩)

/-- C12. Only the stem takes part in the classification: two names that differ in their
extension only (an extension has neither a dot nor a path separator) are classified alike,
and like the name without the extension when that name has no dot.  Only the last
extension is removed: the stem of `album.002.wav` is `album.002`. -/
theorem stem_only (s m e1 e2 : Str) (h1 : ∀ x ∈ e1, x ≠ '.' ∧ x ≠ '/')
    (h2 : ∀ x ∈ e2, x ≠ '.' ∧ x ≠ '/') :
    ParseGroup (s ++ '.' :: e1) m = ParseGroup (s ++ '.' :: e2) m ∧
    ((∀ x ∈ s, x ≠ '.') → ParseGroup (s ++ '.' :: e1) m = ParseGroup s m) ∧
    stemOf "album.002.wav".toList = "album.002".toList ∧
    ParseGroup "album.002.wav".toList [] = some ("album".toList, true) := by
  refine ⟨?_, ?_, by decide, by decide⟩
  · apply ParseGroup_congr
    rw [stemOf_append_dot s e1 h1, stemOf_append_dot s e2 h2]
  · intro hs
    apply ParseGroup_congr
    rw [stemOf_append_dot s e1 h1, stemOf_no_dot s hs]

/-- Instance of C12 on `album-01` with the extensions `wav` and `mp3`. -/
theorem stem_only_witness :
    ParseGroup "album-01.wav".toList [] = ParseGroup "album-01.mp3".toList [] ∧
      ParseGroup "album-01.wav".toList [] = ParseGroup "album-01".toList [] :=
  ⟨(stem_only "album-01".toList [] "wav".toList "mp3".toList (by decide) (by decide)).1,
    (stem_only "album-01".toList [] "wav".toList "mp3".toList (by decide) (by decide)).2.1
      (by decide)⟩

/-! ## Marker mode needs the separator before the marker -/

theorem pfxSep_nil_markerAt (m r : Str) (h : pfxSep m r = some []) : markerAt m r = true := by
  cases r with
  | nil => simp [pfxSep] at h
  | cons c cs =>
    unfold pfxSep at h
    by_cases h1 : (isSep c && markerAt m cs) = true
    · simp [h1] at h
    · by_cases h2 : markerAt m (c :: cs) = true
      · exact h2
      · simp [h1, h2] at h

theorem pfxSep_cases (m r : Str) (sp : Str) (h : pfxSep m r = some sp) :
    sp = [] ∨ ∃ c t, sp = [c] ∧ isSep c = true ∧ r = c :: (m ++ t) := by
  cases r with
  | nil => simp [pfxSep] at h
  | cons c cs =>
    unfold pfxSep at h
    simp only at h
    by_cases h1 : (isSep c && markerAt m cs) = true
    · rw [if_pos h1] at h
      simp only [Bool.and_eq_true] at h1
      have hm := h1.2
      simp only [markerAt, Bool.and_eq_true] at hm
      obtain ⟨t, ht⟩ := List.isPrefixOf_iff_prefix.mp hm.1
      exact Or.inr ⟨c, t, (Option.some.inj h).symm, h1.1, by rw [ht]⟩
    · rw [if_neg h1] at h
      by_cases h2 : markerAt m (c :: cs) = true
      · rw [if_pos h2] at h
        exact Or.inl (Option.some.inj h).symm
      · rw [if_neg h2] at h
        cases h

/-- When the separator group is empty at the first head and the head ends in a separator,
the head is that single separator: a shorter head would have matched with the separator
captured. -/
theorem head_single_separator (m s : Str) (k : Nat) (z : Char)
    (hf : firstHead (fun r => (pfxSep m r).isSome) s = some k)
    (hsp : pfxSep m (s.drop k) = some []) (hz : (s.take k).getLast? = some z)
    (hsep : isSep z = true) : s.take k = [z] := by
  obtain ⟨h1, h2, _, h4⟩ := firstHead_some _ _ _ hf
  obtain ⟨l, hl⟩ := List.getLast?_eq_some_iff.mp hz
  have hk : k ≤ s.length := Nat.le_trans h2 (takeWhile_length_le _ _)
  have hlen : l.length + 1 = k := by
    have := congrArg List.length hl
    rw [List.length_take, List.length_append, List.length_singleton] at this
    omega
  cases l with
  | nil => exact hl
  | cons a l =>
    exfalso
    have hs : s = (a :: l) ++ (z :: s.drop k) := by
      have := List.take_append_drop k s
      rw [hl, List.append_assoc] at this
      exact this.symm
    have hd : s.drop (a :: l).length = z :: s.drop k := by
      conv_lhs => rw [hs]
      exact List.drop_left _ _
    have hj := h4 (a :: l).length (by simp) (by omega)
    rw [hd] at hj
    have hm := pfxSep_nil_markerAt m _ hsp
    simp [pfxSep, hsep, hm] at hj

theorem stripSeps_singleton (z : Char) (h : isSep z = true) : stripSeps [z] = [] := by
  simp [stripSeps, rdropWhile_cons, h]

theorem prefixForm_eq_strict (s m : Str) : prefixForm s m = prefixFormStrict s m := by
  unfold prefixForm prefixFormStrict
  cases hf : firstHead (fun r => (pfxSep m r).isSome) s with
  | none => rfl
  | some k =>
    simp only
    by_cases hsp : pfxSep m (s.drop k) = some []
    · simp only [hsp, true_and, if_true]
      by_cases hb : (s.take k).getLast?.map isBoundary ≠ some true
      · rw [if_pos hb]
      · rw [if_neg hb]
        have hb2 : (s.take k).getLast?.map isBoundary = some true := not_not.mp hb
        cases hz : (s.take k).getLast? with
        | none => rw [hz] at hb2; cases hb2
        | some z =>
          rw [hz, Option.map_some'] at hb2
          have hbz : isBoundary z = true := Option.some.inj hb2
          have := head_single_separator m s k z hf hsp hz (isBoundary_isSep z hbz)
          rw [this, stripSeps_singleton z (isBoundary_isSep z hbz)]
          rfl
    · have hn : ¬ (pfxSep m (s.drop k) = some [] ∧
          (s.take k).getLast?.map isBoundary ≠ some true) := fun h => hsp h.1
      rw [if_neg hn, if_neg hsp]

theorem tryPrefixFormStrict_eq (s m : Str) :
    tryPrefixFormStrict s m = some (prefixFormStrict s m) := by
  unfold tryPrefixFormStrict prefixFormStrict
  simp only [compilePrefixPattern_QuoteMeta]
  obtain ⟨hnone, hsome⟩ := FindStringSubmatch_prefixPattern m s
  cases hf : firstHead (fun r => (pfxSep m r).isSome) s with
  | none => simp [hnone hf]
  | some k =>
    obtain ⟨sp, w, x, hsp, hfs⟩ := hsome k hf
    simp only [hfs, hsp, List.length_cons, List.length_nil, ne_eq, not_true_eq_false,
      if_false, List.get?_cons_succ, List.get?_cons_zero, stripGroup_eq, Option.some.injEq]
    by_cases hsp0 : sp = []
    · simp [hsp0]
    · simp [hsp0]

theorem separatorByte_isSep (c : Char) (h : separatorByte (lastByte c) = true) :
    isSep c = true := by
  simp only [separatorByte, Bool.or_eq_true, beq_iff_eq] at h
  have e : ∀ d : Char, d.toNat < 128 → lastByte c = d.toNat → c = d :=
    fun d hd hc => (lastByte_eq_iff c d hd).mp hc
  rcases h with ((((((h | h) | h) | h) | h) | h) | h) | h
  · rw [e '-' (by decide) h]; decide
  · rw [e '_' (by decide) h]; decide
  · rw [e '.' (by decide) h]; decide
  · rw [e ' ' (by decide) h]; decide
  · rw [e '\t' (by decide) h]; decide
  · rw [e '\n' (by decide) h]; decide
  · rw [e '\x0c' (by decide) h]; decide
  · rw [e '\r' (by decide) h]; decide

/-- Whatever bytes of the separator class the boundary check accepts, the result is that of
the strict variant. -/
theorem tryPrefixFormWith_eq (accept : Nat → Bool) (s m : Str)
    (hacc : ∀ c : Char, accept (lastByte c) = true → isSep c = true) :
    tryPrefixFormWith accept s m = some (prefixFormStrict s m) := by
  unfold tryPrefixFormWith prefixFormStrict
  simp only [compilePrefixPattern_QuoteMeta]
  obtain ⟨hnone, hsome⟩ := FindStringSubmatch_prefixPattern m s
  cases hf : firstHead (fun r => (pfxSep m r).isSome) s with
  | none => simp [hnone hf]
  | some k =>
    obtain ⟨sp, w, x, hsp, hfs⟩ := hsome k hf
    obtain ⟨h1, h2, _, _⟩ := firstHead_some _ _ _ hf
    have hk : k ≤ s.length := Nat.le_trans h2 (takeWhile_length_le _ _)
    have hne : s.take k ≠ [] := by
      intro h
      have := congrArg List.length h
      rw [List.length_take, List.length_nil] at this
      omega
    obtain ⟨l, c, hlc⟩ : ∃ l c, s.take k = l ++ [c] := by
      rcases List.eq_nil_or_concat (s.take k) with h | ⟨l, c, h⟩
      · exact absurd h hne
      · exact ⟨l, c, by simpa using h⟩
    obtain ⟨hb1, hb2⟩ := bytes_last l c
    have hlast : (s.take k).getLast? = some c := by rw [hlc]; exact List.getLast?_concat l
    by_cases hsp0 : sp = []
    · subst hsp0
      by_cases ha : accept (lastByte c) = true
      · have h1z := head_single_separator m s k c hf hsp hlast (hacc c ha)
        have hstrip : stripSeps (s.take k) = [] := by
          rw [h1z]; exact stripSeps_singleton c (hacc c ha)
        rw [← hlc] at hb1 hb2
        simp only [hfs, hsp, List.length_cons, List.length_nil, ne_eq, not_true_eq_false,
          if_false, List.get?_cons_succ, List.get?_cons_zero, hb1, hb2, stripGroup_eq,
          if_true, ha, Bool.true_eq_false, hstrip]
      · rw [← hlc] at hb1 hb2
        have haf : accept (lastByte c) = false := by simpa using ha
        simp only [hfs, hsp, List.length_cons, List.length_nil, ne_eq, not_true_eq_false,
          if_false, List.get?_cons_succ, List.get?_cons_zero, hb1, hb2, if_true, haf]
    · have hne2 : ¬ (some sp = some ([] : Str)) := fun h => hsp0 (Option.some.inj h)
      simp only [hfs, hsp, List.length_cons, List.length_nil, ne_eq, not_true_eq_false,
        if_false, List.get?_cons_succ, List.get?_cons_zero, stripGroup_eq, hsp0, hne2]

theorem boundaryByte_separatorByte (b : Nat) (h : boundaryByte b = true) :
    separatorByte b = true := by
  simp only [boundaryByte, Bool.or_eq_true, beq_iff_eq] at h
  rcases h with ((h | h) | h) | h <;> subst h <;> decide

/-- C19. Marker mode never succeeds without a captured separator.  When `tryPrefixForm`
succeeds, the separator group of the match is a single separator rune and the stem reads
head, separator, marker from its beginning.  When that group is empty and the head ends in
a separator (in particular one that passes the boundary check), the head is that single
separator and strips to the empty string.  Hence `tryPrefixForm` equals the variant that
rejects every match without a separator, and the variant whose boundary check accepts all
bytes of the class `[-_.\s]`; the boundary check of the source is the variant for the four
bytes `-`, `_`, `.`, space. -/
theorem marker_needs_separator (s m : Str) :
    (∀ g, m ≠ [] → tryPrefixForm s m = some (g, true) →
      ∃ w h c x t,
        (compilePrefixPattern (QuoteMeta m)).map (fun P => FindStringSubmatch P s) =
          some [w, h, [c], x] ∧ isSep c = true ∧ s = h ++ c :: (m ++ t)) ∧
    (∀ w h x z,
      (compilePrefixPattern (QuoteMeta m)).map (fun P => FindStringSubmatch P s) =
          some [w, h, [], x] →
        h.getLast? = some z → isSep z = true → h = [z] ∧ stripSeps h = []) ∧
    tryPrefixForm s m = tryPrefixFormStrict s m ∧
    tryPrefixForm s m = tryPrefixFormWith separatorByte s m ∧
    tryPrefixForm s m = tryPrefixFormWith boundaryByte s m := by
  obtain ⟨hnone, hsome⟩ := FindStringSubmatch_prefixPattern m s
  refine ⟨?_, ?_, ?_, ?_, ?_⟩
  · intro g _ hg
    rw [tryPrefixForm_eq, prefixForm_eq_strict] at hg
    have hg2 : prefixFormStrict s m = (g, true) := Option.some.inj hg
    unfold prefixFormStrict at hg2
    cases hf : firstHead (fun r => (pfxSep m r).isSome) s with
    | none => rw [hf] at hg2; cases hg2
    | some k =>
      rw [hf] at hg2
      simp only at hg2
      obtain ⟨sp, w, x, hsp, hfs⟩ := hsome k hf
      rcases pfxSep_cases m _ sp hsp with h0 | ⟨c, t, hc, hsep, hd⟩
      · rw [hsp, h0, if_pos rfl] at hg2
        cases hg2
      · refine ⟨w, s.take k, c, x, t, ?_, hsep, ?_⟩
        · rw [compilePrefixPattern_QuoteMeta, Option.map_some', hfs, hc]
        · rw [← hd, List.take_append_drop]
  · intro w h x z hmatch hz hsep
    rw [compilePrefixPattern_QuoteMeta, Option.map_some'] at hmatch
    have hfs : FindStringSubmatch (anchored (pfxTailRe (litRe m))) s = [w, h, [], x] :=
      Option.some.inj hmatch
    cases hf : firstHead (fun r => (pfxSep m r).isSome) s with
    | none =>
      rw [hnone hf] at hfs
      cases hfs
    | some k =>
      obtain ⟨sp, w2, x2, hsp, hfs2⟩ := hsome k hf
      rw [hfs] at hfs2
      have hh : h = s.take k := by
        have := congrArg (fun l => l.get? 1) hfs2
        simpa using this
      have hs0 : sp = [] := by
        have := congrArg (fun l => l.get? 2) hfs2
        simpa using this.symm
      rw [hs0] at hsp
      rw [hh] at hz ⊢
      have h1 := head_single_separator m s k z hf hsp hz hsep
      rw [h1]
      exact ⟨rfl, stripSeps_singleton z hsep⟩
  · rw [tryPrefixForm_eq, tryPrefixFormStrict_eq, prefixForm_eq_strict]
  · rw [tryPrefixForm_eq, prefixForm_eq_strict,
      tryPrefixFormWith_eq separatorByte s m separatorByte_isSep]
  · rw [tryPrefixForm_eq, prefixForm_eq_strict,
      tryPrefixFormWith_eq boundaryByte s m
        (fun c hc => separatorByte_isSep c (boundaryByte_separatorByte _ hc))]

/-- Instance of C19 on the stem `album p99` with marker `p`: the separator group holds the
space, and the strict variant gives the same group. -/
theorem marker_needs_separator_witness :
    (∃ w h c x t,
        (compilePrefixPattern (QuoteMeta "p".toList)).map
            (fun P => FindStringSubmatch P "album p99".toList) = some [w, h, [c], x] ∧
          isSep c = true ∧ "album p99".toList = h ++ c :: ("p".toList ++ t)) ∧
      tryPrefixFormStrict "album p99".toList "p".toList = some ("album".toList, true) :=
  ⟨(marker_needs_separator "album p99".toList "p".toList).1 "album".toList
      (by decide) (by decide), by decide⟩

/-! ## The planned destination -/

theorem not_IsPathSeparator (c : Char) (h : c ≠ '/') : IsPathSeparator c = false := by
  simp [IsPathSeparator, h]

theorem splitPath_no_sep (f : Str) (h : ∀ x ∈ f, x ≠ '/') : splitPath f = [f] := by
  induction f with
  | nil => rfl
  | cons c cs ih =>
    have hc := not_IsPathSeparator c (h c (List.mem_cons_self c cs))
    have := ih (fun x hx => h x (List.mem_cons_of_mem c hx))
    simp [splitPath, hc, this]

theorem splitPath_append_sep (g rest : Str) (h : ∀ x ∈ g, x ≠ '/') :
    splitPath (g ++ '/' :: rest) = g :: splitPath rest := by
  induction g with
  | nil =>
    have hs : IsPathSeparator '/' = true := by decide
    simp [splitPath, hs]
  | cons c cs ih =>
    have hc := not_IsPathSeparator c (h c (List.mem_cons_self c cs))
    have := ih (fun x hx => h x (List.mem_cons_of_mem c hx))
    simp [splitPath, hc, this]

theorem cleanStep_element (rooted : Bool) (acc : List Str × Nat) (e : Str) (h0 : e ≠ [])
    (h1 : e ≠ ['.']) (h2 : e ≠ ['.', '.']) : cleanStep rooted acc e = (acc.1 ++ [e], acc.2) := by
  simp [cleanStep, h0, h1, h2]

/-- A path of two plain elements is clean. -/
theorem Clean_two (g f : Str) (hg : ∀ x ∈ g, x ≠ '/') (hf : ∀ x ∈ f, x ≠ '/')
    (g0 : g ≠ []) (g1 : g ≠ ['.']) (g2 : g ≠ ['.', '.'])
    (f0 : f ≠ []) (f1 : f ≠ ['.']) (f2 : f ≠ ['.', '.']) :
    Clean (g ++ '/' :: f) = g ++ '/' :: f := by
  cases g with
  | nil => exact absurd rfl g0
  | cons c cs =>
    have hc := not_IsPathSeparator c (hg c (List.mem_cons_self c cs))
    have hsplit : splitPath ((c :: cs) ++ '/' :: f) = [c :: cs, f] := by
      rw [splitPath_append_sep _ _ hg, splitPath_no_sep f hf]
    have hclean : Clean ((c :: cs) ++ '/' :: f) =
        (let out := ((splitPath ((c :: cs) ++ '/' :: f)).foldl
            (cleanStep (IsPathSeparator c)) ([], 0)).1
         let body := (if IsPathSeparator c then ['/'] else []) ++ List.intercalate ['/'] out
         if body = [] then ['.'] else body) := rfl
    rw [hclean, hsplit]
    simp only [List.foldl_cons, List.foldl_nil, cleanStep_element _ _ _ g0 g1 g2,
      cleanStep_element _ _ _ f0 f1 f2, hc]
    simp [List.intercalate, List.intersperse]

theorem Join_two (g f : Str) (hg : ∀ x ∈ g, x ≠ '/') (hf : ∀ x ∈ f, x ≠ '/')
    (g0 : g ≠ []) (g1 : g ≠ ['.']) (g2 : g ≠ ['.', '.'])
    (f0 : f ≠ []) (f1 : f ≠ ['.']) (f2 : f ≠ ['.', '.']) :
    Join [g, f] = g ++ '/' :: f := by
  have hd : [g, f].dropWhile (fun e => decide (e = [])) = [g, f] := by
    simp [List.dropWhile_cons, g0]
  have hi : List.intercalate ['/'] [g, f] = g ++ '/' :: f := by
    simp [List.intercalate, List.intersperse]
  unfold Join
  rw [hd]
  simp only [hi]
  exact Clean_two g f hg hf g0 g1 g2 f0 f1 f2

/-- The base name of a path that ends in a plain element after a separator. -/
theorem Base_two (g f : Str) (hf : ∀ x ∈ f, x ≠ '/') (f0 : f ≠ []) :
    Base (g ++ '/' :: f) = f := by
  have hne : g ++ '/' :: f ≠ [] := by simp
  have hlast : ∀ z, (g ++ '/' :: f).getLast? = some z → z ≠ '/' := by
    intro z hz
    have e : g ++ '/' :: f = (g ++ ['/']) ++ f := by simp
    rw [e, List.getLast?_append_of_ne_nil _ f0] at hz
    obtain ⟨ys, hys⟩ := List.getLast?_eq_some_iff.mp hz
    exact hf z (by rw [hys]; simp)
  have hstrip : (g ++ '/' :: f).rdropWhile IsPathSeparator = g ++ '/' :: f := by
    rw [List.rdropWhile_eq_self_iff]
    intro hl
    have h2 := hlast _ (List.getLast?_eq_getLast _ hl)
    rw [not_IsPathSeparator _ h2]
    exact Bool.false_ne_true
  have htake : (g ++ '/' :: f).rtakeWhile (fun c => !IsPathSeparator c) = f := by
    have hrev : (g ++ '/' :: f).reverse = f.reverse ++ ('/' :: g.reverse) := by simp
    have hall : ∀ a ∈ f.reverse, (fun c => !IsPathSeparator c) a = true := by
      intro a ha
      simp [IsPathSeparator, hf a (List.mem_reverse.mp ha)]
    have hs : IsPathSeparator '/' = true := by decide
    rw [List.rtakeWhile, hrev, List.takeWhile_append_of_pos hall]
    simp [List.takeWhile_cons, hs]
  unfold Base
  rw [if_neg hne]
  simp only [hstrip, htake, if_neg f0]

theorem group_prefix_of_name (f m g : Str) (h : ParseGroup f m = some (g, true)) :
    g ≠ [] ∧ (∀ z, g.getLast? = some z → isSep z = false) ∧
      ∃ r, f = g ++ r ∧ 2 ≤ r.length := by
  obtain ⟨k, _, h2, hg⟩ := ParseGroup_shape_two f m g h
  have hne : g ≠ [] := by
    rcases ParseGroup_shape f m with h0 | ⟨k2, _, _, h3, h4⟩
    · rw [h0] at h; cases h
    · rw [h4] at h
      cases h
      exact h3
  refine ⟨hne, fun z hz => stripSeps_last _ z (hg ▸ hz), ?_⟩
  obtain ⟨t, ht⟩ := stripSeps_prefix ((stemOf f).take k)
  obtain ⟨u, hu⟩ := stemOf_prefix f
  refine ⟨(t ++ (stemOf f).drop k) ++ u, ?_, ?_⟩
  · rw [← List.append_assoc, ← List.append_assoc, hg, ← ht, List.take_append_drop]
    exact hu
  · rw [List.length_append, List.length_append, List.length_drop]
    omega

/-- C13. Grouping is idempotent: for a base filename `f` (no path separator) classified to
the group `g`, the planned destination is `g/f`, its base name is `f` again and it is
classified to `g`. -/
theorem grouping_idempotent (f m g : Str) (hf : ∀ x ∈ f, x ≠ '/')
    (h : ParseGroup f m = some (g, true)) :
    Join [g, f] = g ++ '/' :: f ∧ Base (Join [g, f]) = f ∧
      ParseGroup (Base (Join [g, f])) m = some (g, true) := by
  obtain ⟨g0, glast, r, hr, hlen⟩ := group_prefix_of_name f m g h
  have hg : ∀ x ∈ g, x ≠ '/' := by
    intro x hx
    apply hf
    rw [hr]
    exact List.mem_append_left _ hx
  have hdot : isSep '.' = true := by decide
  have g1 : g ≠ ['.'] := by
    intro e
    have := glast '.' (by rw [e]; rfl)
    rw [hdot] at this
    cases this
  have g2 : g ≠ ['.', '.'] := by
    intro e
    have := glast '.' (by rw [e]; rfl)
    rw [hdot] at this
    cases this
  have hfl : 3 ≤ f.length := by
    have := congrArg List.length hr
    rw [List.length_append] at this
    have : 0 < g.length := List.length_pos.mpr g0
    omega
  have f0 : f ≠ [] := by
    intro e; rw [e] at hfl; simp at hfl
  have f1 : f ≠ ['.'] := by
    intro e; rw [e] at hfl; simp at hfl
  have f2 : f ≠ ['.', '.'] := by
    intro e; rw [e] at hfl; simp at hfl
  have hj := Join_two g f hg hf g0 g1 g2 f0 f1 f2
  have hb : Base (Join [g, f]) = f := by
    rw [hj]
    exact Base_two g f hf f0
  exact ⟨hj, hb, by rw [hb]; exact h⟩

/-- Instance of C13 on `kyoto-trip p04.jpg` with marker `p`. -/
theorem grouping_idempotent_witness :
    Join ["kyoto-trip".toList, "kyoto-trip p04.jpg".toList] =
        "kyoto-trip/kyoto-trip p04.jpg".toList ∧
      ParseGroup (Base (Join ["kyoto-trip".toList, "kyoto-trip p04.jpg".toList])) "p".toList =
        some ("kyoto-trip".toList, true) :=
  ⟨(grouping_idempotent "kyoto-trip p04.jpg".toList "p".toList "kyoto-trip".toList
      (by decide) (by decide)).1,
    (grouping_idempotent "kyoto-trip p04.jpg".toList "p".toList "kyoto-trip".toList
      (by decide) (by decide)).2.2⟩

/-! ## The planner loop -/

theorem plan_file_cases (pfx file : Str) :
    (ParseGroup (Base file) pfx = some ([], false) ∧ plannedMove pfx file = none ∧
        noMatch pfx file = true) ∨
      ∃ g, ParseGroup (Base file) pfx = some (g, true) ∧
        plannedMove pfx file = some ⟨file, Join [g, Base file]⟩ ∧ noMatch pfx file = false := by
  rcases ParseGroup_shape (Base file) pfx with h | ⟨k, _, _, _, h⟩
  · exact Or.inl ⟨h, by simp [plannedMove, h], by simp [noMatch, h]⟩
  · exact Or.inr ⟨_, h, by simp [plannedMove, h], by simp [noMatch, h]⟩

theorem planLoop_eq (usable : Str → Bool) (pfx : Str) :
    ∀ (files : List Str) (acc : List Move × Nat), (∀ f ∈ files, usable f = true) →
      planLoop usable pfx files acc =
        some (acc.1 ++ files.filterMap (plannedMove pfx), acc.2 + files.countP (noMatch pfx)) := by
  intro files
  induction files with
  | nil => intro acc _; simp [planLoop]
  | cons file rest ih =>
    intro acc h
    have hu : usable file = true := h file (List.mem_cons_self _ _)
    have hrest : ∀ f ∈ rest, usable f = true := fun f hf => h f (List.mem_cons_of_mem _ hf)
    rcases plan_file_cases pfx file with ⟨hp, hm, hn⟩ | ⟨g, hp, hm, hn⟩
    · simp only [planLoop, hu, Bool.true_eq_false, if_false, hp, if_true, ih _ hrest,
        List.filterMap_cons, hm, List.countP_cons, hn]
      simp [Nat.add_assoc, Nat.add_comm 1]
    · simp only [planLoop, hu, Bool.true_eq_false, if_false, hp, ih _ hrest,
        List.filterMap_cons, hm, List.countP_cons, hn]
      simp

theorem plan_count (pfx : Str) (files : List Str) :
    (files.filterMap (plannedMove pfx)).length + files.countP (noMatch pfx) = files.length := by
  induction files with
  | nil => rfl
  | cons file rest ih =>
    rcases plan_file_cases pfx file with ⟨_, hm, hn⟩ | ⟨g, _, hm, hn⟩
    · simp only [List.filterMap_cons, hm, List.countP_cons, hn, if_true, List.length_cons]
      omega
    · simp only [List.filterMap_cons, hm, List.countP_cons, hn, List.length_cons]
      simp only [Bool.false_eq_true, if_false]
      omega

/-- C18. When every input path passes the file test, the planner loop classifies the base
name of each path and returns, in input order, one move from the path to the group joined
with the base name for each classified path, and the number of unclassified paths as
`skipped`; moves and skipped paths add up to the number of inputs.  Without a marker
`album-001.wav`, `album-002.wav`, `sp02.jpg` are planned to `album/album-001.wav`,
`album/album-002.wav`, `sp/sp02.jpg`. -/
theorem planner_moves (usable : Str → Bool) (pfx : Str) (files : List Str)
    (h : ∀ f ∈ files, usable f = true) :
    planMoves usable pfx files =
      some (files.filterMap (plannedMove pfx), files.countP (noMatch pfx)) ∧
    (∀ file g, ParseGroup (Base file) pfx = some (g, true) →
      plannedMove pfx file = some ⟨file, Join [g, Base file]⟩ ∧ noMatch pfx file = false) ∧
    (∀ file g, ParseGroup (Base file) pfx = some (g, false) →
      plannedMove pfx file = none ∧ noMatch pfx file = true) ∧
    (files.filterMap (plannedMove pfx)).length + files.countP (noMatch pfx) = files.length ∧
    planMoves (fun _ => true) []
        ["album-001.wav".toList, "album-002.wav".toList, "sp02.jpg".toList] =
      some ([⟨"album-001.wav".toList, "album/album-001.wav".toList⟩,
        ⟨"album-002.wav".toList, "album/album-002.wav".toList⟩,
        ⟨"sp02.jpg".toList, "sp/sp02.jpg".toList⟩], 0) := by
  refine ⟨?_, ?_, ?_, plan_count pfx files, by decide⟩
  · have := planLoop_eq usable pfx files ([], 0) h
    simpa [planMoves] using this
  · intro file g hg
    simp [plannedMove, noMatch, hg]
  · intro file g hg
    simp [plannedMove, noMatch, hg]

/-- Instance of C18 with marker `p` on a path in a directory and an unclassified name. -/
theorem planner_moves_witness :
    planMoves (fun _ => true) "p".toList ["in/kyoto-trip p04.jpg".toList, "notes.txt".toList] =
      some ([⟨"in/kyoto-trip p04.jpg".toList, "kyoto-trip/kyoto-trip p04.jpg".toList⟩], 1) :=
  (planner_moves (fun _ => true) "p".toList
    ["in/kyoto-trip p04.jpg".toList, "notes.txt".toList] (fun _ _ => rfl)).1.trans (by decide)

/-! ## The move executor -/

theorem executeLoop_dry {FS Info : Type} (os : OS FS Info) (destRoot : Str) :
    ∀ (moves : List Move) (result : Result) (w : World FS),
      executeLoop os true destRoot moves (result, w) =
        (result, ⟨w.fs, w.stdout ++ moves.map (dryRunLine destRoot), w.attempted⟩) := by
  intro moves
  induction moves with
  | nil => intro result w; simp [executeLoop]
  | cons move rest ih =>
    intro result w
    simp only [executeLoop, if_true, ih, List.map_cons, dryRunLine, List.append_assoc,
      List.singleton_append]

/-- C15. A dry run returns `Planned` equal to the number of moves and zero for `Moved`,
`Skipped` and `Failed`; whatever the operating system would answer, `executeMove` is not
called and the file system is left as it was.  The run prints one line for each move. -/
theorem dry_run_no_effect {FS Info : Type} (os : OS FS Info) (w : World FS)
    (moves : List Move) (destRoot : Str) :
    (ExecuteMoves os w moves true destRoot).1 = ⟨0, 0, 0, moves.length⟩ ∧
    (ExecuteMoves os w moves true destRoot).2.fs = w.fs ∧
    (ExecuteMoves os w moves true destRoot).2.attempted = w.attempted ∧
    (ExecuteMoves os w moves true destRoot).2.stdout =
      w.stdout ++ moves.map (dryRunLine destRoot) := by
  unfold ExecuteMoves
  rw [executeLoop_dry]
  exact ⟨rfl, rfl, rfl, rfl⟩

theorem executeMove_attempted {FS Info : Type} (os : OS FS Info) (w : World FS) (move : Move)
    (destRoot : Str) :
    (executeMove os w move destRoot).2.attempted = w.attempted ++ [move] := by
  unfold executeMove
  simp only
  split_ifs
  · rfl
  · split
    · rfl
    · split <;> rfl

/-- An attempt is skipped exactly when both paths stat and denote the same file. -/
theorem attemptOutcome_skipped_iff {FS Info : Type} (os : OS FS Info) (fs : FS) (move : Move)
    (destRoot : Str) :
    (attemptOutcome os fs move destRoot).1 = Outcome.skipped ↔
      ∃ a b, os.Stat fs move.Source = some a ∧
        os.Stat fs (Join [destRoot, move.Dest]) = some b ∧ os.SameFile a b = true := by
  have hsame : sameEntry os fs move.Source (Join [destRoot, move.Dest]) = true ↔
      ∃ a b, os.Stat fs move.Source = some a ∧
        os.Stat fs (Join [destRoot, move.Dest]) = some b ∧ os.SameFile a b = true := by
    unfold sameEntry
    cases os.Stat fs move.Source with
    | none => simp
    | some a =>
      cases os.Stat fs (Join [destRoot, move.Dest]) with
      | none => simp
      | some b => simp
  rw [← hsame]
  unfold attemptOutcome
  by_cases hs : sameEntry os fs move.Source (Join [destRoot, move.Dest]) = true
  · simp [hs]
  · rw [if_neg hs]
    rcases hm : os.MkdirAll fs (Dir (Join [destRoot, move.Dest])) with ⟨fs1, merr⟩
    cases merr with
    | some e => simp [hs]
    | none =>
      rcases hr : os.Rename fs1 move.Source (Join [destRoot, move.Dest]) with ⟨fs2, rerr⟩
      cases rerr with
      | some e => simp [hs, hr]
      | none => simp [hs, hr]

/-- A skipped attempt leaves the file system as it was. -/
theorem attemptOutcome_skipped_fs {FS Info : Type} (os : OS FS Info) (fs : FS) (move : Move)
    (destRoot : Str) (h : (attemptOutcome os fs move destRoot).1 = Outcome.skipped) :
    (attemptOutcome os fs move destRoot).2 = fs := by
  unfold attemptOutcome at h ⊢
  by_cases hs : sameEntry os fs move.Source (Join [destRoot, move.Dest]) = true
  · rw [if_pos hs]
  · rw [if_neg hs] at h
    rcases hm : os.MkdirAll fs (Dir (Join [destRoot, move.Dest])) with ⟨fs1, merr⟩
    rw [hm] at h
    cases merr with
    | some e => simp at h
    | none =>
      rcases hr : os.Rename fs1 move.Source (Join [destRoot, move.Dest]) with ⟨fs2, rerr⟩
      simp only [hr] at h
      cases rerr with
      | some e => simp at h
      | none => simp at h

/-- The test of `executeMove` on `isSameFile` is the test that both paths stat and denote the
same file. -/
theorem isSameFile_sameEntry {FS Info : Type} (os : OS FS Info) (fs : FS) (src dest : Str) :
    isSameFile os fs src dest = some true ↔ sameEntry os fs src dest = true := by
  unfold isSameFile sameEntry
  cases os.Stat fs src with
  | none => simp
  | some a =>
    cases os.Stat fs dest with
    | none => simp
    | some b => simp

/-- One call of `executeMove` against the outcome of the attempt: the status string and the
error value name the outcome, and the file system afterwards is the one of the attempt. -/
theorem executeMove_outcome {FS Info : Type} (os : OS FS Info) (w : World FS) (move : Move)
    (destRoot : Str) :
    (executeMove os w move destRoot).2.fs = (attemptOutcome os w.fs move destRoot).2 ∧
    (((attemptOutcome os w.fs move destRoot).1 = Outcome.skipped ∧
        (executeMove os w move destRoot).1 = ("skipped".toList, none)) ∨
      ((attemptOutcome os w.fs move destRoot).1 = Outcome.moved ∧
        (executeMove os w move destRoot).1 = ("moved".toList, none)) ∨
      ((attemptOutcome os w.fs move destRoot).1 = Outcome.failed ∧
        ∃ e, (executeMove os w move destRoot).1 = ([], some e))) := by
  unfold executeMove attemptOutcome
  simp only
  by_cases hs : sameEntry os w.fs move.Source (Join [destRoot, move.Dest]) = true
  · have hi := (isSameFile_sameEntry os w.fs move.Source (Join [destRoot, move.Dest])).mpr hs
    rw [if_pos hs, if_pos hi]
    exact ⟨rfl, Or.inl ⟨rfl, rfl⟩⟩
  · have hi : ¬ isSameFile os w.fs move.Source (Join [destRoot, move.Dest]) = some true :=
      fun h => hs ((isSameFile_sameEntry os w.fs move.Source _).mp h)
    rw [if_neg hs, if_neg hi]
    rcases hm : os.MkdirAll w.fs (Dir (Join [destRoot, move.Dest])) with ⟨fs1, merr⟩
    cases merr with
    | some e => exact ⟨rfl, Or.inr (Or.inr ⟨rfl, _, rfl⟩)⟩
    | none =>
      rcases hr : os.Rename fs1 move.Source (Join [destRoot, move.Dest]) with ⟨fs2, rerr⟩
      cases rerr with
      | some e =>
        simp only [hr]
        exact ⟨trivial, Or.inr (Or.inr ⟨trivial, _, rfl⟩)⟩
      | none =>
        simp only [hr]
        exact ⟨trivial, Or.inr (Or.inl ⟨trivial, trivial⟩)⟩

/-- The loop of a live run against the outcomes of the attempts: every move is handed to
`executeMove` in list order, each counter grows by the number of attempts with its outcome,
and the file system at the end is the one the attempts leave. -/
theorem executeLoop_live {FS Info : Type} (os : OS FS Info) (destRoot : Str) :
    ∀ (moves : List Move) (result : Result) (w : World FS),
      (executeLoop os false destRoot moves (result, w)).2.attempted = w.attempted ++ moves ∧
      (executeLoop os false destRoot moves (result, w)).1.Planned = result.Planned ∧
      (executeLoop os false destRoot moves (result, w)).1.Moved =
        result.Moved + (runOutcomes os destRoot moves w.fs).1.count Outcome.moved ∧
      (executeLoop os false destRoot moves (result, w)).1.Skipped =
        result.Skipped + (runOutcomes os destRoot moves w.fs).1.count Outcome.skipped ∧
      (executeLoop os false destRoot moves (result, w)).1.Failed =
        result.Failed + (runOutcomes os destRoot moves w.fs).1.count Outcome.failed ∧
      (executeLoop os false destRoot moves (result, w)).2.fs =
        (runOutcomes os destRoot moves w.fs).2 := by
  intro moves
  induction moves with
  | nil => intro result w; simp [executeLoop, runOutcomes]
  | cons move rest ih =>
    intro result w
    have ha := executeMove_attempted os w move destRoot
    obtain ⟨hfs, hcase⟩ := executeMove_outcome os w move destRoot
    rcases hx : executeMove os w move destRoot with ⟨⟨status, err⟩, w1⟩
    rw [hx] at ha hfs hcase
    simp only at ha hfs hcase
    simp only [runOutcomes, ← hfs]
    rcases hcase with ⟨ho, hst⟩ | ⟨ho, hst⟩ | ⟨ho, e, hst⟩
    · obtain ⟨rfl, rfl⟩ := Prod.mk.inj hst
      simp only [executeLoop, Bool.false_eq_true, if_false, hx, if_true, ho]
      obtain ⟨h1, h2, h3, h4, h5, h6⟩ := ih ⟨result.Moved, result.Skipped + 1, result.Failed,
        result.Planned⟩ w1
      simp only at h2 h3 h4 h5
      refine ⟨?_, h2, ?_, ?_, ?_, h6⟩
      · rw [h1, ha, List.append_assoc, List.singleton_append]
      · rw [h3, List.count_cons_of_ne (by decide)]
      · rw [h4, List.count_cons_self]
        omega
      · rw [h5, List.count_cons_of_ne (by decide)]
    · obtain ⟨rfl, rfl⟩ := Prod.mk.inj hst
      have hne : ¬ "moved".toList = "skipped".toList := by decide
      simp only [executeLoop, Bool.false_eq_true, if_false, hx, hne, ho]
      obtain ⟨h1, h2, h3, h4, h5, h6⟩ := ih ⟨result.Moved + 1, result.Skipped, result.Failed,
        result.Planned⟩ w1
      simp only at h2 h3 h4 h5
      refine ⟨?_, h2, ?_, ?_, ?_, h6⟩
      · rw [h1, ha, List.append_assoc, List.singleton_append]
      · rw [h3, List.count_cons_self]
        omega
      · rw [h4, List.count_cons_of_ne (by decide)]
      · rw [h5, List.count_cons_of_ne (by decide)]
    · obtain ⟨rfl, rfl⟩ := Prod.mk.inj hst
      simp only [executeLoop, Bool.false_eq_true, if_false, hx, ho]
      obtain ⟨h1, h2, h3, h4, h5, h6⟩ := ih ⟨result.Moved, result.Skipped, result.Failed + 1,
        result.Planned⟩ ⟨w1.fs, w1.stdout ++
          ["ERROR: Failed to move ".toList ++ move.Source ++ ": ".toList ++ e ++
            "\n".toList], w1.attempted⟩
      simp only at h2 h3 h4 h5
      refine ⟨?_, h2, ?_, ?_, ?_, h6⟩
      · rw [h1]
        simp only [ha, List.append_assoc, List.singleton_append]
      · rw [h3, List.count_cons_of_ne (by decide)]
      · rw [h4, List.count_cons_of_ne (by decide)]
      · rw [h5, List.count_cons_self]
        omega

/-- Every attempt has one outcome: the three counts of outcomes add up to the number of
moves. -/
theorem runOutcomes_length {FS Info : Type} (os : OS FS Info) (destRoot : Str) :
    ∀ (moves : List Move) (fs : FS),
      (runOutcomes os destRoot moves fs).1.length = moves.length ∧
      (runOutcomes os destRoot moves fs).1.count Outcome.moved +
          (runOutcomes os destRoot moves fs).1.count Outcome.skipped +
          (runOutcomes os destRoot moves fs).1.count Outcome.failed = moves.length := by
  intro moves
  induction moves with
  | nil => intro fs; simp [runOutcomes]
  | cons move rest ih =>
    intro fs
    obtain ⟨h1, h2⟩ := ih (attemptOutcome os fs move destRoot).2
    simp only [runOutcomes, List.length_cons, h1, true_and]
    cases ho : (attemptOutcome os fs move destRoot).1 with
    | moved =>
      rw [List.count_cons_self, List.count_cons_of_ne (by decide),
        List.count_cons_of_ne (by decide)]
      omega
    | skipped =>
      rw [List.count_cons_self, List.count_cons_of_ne (by decide),
        List.count_cons_of_ne (by decide)]
      omega
    | failed =>
      rw [List.count_cons_self, List.count_cons_of_ne (by decide),
        List.count_cons_of_ne (by decide)]
      omega

/-- C16. A live run hands every move to `executeMove` once, in list order, whatever the
earlier outcomes.  Every attempt has exactly one outcome, named from the answers of the
operating system: skipped when `os.Stat` answers for the source and the resolved
destination and `os.SameFile` holds of the answers, and then the file system is left as it
was; failed when `os.MkdirAll` or `os.Rename` reports an error; moved when both succeed.
`Moved`, `Skipped` and `Failed` are the numbers of attempts with these outcomes, `Planned`
is the number of moves and equals their sum, the file system after the run is the one the
attempts leave, and each call of `executeMove` reports the outcome of its attempt in its
status string and error value. -/
theorem live_run_counts {FS Info : Type} (os : OS FS Info) (w : World FS)
    (moves : List Move) (destRoot : Str) :
    (ExecuteMoves os w moves false destRoot).2.attempted = w.attempted ++ moves ∧
    (runOutcomes os destRoot moves w.fs).1.length = moves.length ∧
    (ExecuteMoves os w moves false destRoot).1.Moved =
      (runOutcomes os destRoot moves w.fs).1.count Outcome.moved ∧
    (ExecuteMoves os w moves false destRoot).1.Skipped =
      (runOutcomes os destRoot moves w.fs).1.count Outcome.skipped ∧
    (ExecuteMoves os w moves false destRoot).1.Failed =
      (runOutcomes os destRoot moves w.fs).1.count Outcome.failed ∧
    (ExecuteMoves os w moves false destRoot).1.Planned = moves.length ∧
    moves.length = (ExecuteMoves os w moves false destRoot).1.Moved +
        (ExecuteMoves os w moves false destRoot).1.Skipped +
        (ExecuteMoves os w moves false destRoot).1.Failed ∧
    (ExecuteMoves os w moves false destRoot).2.fs = (runOutcomes os destRoot moves w.fs).2 ∧
    (∀ (fs : FS) (move : Move),
      ((attemptOutcome os fs move destRoot).1 = Outcome.skipped ↔
        ∃ a b, os.Stat fs move.Source = some a ∧
          os.Stat fs (Join [destRoot, move.Dest]) = some b ∧ os.SameFile a b = true) ∧
      ((attemptOutcome os fs move destRoot).1 = Outcome.skipped →
        (attemptOutcome os fs move destRoot).2 = fs)) ∧
    (∀ (w1 : World FS) (move : Move),
      (executeMove os w1 move destRoot).2.fs = (attemptOutcome os w1.fs move destRoot).2 ∧
      (((attemptOutcome os w1.fs move destRoot).1 = Outcome.skipped ∧
          (executeMove os w1 move destRoot).1 = ("skipped".toList, none)) ∨
        ((attemptOutcome os w1.fs move destRoot).1 = Outcome.moved ∧
          (executeMove os w1 move destRoot).1 = ("moved".toList, none)) ∨
        ((attemptOutcome os w1.fs move destRoot).1 = Outcome.failed ∧
          ∃ e, (executeMove os w1 move destRoot).1 = ([], some e)))) := by
  obtain ⟨h1, h2, h3, h4, h5, h6⟩ :=
    executeLoop_live os destRoot moves ⟨0, 0, 0, moves.length⟩ w
  obtain ⟨hl, hsum⟩ := runOutcomes_length os destRoot moves w.fs
  unfold ExecuteMoves
  simp only [Nat.zero_add] at h3 h4 h5
  refine ⟨h1, hl, h3, h4, h5, h2, ?_, h6, ?_,
    fun w1 move => executeMove_outcome os w1 move destRoot⟩
  · rw [h3, h4, h5, hsum]
  · intro fs move
    exact ⟨attemptOutcome_skipped_iff os fs move destRoot,
      attemptOutcome_skipped_fs os fs move destRoot⟩

/-- Instance of C15 on the three moves of the dry-run test: nothing is moved, three moves are
planned and the two files stay where they are. -/
theorem dry_run_no_effect_witness :
    (ExecuteMoves exampleOS ⟨["album-001.wav".toList, "album-002.wav".toList], [], []⟩
        [⟨"album-001.wav".toList, "album/album-001.wav".toList⟩,
          ⟨"album-002.wav".toList, "album/album-002.wav".toList⟩,
          ⟨"kyoto-trip p04.jpg".toList, "kyoto-trip/kyoto-trip p04.jpg".toList⟩]
        true ".".toList).1 = ⟨0, 0, 0, 3⟩ ∧
      (ExecuteMoves exampleOS ⟨["album-001.wav".toList, "album-002.wav".toList], [], []⟩
        [⟨"album-001.wav".toList, "album/album-001.wav".toList⟩,
          ⟨"album-002.wav".toList, "album/album-002.wav".toList⟩,
          ⟨"kyoto-trip p04.jpg".toList, "kyoto-trip/kyoto-trip p04.jpg".toList⟩]
        true ".".toList).2.fs = ["album-001.wav".toList, "album-002.wav".toList] :=
  ⟨(dry_run_no_effect exampleOS ⟨["album-001.wav".toList, "album-002.wav".toList], [], []⟩
      [⟨"album-001.wav".toList, "album/album-001.wav".toList⟩,
        ⟨"album-002.wav".toList, "album/album-002.wav".toList⟩,
        ⟨"kyoto-trip p04.jpg".toList, "kyoto-trip/kyoto-trip p04.jpg".toList⟩] ".".toList).1,
    (dry_run_no_effect exampleOS ⟨["album-001.wav".toList, "album-002.wav".toList], [], []⟩
      [⟨"album-001.wav".toList, "album/album-001.wav".toList⟩,
        ⟨"album-002.wav".toList, "album/album-002.wav".toList⟩,
        ⟨"kyoto-trip p04.jpg".toList, "kyoto-trip/kyoto-trip p04.jpg".toList⟩]
      ".".toList).2.1⟩

/-- Instance of C16: a move of a missing file fails, the next move of a file onto itself is
skipped and the last two are performed; all four are attempted in order. -/
theorem live_run_counts_witness :
    (ExecuteMoves exampleOS
        ⟨["test.txt".toList, "album-001.wav".toList, "album-002.wav".toList], [], []⟩
        [⟨"missing.wav".toList, "x/missing.wav".toList⟩,
          ⟨"test.txt".toList, "test.txt".toList⟩,
          ⟨"album-001.wav".toList, "album/album-001.wav".toList⟩,
          ⟨"album-002.wav".toList, "album/album-002.wav".toList⟩]
        false ".".toList).1 = ⟨2, 1, 1, 4⟩ ∧
      (runOutcomes exampleOS ".".toList
        [⟨"missing.wav".toList, "x/missing.wav".toList⟩,
          ⟨"test.txt".toList, "test.txt".toList⟩,
          ⟨"album-001.wav".toList, "album/album-001.wav".toList⟩,
          ⟨"album-002.wav".toList, "album/album-002.wav".toList⟩]
        ["test.txt".toList, "album-001.wav".toList, "album-002.wav".toList]) =
        ([Outcome.failed, Outcome.skipped, Outcome.moved, Outcome.moved],
          ["test.txt".toList, "album/album-001.wav".toList,
            "album/album-002.wav".toList]) ∧
      (ExecuteMoves exampleOS
        ⟨["test.txt".toList, "album-001.wav".toList, "album-002.wav".toList], [], []⟩
        [⟨"missing.wav".toList, "x/missing.wav".toList⟩,
          ⟨"test.txt".toList, "test.txt".toList⟩,
          ⟨"album-001.wav".toList, "album/album-001.wav".toList⟩,
          ⟨"album-002.wav".toList, "album/album-002.wav".toList⟩]
        false ".".toList).2.attempted =
        [⟨"missing.wav".toList, "x/missing.wav".toList⟩,
          ⟨"test.txt".toList, "test.txt".toList⟩,
          ⟨"album-001.wav".toList, "album/album-001.wav".toList⟩,
          ⟨"album-002.wav".toList, "album/album-002.wav".toList⟩] :=
  ⟨by decide, by decide,
    (live_run_counts exampleOS
      ⟨["test.txt".toList, "album-001.wav".toList, "album-002.wav".toList], [], []⟩
      [⟨"missing.wav".toList, "x/missing.wav".toList⟩,
        ⟨"test.txt".toList, "test.txt".toList⟩,
        ⟨"album-001.wav".toList, "album/album-001.wav".toList⟩,
        ⟨"album-002.wav".toList, "album/album-002.wav".toList⟩] ".".toList).1⟩

/-! ## The classifier on every marker -/

theorem char_valid (c : Char) :
    c.toNat < 55296 ∨ (57343 < c.toNat ∧ c.toNat < 1114112) := by
  have h := c.valid
  simp only [UInt32.isValidChar, Nat.isValidChar] at h
  exact h

theorem decodeRune_encodeRune (c : Char) (rest : List Nat) :
    decodeRune (encodeRune c ++ rest) = some (c, rest) := by
  have hv := char_valid c
  have hc : Char.ofNat c.toNat = c := Char.ofNat_toNat c
  unfold encodeRune
  simp only
  by_cases h1 : c.toNat < 128
  · simp only [h1, if_true, List.singleton_append, decodeRune, hc]
  · by_cases h2 : c.toNat < 2048
    · have a1 : ¬ (192 + c.toNat / 64 < 128) := by omega
      have a2 : 194 ≤ 192 + c.toNat / 64 ∧ 192 + c.toNat / 64 ≤ 223 := by omega
      have a3 : isCont (128 + c.toNat % 64) = true := by
        simp only [isCont, Bool.and_eq_true, decide_eq_true_eq]; omega
      have a4 : (192 + c.toNat / 64 - 192) * 64 + (128 + c.toNat % 64 - 128) = c.toNat := by
        omega
      simp only [h1, h2, if_false, if_true, List.cons_append, List.nil_append, decodeRune, a1,
        a2, and_self, a3, a4, hc]
    · by_cases h3 : c.toNat < 65536
      · have a1 : ¬ (224 + c.toNat / 4096 < 128) := by omega
        have a2 : ¬ (194 ≤ 224 + c.toNat / 4096 ∧ 224 + c.toNat / 4096 ≤ 223) := by omega
        have a3 : 224 ≤ 224 + c.toNat / 4096 ∧ 224 + c.toNat / 4096 ≤ 239 := by omega
        have a4 : secondByteOk (224 + c.toNat / 4096) (128 + c.toNat / 64 % 64) = true := by
          simp only [secondByteOk, isCont]
          split_ifs <;> simp only [Bool.and_eq_true, decide_eq_true_eq] <;> omega
        have a5 : isCont (128 + c.toNat % 64) = true := by
          simp only [isCont, Bool.and_eq_true, decide_eq_true_eq]; omega
        have a6 : (224 + c.toNat / 4096 - 224) * 4096 + (128 + c.toNat / 64 % 64 - 128) * 64 +
            (128 + c.toNat % 64 - 128) = c.toNat := by omega
        simp only [h1, h2, h3, if_false, if_true, List.cons_append, List.nil_append,
          decodeRune, a1, a2, a3, and_self, a4, a5, a6, hc, Bool.and_self]
      · have a1 : ¬ (240 + c.toNat / 262144 < 128) := by omega
        have a2 : ¬ (194 ≤ 240 + c.toNat / 262144 ∧ 240 + c.toNat / 262144 ≤ 223) := by omega
        have a3 : ¬ (224 ≤ 240 + c.toNat / 262144 ∧ 240 + c.toNat / 262144 ≤ 239) := by omega
        have a4 : 240 ≤ 240 + c.toNat / 262144 ∧ 240 + c.toNat / 262144 ≤ 244 := by omega
        have a5 : secondByteOk (240 + c.toNat / 262144) (128 + c.toNat / 4096 % 64) = true := by
          simp only [secondByteOk, isCont]
          split_ifs <;> simp only [Bool.and_eq_true, decide_eq_true_eq] <;> omega
        have a6 : isCont (128 + c.toNat / 64 % 64) = true := by
          simp only [isCont, Bool.and_eq_true, decide_eq_true_eq]; omega
        have a7 : isCont (128 + c.toNat % 64) = true := by
          simp only [isCont, Bool.and_eq_true, decide_eq_true_eq]; omega
        have a8 : (240 + c.toNat / 262144 - 240) * 262144 +
            (128 + c.toNat / 4096 % 64 - 128) * 4096 + (128 + c.toNat / 64 % 64 - 128) * 64 +
            (128 + c.toNat % 64 - 128) = c.toNat := by omega
        simp only [h1, h2, h3, if_false, List.cons_append, List.nil_append,
          decodeRune, a1, a2, a3, a4, and_self, a5, a6, a7, a8, hc, Bool.and_self, if_true]

theorem encodeRune_ne_nil (c : Char) : ∃ b bs, encodeRune c = b :: bs := by
  unfold encodeRune
  simp only
  split_ifs <;> exact ⟨_, _, rfl⟩

/-- Decoding the bytes of a string of runes gives the runes back. -/
theorem decodeString_bytes (s : Str) :
    ∀ fuel, s.length ≤ fuel → decodeString fuel (bytes s) = some s := by
  induction s with
  | nil => intro fuel _; cases fuel <;> rfl
  | cons c cs ih =>
    intro fuel hf
    cases fuel with
    | zero => simp at hf
    | succ fuel =>
      have hb : bytes (c :: cs) = encodeRune c ++ bytes cs := by simp [bytes]
      obtain ⟨b, bs, hbs⟩ := encodeRune_ne_nil c
      have hd := decodeRune_encodeRune c (bytes cs)
      rw [hb]
      rw [hbs, List.cons_append] at hd ⊢
      rw [decodeString, hd]
      simp only [ih fuel (by simpa using hf)]

theorem length_le_bytes (s : Str) : s.length ≤ (bytes s).length := by
  induction s with
  | nil => simp
  | cons c cs ih =>
    have hb : bytes (c :: cs) = encodeRune c ++ bytes cs := by simp [bytes]
    obtain ⟨b, bs, hbs⟩ := encodeRune_ne_nil c
    rw [hb, hbs]
    simp only [List.length_cons, List.cons_append, List.length_append]
    omega

theorem bytes_eq_nil (s : Str) (h : bytes s = []) : s = [] := by
  have := length_le_bytes s
  rw [h] at this
  exact List.length_eq_zero.mp (Nat.le_zero.mp this)

/-- On the bytes of a string of runes the classifier is `ParseGroup` on the runes. -/
theorem ParseGroupBytes_bytes (f m : Str) : ParseGroupBytes f (bytes m) = ParseGroup f m := by
  unfold ParseGroupBytes
  by_cases h : bytes m = []
  · rw [if_pos h, bytes_eq_nil m h]
  · rw [if_neg h, decodeString_bytes m _ (length_le_bytes m)]

/-- On a marker that is UTF-8 the classifier never raises: `ParseGroup` returns a pair, the
pattern built from the quoted marker compiles, and in a match the first capture group is
non-empty, so that the index of its last byte is in bounds. -/
theorem classifier_total_on_utf8 :
    (∀ f m : Str, ∃ g ok, ParseGroup f m = some (g, ok)) ∧
    (∀ f m : Str, ParseGroupBytes f (bytes m) = ParseGroup f m) ∧
    (∀ m : Str, ∃ P, compilePrefixPattern (QuoteMeta m) = some P) ∧
    (∀ (s m w groupPart separator x : Str),
      (compilePrefixPattern (QuoteMeta m)).map (fun P => FindStringSubmatch P s) =
          some [w, groupPart, separator, x] →
        groupPart ≠ [] ∧ (bytes groupPart).length ≠ 0 ∧
          ∃ b, (bytes groupPart).get? ((bytes groupPart).length - 1) = some b) := by
  refine ⟨?_, ParseGroupBytes_bytes, ?_, ?_⟩
  · intro f m
    exact ⟨_, _, ParseGroup_eq f m⟩
  · intro m
    exact ⟨_, compilePrefixPattern_QuoteMeta m⟩
  · intro s m w groupPart separator x hmatch
    rw [compilePrefixPattern_QuoteMeta, Option.map_some'] at hmatch
    have hfs : FindStringSubmatch (anchored (pfxTailRe (litRe m))) s =
        [w, groupPart, separator, x] := Option.some.inj hmatch
    obtain ⟨hnone, hsome⟩ := FindStringSubmatch_prefixPattern m s
    cases hf : firstHead (fun r => (pfxSep m r).isSome) s with
    | none =>
      rw [hnone hf] at hfs
      cases hfs
    | some k =>
      obtain ⟨sp, w2, x2, _, hfs2⟩ := hsome k hf
      obtain ⟨h1, h2, _, _⟩ := firstHead_some _ _ _ hf
      have hk : k ≤ s.length := Nat.le_trans h2 (takeWhile_length_le _ _)
      rw [hfs] at hfs2
      have hg : groupPart = s.take k := by
        have := congrArg (fun l => l.get? 1) hfs2
        simpa using this
      have hne : groupPart ≠ [] := by
        intro h
        have := congrArg List.length (hg.symm.trans h)
        rw [List.length_take, List.length_nil] at this
        omega
      obtain ⟨l, c, hlc⟩ : ∃ l c, groupPart = l ++ [c] := by
        rcases List.eq_nil_or_concat groupPart with h | ⟨l, c, h⟩
        · exact absurd h hne
        · exact ⟨l, c, by simpa using h⟩
      obtain ⟨hb1, hb2⟩ := bytes_last l c
      rw [← hlc] at hb1 hb2
      exact ⟨hne, hb1, _, hb2⟩

/-- C14 on the failing input.  The marker made of the single byte `0xFF` is not UTF-8: the
pattern built from it does not compile and the classifier panics on `x01.txt`, which with
the marker `p` or without a marker is classified to `x`. -/
theorem marker_not_utf8_panics :
    decodeString 1 [255] = none ∧
      ParseGroupBytes "x01.txt".toList [255] = none ∧
      ParseGroupBytes "x01.txt".toList (bytes "p".toList) = some ("x".toList, true) ∧
      ParseGroupBytes "x01.txt".toList [] = some ("x".toList, true) := by
  decide

end Shelver
